import Mathlib

/-!
# lib_tar: a read-only USTAR archive inspector (shallow embedding of `src/lib_tar.c`)

An archive is the byte content of the file behind `tar_fd` (the result of `mmap`); a header
is one 512-byte block of it.  The C loops are embedded as functions with a fuel argument:
`none` means that the loop has not finished within the given number of iterations.

Conventions of the embedding
* a byte is a `Fin 256`; plain `char` is signed (x86-64 System V ABI, the Linux target the
  code is written for), so reading a byte `b` as `char` gives `b` for `b < 128` and
  `b - 256` otherwise (`char_val`);
* C strings are read from a pointer into the header up to the first NUL; the header being
  a local copy of one block, the model ends a string at the end of the block at the latest;
* the cursor `int i` and the counters are unbounded integers: for archives below 2^31
  blocks no increment overflows, and an advance that leaves the `int` range ends the loop
  like the unbounded value does.  The loop test `i < st_size / sizeof(tar_header_t)` is
  an unsigned comparison, so a negative cursor ends the loop (`in_archive`);
* every function is called on an open descriptor `tar_fd`.  A call closes it only when
  `st_size <= 0`, and `fstat` fails only on a closed descriptor: this matters inside `list`,
  whose later calls then return -1.  `mmap` with the length `st_size` makes every block of
  the archive readable; `check_archive` passes `st_atime` instead, and a read outside the
  pages it has mapped is undefined behaviour (`Outcome.undefined`);
* `malloc` succeeds, and the buffers the caller passes are as large as the documentation
  of the functions requires.
-/

namespace LibTar

/-- One byte of the archive. -/
abbrev Byte := Fin 256

/-- The value of a byte read through a plain (signed) `char`. -/
def char_val (b : Byte) : Int :=
  if b.val < 128 then (b.val : Int) else (b.val : Int) - 256

/-! ## The header layout and the macros of `lib_tar.h` -/

/-- Modelled from the spec: the field offsets of `tar_header_t` (declared in `lib_tar.h`,
which is not part of the sources): the fixed 512-byte USTAR layout. -/
def OFF_NAME : Nat := 0

/-- Modelled from the spec: offset of the `size` field of `tar_header_t` (12 bytes). -/
def OFF_SIZE : Nat := 124

/-- Modelled from the spec: offset of the `chksum` field of `tar_header_t` (8 bytes). -/
def OFF_CHKSUM : Nat := 148

/-- Modelled from the spec: offset of the `typeflag` field of `tar_header_t` (1 byte). -/
def OFF_TYPEFLAG : Nat := 156

/-- Modelled from the spec: offset of the `linkname` field of `tar_header_t` (100 bytes). -/
def OFF_LINKNAME : Nat := 157

/-- Modelled from the spec: offset of the `magic` field of `tar_header_t` (6 bytes). -/
def OFF_MAGIC : Nat := 257

/-- Modelled from the spec: offset of the `version` field of `tar_header_t` (2 bytes). -/
def OFF_VERSION : Nat := 263

/-- Modelled from the spec: the macro `TMAGIC` of `lib_tar.h`, the string "ustar". -/
def TMAGIC : List Byte := [117, 115, 116, 97, 114]

/-- Modelled from the spec: the macro `TMAGLEN` of `lib_tar.h` ("ustar" and a NUL). -/
def TMAGLEN : Nat := 6

/-- Modelled from the spec: the macro `TVERSION` of `lib_tar.h`, the string "00". -/
def TVERSION : List Byte := [48, 48]

/-- Modelled from the spec: type flag of a regular file, the character 0. -/
def REGTYPE : Byte := 48

/-- Modelled from the spec: type flag of a legacy regular file, the NUL byte. -/
def AREGTYPE : Byte := 0

/-- Modelled from the spec: type flag of a symbolic link, the character 2. -/
def SYMTYPE : Byte := 50

/-- Modelled from the spec: type flag of a directory, the character 5. -/
def DIRTYPE : Byte := 53

/-! ## The C library functions the code calls -/

/-- The string a `char *` designates: the bytes before the first NUL. -/
def cstr (s : List Byte) : List Byte := s.takeWhile (fun c => c ≠ 0)

/-- C `strlen`. -/
def strlen (s : List Byte) : Nat := (cstr s).length

/-- C `strncmp`: the difference of the first two differing bytes (as `unsigned char`)
among the first `n`, comparison stopping after a common NUL; reading past the end of a
list yields the terminating NUL. -/
def strncmp : List Byte → List Byte → Nat → Int
  | _, _, 0 => 0
  | s1, s2, n + 1 =>
    let c1 := s1.headD 0
    let c2 := s2.headD 0
    if c1 ≠ c2 then (c1.val : Int) - (c2.val : Int)
    else if c1 = 0 then 0
    else strncmp s1.tail s2.tail n

/-- C `isspace` in the C locale: space, and the controls 9 to 13. -/
def isspace (c : Byte) : Bool := c = 32 || (9 ≤ c.val && c.val ≤ 13)

/-- The octal digits at the front of `s`, accumulated onto `acc`. -/
def octal_digits : List Byte → Nat → Nat
  | [], acc => acc
  | c :: cs, acc =>
    if 48 ≤ c.val ∧ c.val ≤ 55 then octal_digits cs (acc * 8 + (c.val - 48)) else acc

/-- C `strtol(s, NULL, 8)` with a 64-bit `long`: leading white space, an optional sign,
then octal digits; the value is clamped to the range of `long`; no digit gives 0. -/
def strtol8 (s : List Byte) : Int :=
  match s.dropWhile isspace with
  | [] => 0
  | c :: r =>
    if c = 45 then max (-(octal_digits r 0 : Int)) (-(2 ^ 63 : Int))
    else if c = 43 then min (octal_digits r 0 : Int) (2 ^ 63 - 1)
    else min (octal_digits (c :: r) 0 : Int) (2 ^ 63 - 1)

/-- Modelled from the spec: the macro `TAR_INT` of `lib_tar.h` (not part of the sources),
which decodes an octal ASCII field: `strtol(char_ptr, NULL, 8)`. -/
def TAR_INT (char_ptr : List Byte) : Int := strtol8 char_ptr

/-- The number of bits by which `m` exceeds 24 bits (for `m` below `2 ^ (24 + fuel)`). -/
def excess_bits (m : Nat) : Nat → Nat
  | 0 => 0
  | fuel + 1 => if m < 2 ^ 24 then 0 else 1 + excess_bits (m / 2) fuel

/-- Rounding of a natural number to the nearest value with a 24-bit significand, ties to
even: the magnitude of the conversion of an integer to `float`. -/
def round24 (m : Nat) : Nat :=
  if m < 2 ^ 24 then m
  else
    let e := excess_bits m 64
    let q := m / 2 ^ e
    let r := m % 2 ^ e
    let half := 2 ^ (e - 1)
    if half < r ∨ (r = half ∧ q % 2 = 1) then (q + 1) * 2 ^ e else q * 2 ^ e

/-- The value of `(float)n` for a `long` n; it is always an integer. -/
def float_of_long (n : Int) : Int :=
  if n < 0 then -(round24 n.natAbs : Int) else (round24 n.natAbs : Int)

/-- C `ceil(f / 512)` for an integer-valued `f` (the division by 512 is exact in
binary floating point). -/
def ceil_div512 (f : Int) : Int := -((-f) / 512)

/-! ## `checksum` and `validate_header` -/

/-- The loop of `checksum` over the bytes `header->name[i]`, `header->name[i + 1]`, ...
still to be read, with the running `sum`. -/
def checksum_loop : List Byte → Nat → Int → Int
  | [], _, sum => sum
  | b :: rest, i, sum =>
    if 148 ≤ i ∧ i < 156 then checksum_loop rest (i + 1) sum
    else checksum_loop rest (i + 1) (sum + char_val b)

/-- `checksum` of `src/lib_tar.c`: the loop runs over the 512 bytes of the header. -/
def checksum (header : List Byte) : Int :=
  checksum_loop (header.take 512) 0 0 + 256

/-- `validate_header` of `src/lib_tar.c`. -/
def validate_header (header : List Byte) : Int :=
  let magic := header.drop OFF_MAGIC
  if strlen magic + 1 ≠ TMAGLEN ∨ strncmp magic TMAGIC (strlen magic) ≠ 0 then -1
  else
    let version := (header.drop OFF_VERSION).take 2
    if strncmp version TVERSION 2 ≠ 0 then -2
    else if TAR_INT (header.drop OFF_CHKSUM) ≠ checksum header then -3
    else 0

/-! ## The block walker -/

/-- `fileptr[i]`: block `i` of the archive. -/
def block (a : List Byte) (i : Nat) : List Byte := (a.drop (512 * i)).take 512

/-- `statbuf.st_size / sizeof(tar_header_t)`. -/
def nblocks (a : List Byte) : Nat := a.length / 512

/-- The loop test `i < statbuf.st_size / sizeof(tar_header_t)`, in which `i` is converted
to an unsigned type. -/
def in_archive (a : List Byte) (i : Int) : Prop := 0 ≤ i ∧ i < (nblocks a : Int)

instance (a : List Byte) (i : Int) : Decidable (in_archive a i) := by
  unfold in_archive; infer_instance

/-- The value of `1 + ceil(TAR_INT(header.size) / (float)sizeof(tar_header_t))`. -/
def advance (header : List Byte) : Int :=
  1 + ceil_div512 (float_of_long (TAR_INT (header.drop OFF_SIZE)))

/-- What a call does once it has finished: it returns a value, or it runs into undefined
behaviour (a read outside the mapped pages or before the start of a string, a write past
the end of a buffer). -/
inductive Outcome (α : Type) where
  | ret : α → Outcome α
  | undefined : Outcome α
  deriving DecidableEq, Repr

/-- The size of a page of the target (x86-64 Linux). -/
def PAGE_SIZE : Nat := 4096

/-- The number of bytes of the file that are readable through the pointer returned by
`mmap(NULL, length, PROT_READ, MAP_SHARED, tar_fd, 0)`, `length` being a `long` that is
converted to `size_t`.  The call fails, returns `MAP_FAILED` and makes nothing readable
when the length is 0 or exceeds the 2^47 bytes of the user address space, which is the
case of every negative `long`; otherwise it maps whole pages. -/
def mmap_len (length : Int) : Nat :=
  if length ≤ 0 ∨ 2 ^ 47 ≤ length then 0
  else (length.toNat + (PAGE_SIZE - 1)) / PAGE_SIZE * PAGE_SIZE

/-- The loop of `check_archive`; `mapped` is the number of bytes readable from `fileptr`.
The copy `tar_header_t header = fileptr[i]` reads the 512 bytes of block `i`. -/
def check_archive_loop (a : List Byte) (mapped : Nat) : Nat → Int → Int → Option (Outcome Int)
  | 0, _, _ => none
  | fuel + 1, i, header_amount =>
    if in_archive a i then
      if mapped < 512 * (i.toNat + 1) then some Outcome.undefined
      else
        let header := block a i.toNat
        if strlen header = 0 then check_archive_loop a mapped fuel (i + 1) header_amount
        else
          let ret := validate_header header
          if ret ≠ 0 then some (Outcome.ret ret)
          else check_archive_loop a mapped fuel (i + advance header) (header_amount + 1)
    else some (Outcome.ret header_amount)

/-- `check_archive` of `src/lib_tar.c`, on the archive `a` (its length is `st_size`) whose
access time is `st_atime`: the length passed to `mmap` is `statbuf.st_atime`. -/
def check_archive (fuel : Nat) (a : List Byte) (st_atime : Int) : Option (Outcome Int) :=
  if a.length ≤ 0 then some (Outcome.ret 0)
  else check_archive_loop a (mmap_len st_atime) fuel 0 0

/-- `array_contains` of `src/lib_tar.c`. -/
def array_contains (array : List Byte) (len : Nat) (item : Byte) : Int :=
  if len = 0 then 1
  else if (array.take len).any (fun c => c = item) then 1
  else 0

/-- The test of `check_entry` on a valid header: the name equals `path` over
`fmax(strlen(header.name), strlen(path))` bytes and the type flag is accepted. -/
def entry_matches (header path flags : List Byte) : Bool :=
  strncmp header path (max (strlen header) (strlen path)) = 0
    && array_contains flags flags.length (header.getD OFF_TYPEFLAG 0) ≠ 0

/-- The loop of `check_entry`; the result is the return value and the header copied to
`found_header` (empty when nothing is found). -/
def check_entry_loop (a path flags : List Byte) : Nat → Int → Option (Int × List Byte)
  | 0, _ => none
  | fuel + 1, i =>
    if in_archive a i then
      let header := block a i.toNat
      if strlen header = 0 then check_entry_loop a path flags fuel (i + 1)
      else if validate_header header ≠ 0 then check_entry_loop a path flags fuel (i + 1)
      else if entry_matches header path flags then some (1, header)
      else check_entry_loop a path flags fuel (i + advance header)
    else some (0, [])

/-- `check_entry` of `src/lib_tar.c`, called on an open descriptor; `flags_len` is the
length of `flags`.  The call leaves the descriptor open, except on the empty archive
(`st_size <= 0`), where it closes it before it returns 0. -/
def check_entry (fuel : Nat) (a path flags : List Byte) : Option (Int × List Byte) :=
  if a.length ≤ 0 then some (0, []) else check_entry_loop a path flags fuel 0

/-- `exists` of `src/lib_tar.c`. -/
def tar_exists (fuel : Nat) (a path : List Byte) : Option Int :=
  (check_entry fuel a path []).map Prod.fst

/-- `is_dir` of `src/lib_tar.c`. -/
def is_dir (fuel : Nat) (a path : List Byte) : Option Int :=
  (check_entry fuel a path [DIRTYPE]).map Prod.fst

/-- `is_file` of `src/lib_tar.c`. -/
def is_file (fuel : Nat) (a path : List Byte) : Option Int :=
  (check_entry fuel a path [REGTYPE, AREGTYPE]).map Prod.fst

/-- `is_symlink` of `src/lib_tar.c`. -/
def is_symlink (fuel : Nat) (a path : List Byte) : Option Int :=
  (check_entry fuel a path [SYMTYPE]).map Prod.fst

/-- `count_backslash` of `src/lib_tar.c`: the number of `/` in the string. -/
def count_backslash (str : List Byte) : Nat := (cstr str).count 47

/-- `get_symlink` of `src/lib_tar.c`. -/
def get_symlink (fuel : Nat) (a path : List Byte) : Option (Int × List Byte) :=
  check_entry fuel a path [SYMTYPE]

/-- The test of `list` on a valid header: whether its name is copied to `entries`. -/
def list_selects (header path : List Byte) : Bool :=
  let backslash_amount := count_backslash header
  strncmp header path (strlen path) = 0 && strlen header ≠ strlen path
    && backslash_amount ≤ 2
    && (backslash_amount = 1 || header.getD (strlen header - 1) 0 = 47)

/-- The loop of `list`: `entries` holds the names written so far (`entry` is its length),
`no_entries` is the capacity given by the caller. -/
def list_loop (a path : List Byte) (no_entries : Nat) :
    Nat → Int → List (List Byte) → Option (List (List Byte))
  | 0, _, _ => none
  | fuel + 1, i, entries =>
    if in_archive a i then
      if entries.length ≥ no_entries then some entries
      else
        let header := block a i.toNat
        if strlen header = 0 then list_loop a path no_entries fuel (i + 1) entries
        else if validate_header header ≠ 0 then
          list_loop a path no_entries fuel (i + 1) entries
        else
          list_loop a path no_entries fuel (i + advance header)
            (if list_selects header path then entries ++ [cstr header] else entries)
    else some entries

/-- What a call of `list` leaves behind: the return value, the names written to `entries`
and the value of `*no_entries`. -/
structure ListResult where
  ret : Int
  entries : List (List Byte)
  no_entries : Nat
  deriving DecidableEq, Repr

/-- `list` of `src/lib_tar.c`, called on an open descriptor; the fuel bounds both the
symlink recursion and the loops.  When the call returns 0 or -1 nothing is written and
`*no_entries` keeps its value.
* `strcpy` and `strcat` write `strlen(symheader->linkname) + 2` bytes to `char name[100]`.
* `get_symlink` returns 0 on the empty archive after closing the descriptor: the `fstat`
  of `is_dir` then fails and `is_dir` returns -1, and so does the `fstat` of `list`.  On
  any other archive the descriptor stays open and `st_size <= 0` is false.
* `path[strlen(path) - 1]` is read only when `is_dir` has not returned 0; for the empty
  path it is the byte before the string. -/
def list : Nat → List Byte → List Byte → Nat → Option (Outcome ListResult)
  | 0, _, _, _ => none
  | fuel + 1, a, path, no_entries =>
    match get_symlink fuel a path with
    | none => none
    | some (found, symheader) =>
      if found ≠ 0 then
        if 100 < strlen (symheader.drop OFF_LINKNAME) + 2 then some Outcome.undefined
        else list fuel a (cstr (symheader.drop OFF_LINKNAME) ++ [47]) no_entries
      else
        match (if a.length ≤ 0 then some (-1) else is_dir fuel a path) with
        | none => none
        | some d =>
          if d = 0 then some (Outcome.ret ⟨0, [], no_entries⟩)
          else if strlen path = 0 then some Outcome.undefined
          else if (cstr path).getLast? ≠ some 47 then some (Outcome.ret ⟨0, [], no_entries⟩)
          else if a.length ≤ 0 then some (Outcome.ret ⟨-1, [], no_entries⟩)
          else
            match list_loop a path no_entries fuel 0 [] with
            | none => none
            | some entries => some (Outcome.ret ⟨1, entries, entries.length⟩)

/-! ## Notions used to state the properties -/

/-- The 6-byte magic field of a header. -/
def magic_field (header : List Byte) : List Byte := (header.drop OFF_MAGIC).take 6

/-- The 2-byte version field of a header. -/
def version_field (header : List Byte) : List Byte := (header.drop OFF_VERSION).take 2

/-- The checksum as the specification words it: the sum of the 504 bytes outside the
checksum field (offsets 0..147 and 156..511), each as an unsigned value, plus 256. -/
def unsigned_checksum (header : List Byte) : Int :=
  (((header.take 148).map (fun b => (b.val : Int))).sum
    + (((header.drop 156).take 356).map (fun b => (b.val : Int))).sum) + 256

/-- The number of data blocks of an entry of `s` bytes: `ceil(s / 512)`. -/
def data_blocks (s : Nat) : Nat := (s + 511) / 512

/-- The size field of the header decodes to a non-negative number `s`, and the advance the
code computes in single precision is the exact `1 + ceil(s / 512)`. -/
def size_exact (header : List Byte) : Prop :=
  0 ≤ TAR_INT (header.drop OFF_SIZE) ∧
    advance header = 1 + (data_blocks (TAR_INT (header.drop OFF_SIZE)).toNat : Int)

instance (header : List Byte) : Decidable (size_exact header) := by
  unfold size_exact; infer_instance

/-- The block walker as the specification describes it, from block `i`: one block forward
over a block whose name is empty, `1 + ceil(size / 512)` blocks forward after a valid
header; it stops at the end of the archive and at the first block that fails
`validate_header`.  The result lists the blocks visited, in order. -/
def strict_walk (a : List Byte) : Nat → Nat → List Nat
  | 0, _ => []
  | fuel + 1, i =>
    if i < nblocks a then
      if strlen (block a i) = 0 then i :: strict_walk a fuel (i + 1)
      else if validate_header (block a i) ≠ 0 then [i]
      else
        i :: strict_walk a fuel
          (i + 1 + data_blocks (TAR_INT ((block a i).drop OFF_SIZE)).toNat)
    else []

/-- The blocks the specified walker visits from block 0 (the cursor grows at every step,
so `nblocks a` steps reach the end). -/
def visited (a : List Byte) : List Nat := strict_walk a (nblocks a) 0

/-- The result the specification reads off a list of visited blocks, `c` non-null blocks
having been counted before: the code of the first non-null block that fails
`validate_header`, otherwise the number of non-null blocks. -/
def walk_result (a : List Byte) (c : Int) (l : List Nat) : Int :=
  match l.find? (fun i => strlen (block a i) ≠ 0 ∧ validate_header (block a i) ≠ 0) with
  | some i => validate_header (block a i)
  | none => c + ((l.filter (fun i => strlen (block a i) ≠ 0)).length : Int)

/-- The result the specification gives to `check_archive`. -/
def check_archive_spec (a : List Byte) : Int := walk_result a 0 (visited a)

/-- The blocks read by the loop of `check_archive` during its first `fuel` iterations,
from cursor `i`, when each of them is readable. -/
def check_archive_visits (a : List Byte) : Nat → Int → List Nat
  | 0, _ => []
  | fuel + 1, i =>
    if in_archive a i then
      let header := block a i.toNat
      if strlen header = 0 then i.toNat :: check_archive_visits a fuel (i + 1)
      else if validate_header header ≠ 0 then [i.toNat]
      else i.toNat :: check_archive_visits a fuel (i + advance header)
    else []

/-- The byte `b` with bit number `bit` flipped. -/
def flip_bit (b : Byte) (bit : Nat) : Byte := Fin.ofNat (Nat.xor b.val (2 ^ bit))

/-- The archive with one bit of the byte at position `pos` flipped. -/
def flip_bit_at (a : List Byte) (pos bit : Nat) : List Byte :=
  a.set pos (flip_bit (a.getD pos 0) bit)

/-- The cursor after an iteration of the tolerant walker (the loop shared by `check_entry`
and `list`) that reads block `i` and goes on: one block forward over a block whose name is
empty or that fails `validate_header`, `advance` blocks forward after a valid header. -/
def tolerant_step (a : List Byte) (i : Int) : Int :=
  if strlen (block a i.toNat) = 0 then i + 1
  else if validate_header (block a i.toNat) ≠ 0 then i + 1
  else i + advance (block a i.toNat)

/-- The blocks read by the tolerant walker during its first `fuel` iterations, from
cursor `i`. -/
def tolerant_visits (a : List Byte) : Nat → Int → List Nat
  | 0, _ => []
  | fuel + 1, i =>
    if in_archive a i then i.toNat :: tolerant_visits a fuel (tolerant_step a i) else []

/-- The tolerant walker leaves the archive after finitely many iterations. -/
def walk_ends (a : List Byte) : Prop := ∃ fuel, (tolerant_visits a fuel 0).length < fuel

/-- A valid header: a block whose name is not empty and that passes `validate_header`. -/
def is_entry (header : List Byte) : Bool :=
  strlen header ≠ 0 && validate_header header = 0

/-- The name comparison of `check_entry`. -/
def name_matches (header path : List Byte) : Bool :=
  strncmp header path (max (strlen header) (strlen path)) = 0

/-- The tolerant walker reaches a valid header whose name matches `path` and whose type
flag satisfies `accept`. -/
def walk_reaches (a path : List Byte) (accept : Byte → Bool) : Prop :=
  ∃ fuel j, j ∈ tolerant_visits a fuel 0 ∧ is_entry (block a j) = true ∧
    name_matches (block a j) path = true ∧ accept ((block a j).getD OFF_TYPEFLAG 0) = true

/-- The call returns a non-zero value, given enough fuel. -/
def returns_nonzero (f : Nat → Option Int) : Prop := ∃ fuel r, f fuel = some r ∧ r ≠ 0

/-- The call returns zero, given enough fuel. -/
def returns_zero (f : Nat → Option Int) : Prop := ∃ fuel, f fuel = some 0

/-- The valid headers the tolerant walker meets during its first `fuel` iterations from
block 0, in order: the entries of the archive when the walk ends within `fuel` steps. -/
def entries_of (a : List Byte) (fuel : Nat) : List (List Byte) :=
  ((tolerant_visits a fuel 0).map (block a)).filter is_entry

/-- The name `e` is a direct child of the directory path `p`: it starts with `p`, is
strictly longer, and what follows `p` contains no `/` except possibly as last byte. -/
def direct_child (p e : List Byte) : Bool :=
  p.isPrefixOf e && decide (p.length < e.length) && !((e.drop p.length).dropLast.contains 47)

/-! ## Test data -/

/-- A list padded with NUL bytes (or cut) to `n` bytes. -/
def pad (n : Nat) (s : List Byte) : List Byte := (s ++ List.replicate n 0).take n

/-- The six-digit octal representation of `n` followed by NUL and space, the way `tar`
writes the checksum field. -/
def octal6 (n : Nat) : List Byte :=
  [Fin.ofNat (48 + n / 32768 % 8), Fin.ofNat (48 + n / 4096 % 8), Fin.ofNat (48 + n / 512 % 8),
   Fin.ofNat (48 + n / 64 % 8), Fin.ofNat (48 + n / 8 % 8), Fin.ofNat (48 + n % 8), 0, 32]

/-- A header block with the given name, size field, checksum field, type flag and link
name, the magic "ustar", the version "00", and NUL bytes elsewhere. -/
def raw_header (name size chksum : List Byte) (typeflag : Byte) (linkname : List Byte) :
    List Byte :=
  pad 100 name ++ List.replicate 24 0 ++ pad 12 size ++ List.replicate 12 0 ++ pad 8 chksum
    ++ [typeflag] ++ pad 100 linkname ++ [117, 115, 116, 97, 114, 0] ++ [48, 48]
    ++ List.replicate 247 0

/-- A header block as `raw_header`, with the checksum field filled in. -/
def mk_header (name size : List Byte) (typeflag : Byte) (linkname : List Byte) : List Byte :=
  raw_header name size
    (octal6 (checksum (raw_header name size [] typeflag linkname)).toNat) typeflag linkname

/-- A one-block archive: a valid header named `a` whose size field reads `-1000`
(octal, that is -512). -/
def loop_archive : List Byte := mk_header [97] [45, 49, 48, 48, 48] 48 []

/-- A two-entry archive: the file `a` of 600 bytes (size field `1130`, two data blocks
of bytes 1) and the empty file `b`, followed by two null blocks. -/
def small_archive : List Byte :=
  mk_header [97] [49, 49, 51, 48] 48 [] ++ List.replicate 1024 1
    ++ mk_header [98] [48] 48 [] ++ List.replicate 1024 0

/-- A header whose name holds the two bytes 195 and 169 (the UTF-8 encoding of an
accented letter), with the checksum field as `tar` computes it (unsigned sum 1371,
octal 002533). -/
def accent_header : List Byte :=
  raw_header [195, 169] [48] [48, 48, 50, 53, 51, 51, 0, 32] 48 []

/-- The header of a file `a` of 33554433 bytes (2^25 + 1, size field `200000001`). -/
def big_header : List Byte := mk_header [97] [50, 48, 48, 48, 48, 48, 48, 48, 49] 48 []

/-- A block that is itself a valid header, named `c`, with size field `1000` (512). -/
def forged_block : List Byte := mk_header [99] [49, 48, 48, 48] 48 []

/-- The header of an empty file `b`. -/
def target_header : List Byte := mk_header [98] [48] 48 []

/-- A run of `n` null blocks. -/
def zero_blocks (n : Nat) : List Byte := List.replicate (512 * n) 0

/-- The 65537 data blocks of the entry `big_header`: 65536 null blocks, then a last
block, `forged_block`, whose first byte ends the file content. -/
def big_data : List Byte := zero_blocks 65536 ++ forged_block

/-- A two-entry archive: the file `a` of 33554433 bytes followed by the empty file `b`. -/
def forged_archive : List Byte := (big_header ++ big_data) ++ target_header

/-- A one-entry archive: the file `dir/file`. -/
def file_archive : List Byte := mk_header [100, 105, 114, 47, 102, 105, 108, 101] [48] 48 []

/-- A three-entry archive: the directories `a/` and `a/b/` and the file `a/b/c`. -/
def nested_archive : List Byte :=
  mk_header [97, 47] [48] 53 [] ++ mk_header [97, 47, 98, 47] [48] 53 []
    ++ mk_header [97, 47, 98, 47, 99] [48] 48 []

/-- An archive of six entries: the tree `dir/`, `dir/a`, `dir/b`, `dir/c/`, `dir/c/d`,
`dir/e/` of the documentation of `list`. -/
def tree_archive : List Byte :=
  mk_header [100, 105, 114, 47] [48] 53 []
    ++ mk_header [100, 105, 114, 47, 97] [48] 48 []
    ++ mk_header [100, 105, 114, 47, 98] [48] 48 []
    ++ mk_header [100, 105, 114, 47, 99, 47] [48] 53 []
    ++ mk_header [100, 105, 114, 47, 99, 47, 100] [48] 48 []
    ++ mk_header [100, 105, 114, 47, 101, 47] [48] 53 []

/-! ## `read_file` -/

/-- Conversion of an integer value to `int` (32 bits, two's complement). -/
def to_int32 (x : Int) : Int := (x + 2 ^ 31) % 2 ^ 32 - 2 ^ 31

/-- Conversion of a `long` to the unsigned 64-bit type of `size_t`. -/
def to_uint64 (x : Int) : Nat := (x % 2 ^ 64).toNat

/-- The search made by the loop of `read_file`: the index and the copy of the first valid
header whose name equals `path` over `fmax(strlen(header.name), strlen(path))` bytes;
`some none` when the cursor leaves the archive without one. -/
def read_file_loop (a path : List Byte) : Nat → Int → Option (Option (Nat × List Byte))
  | 0, _ => none
  | fuel + 1, i =>
    if in_archive a i then
      let header := block a i.toNat
      if strlen header = 0 then read_file_loop a path fuel (i + 1)
      else if validate_header header ≠ 0 then read_file_loop a path fuel (i + 1)
      else if strncmp header path (max (strlen header) (strlen path)) = 0 then
        some (some (i.toNat, header))
      else read_file_loop a path fuel (i + advance header)
    else some none

/-- What a call of `read_file` leaves behind: the return value, the bytes copied to
`dest` and the value of `*len`. -/
structure ReadResult where
  ret : Int
  dest : List Byte
  len : Nat
  deriving DecidableEq, Repr

/-- The body of the loop of `read_file` on the matching header at block `i`, once it is
known not to be a symlink.  The comparisons between `offset`, `*len` and the `long`
size are unsigned; `remainder` is an `int`; `fmin` is exact as soon as one of its
arguments is below 2^53; the bytes copied by `memcpy` are those of the archive from
`(i + 1) * 512 + offset` on. -/
def read_entry (a : List Byte) (i : Nat) (header : List Byte) (offset len : Nat) :
    ReadResult :=
  let size := TAR_INT (header.drop OFF_SIZE)
  if offset > to_uint64 size ∨ offset > len then ⟨-2, [], 0⟩
  else
    let remainder : Int := if len < to_uint64 size then to_int32 (size - len - offset) else 0
    let n := min len (to_uint64 size - offset)
    ⟨remainder, (a.drop ((i + 1) * 512 + offset)).take n, n⟩

/-- `read_file` of `src/lib_tar.c`, called on an open descriptor; the fuel bounds both the
symlink recursion and the loops.  When the call returns -1 nothing is copied and `*len`
keeps its value.  On the empty archive `is_file` closes the descriptor and returns 0, the
`fstat` of `is_symlink` and the one of `read_file` then fail, and the call returns -1: the
value the first test gives here. -/
def read_file : Nat → List Byte → List Byte → Nat → Nat → Option ReadResult
  | 0, _, _, _, _ => none
  | fuel + 1, a, path, offset, len =>
    match is_file fuel a path with
    | none => none
    | some f =>
      match (if f = 0 then is_symlink fuel a path else some 1) with
      | none => none
      | some s =>
        if f = 0 ∧ s = 0 then some ⟨-1, [], len⟩
        else if a.length ≤ 0 then some ⟨-1, [], len⟩
        else
          match read_file_loop a path fuel 0 with
          | none => none
          | some none => some ⟨-1, [], len⟩
          | some (some (i, header)) =>
            if header.getD OFF_TYPEFLAG 0 = SYMTYPE then
              read_file fuel a (header.drop OFF_LINKNAME) offset len
            else read_entry a i header offset len

/-! ## Notions used to state the properties of symlinks and reads -/

/-- The first block, among those the tolerant walker reads during its first `fuel`
iterations, that is a valid header accepted by `entry_matches`. -/
def first_hit (a : List Byte) (fuel : Nat) (path flags : List Byte) : Option Nat :=
  (tolerant_visits a fuel 0).find?
    (fun j => is_entry (block a j) && entry_matches (block a j) path flags)

/-- The path `list` goes on with after a symlink header: the link name and a `/`. -/
def list_target (header : List Byte) : List Byte :=
  cstr (header.drop OFF_LINKNAME) ++ [47]

/-- The path reached from `path` by following symlink entries the way `list` does, at
most `k - 1` of them, each with a link name that fits `char name[100]` together with the
`/` and the NUL: `some q` when `q` is reached and is not the name of a symlink. -/
def chase (a : List Byte) (fuel : Nat) : Nat → List Byte → Option (List Byte)
  | 0, _ => none
  | k + 1, path =>
    match first_hit a fuel path [SYMTYPE] with
    | none => some path
    | some j =>
      if 100 < strlen ((block a j).drop OFF_LINKNAME) + 2 then none
      else chase a fuel k (list_target (block a j))

/-! ## Test data for symlinks and reads -/

/-- A block of file content: the given bytes padded with NUL to 512 bytes. -/
def data_block (content : List Byte) : List Byte := pad 512 content

/-- A one-entry archive: the regular file `f` of 10 bytes (size field `12`) whose
content is the ten digits. -/
def ten_archive : List Byte :=
  mk_header [102] [49, 50] 48 [] ++ data_block [48, 49, 50, 51, 52, 53, 54, 55, 56, 57]

/-- The header of a regular file `a` of 2147483649 bytes (2^31 + 1, size field
`20000000001`). -/
def huge_header : List Byte :=
  mk_header [97] [50, 48, 48, 48, 48, 48, 48, 48, 48, 48, 49] 48 []

/-- A one-entry archive: the file `a` of 2^31 + 1 NUL bytes (4194305 data blocks). -/
def huge_archive : List Byte := huge_header ++ zero_blocks 4194305

/-- A four-entry archive: the directory `dir/`, the file `dir/a`, the symlink `l` whose
link name is `dir/` and the symlink `m` whose link name is `dir`. -/
def link_archive : List Byte :=
  mk_header [100, 105, 114, 47] [48] 53 []
    ++ mk_header [100, 105, 114, 47, 97] [48] 48 []
    ++ mk_header [108] [48] 50 [100, 105, 114, 47]
    ++ mk_header [109] [48] 50 [100, 105, 114]

/-- A two-entry archive: the file `f` of `ten_archive` followed by the symlink `s` whose
link name is `f`. -/
def symlink_archive : List Byte := ten_archive ++ mk_header [115] [48] 50 [102]

/-- A two-entry archive: the symlink `a` to `b` and the symlink `b` to `a`. -/
def cycle_archive : List Byte :=
  mk_header [97] [48] 50 [98] ++ mk_header [98] [48] 50 [97]

/-- The header `accent_header` with its checksum field overwritten by NUL bytes. -/
def accent_header_zeroed : List Byte :=
  accent_header.take 148 ++ List.replicate 8 0 ++ accent_header.drop 156

/-- A one-entry archive: the directory `e/`, without any entry below it. -/
def empty_dir_archive : List Byte := mk_header [101, 47] [48] 53 []

/-! ## Test data for corrupted headers -/

/-- A three-entry archive of seven blocks: the empty file `c`, then `small_archive` (the
file `a` of 600 bytes with its two data blocks, the empty file `b`, two null blocks). -/
def three_archive : List Byte := mk_header [99] [48] 48 [] ++ small_archive

/-- The archive `three_archive` with the first byte of the magic field of its second
header (block 1, the entry `a`; byte 512 + 257) overwritten: `x` for `u`. -/
def broken_archive : List Byte := three_archive.set 769 120

/-- A two-entry archive: the empty files `a` and `b`. -/
def pair_archive : List Byte := mk_header [97] [48] 48 [] ++ target_header

/-- The archive `pair_archive` with the first byte of its first header, the first byte of
the name `a`, overwritten by NUL. -/
def unnamed_archive : List Byte := pair_archive.set 0 0

/-! ## Test data for the mapping and for large entries below a directory -/

/-- An access time: 1700000000 seconds after the epoch (14 November 2023). -/
def access_time : Int := 1700000000

/-- The header of a file `dir/a` of 33554433 bytes (2^25 + 1, size field `200000001`). -/
def dir_big_header : List Byte :=
  mk_header [100, 105, 114, 47, 97] [50, 48, 48, 48, 48, 48, 48, 48, 49] 48 []

/-- A block that is itself a valid header, named `dir/x`, with size field `1000` (512). -/
def phantom_block : List Byte := mk_header [100, 105, 114, 47, 120] [49, 48, 48, 48] 48 []

/-- The header of the directory `dir/`. -/
def dir_header : List Byte := mk_header [100, 105, 114, 47] [48] 53 []

/-- The header of an empty file `dir/b`. -/
def dir_b_header : List Byte := mk_header [100, 105, 114, 47, 98] [48] 48 []

/-- An archive of three entries: the directory `dir/`, the file `dir/a` of 33554433 bytes,
whose 65537 data blocks are 65536 null blocks and a last block, `phantom_block`, whose
first byte ends the file content, and the empty file `dir/b`. -/
def dir_forged_archive : List Byte :=
  dir_header ++ ((dir_big_header ++ (zero_blocks 65536 ++ phantom_block)) ++ dir_b_header)

/-! ## Lemmas on the C library functions -/

set_option maxRecDepth 100000

theorem fin_sub_ne_zero (c1 c2 : Byte) (h : c1 ≠ c2) : (c1.val : Int) - (c2.val : Int) ≠ 0 := by
  intro h0
  apply h
  apply Fin.ext
  omega

theorem byte_val_ne_zero (c : Byte) (h : ¬ c = 0) : ¬ (c.val = 0) := by
  intro h0; apply h; apply Fin.ext; simpa using h0

theorem byte_int_ne_zero (c : Byte) (h : ¬ c = 0) : ¬ ((c.val : Int) = 0) := by
  intro h0; apply h; apply Fin.ext; simp; omega

theorem cstr_nil : cstr [] = [] := rfl

theorem cstr_cons (c : Byte) (s : List Byte) :
    cstr (c :: s) = if c = 0 then [] else c :: cstr s := by
  unfold cstr
  by_cases hc : c = 0 <;> simp [List.takeWhile_cons, hc]

/-- `strncmp` returns 0 exactly when the two strings agree on their first `n` bytes. -/
theorem strncmp_eq_zero_iff (n : Nat) : ∀ s1 s2 : List Byte,
    strncmp s1 s2 n = 0 ↔ (cstr s1).take n = (cstr s2).take n := by
  induction n with
  | zero => intro s1 s2; simp [strncmp]
  | succ n ih =>
    intro s1 s2
    rw [strncmp]
    cases s1 with
    | nil =>
      cases s2 with
      | nil => simp [cstr_nil]
      | cons c2 t2 =>
        by_cases h2 : c2 = 0
        · subst h2; simp [cstr_nil, cstr_cons]
        · have h2' : (0 : Byte) ≠ c2 := fun h => h2 h.symm
          simp [cstr_nil, cstr_cons, h2, h2', byte_val_ne_zero c2 h2, byte_int_ne_zero c2 h2]
    | cons c1 t1 =>
      cases s2 with
      | nil =>
        by_cases h1 : c1 = 0
        · subst h1; simp [cstr_nil, cstr_cons]
        · simp [cstr_nil, cstr_cons, h1, byte_val_ne_zero c1 h1, byte_int_ne_zero c1 h1]
      | cons c2 t2 =>
        by_cases h12 : c1 = c2
        · subst h12
          by_cases h1 : c1 = 0
          · subst h1; simp [cstr_cons]
          · simp [cstr_cons, h1, ih t1 t2]
        · have := fin_sub_ne_zero c1 c2 h12
          by_cases h1 : c1 = 0
          · subst h1
            have h2 : ¬ c2 = 0 := fun h => h12 h.symm
            simp [cstr_cons, h12, h2, byte_val_ne_zero c2 h2, byte_int_ne_zero c2 h2]
          · by_cases h2 : c2 = 0
            · subst h2; simp [cstr_cons, h12, h1, byte_val_ne_zero c1 h1, byte_int_ne_zero c1 h1]
            · simp [cstr_cons, h12, this, h1, h2]

theorem magic_check_iff (m : List Byte) (hm : 6 ≤ m.length) :
    (strlen m + 1 ≠ TMAGLEN ∨ strncmp m TMAGIC (strlen m) ≠ 0) ↔
      m.take 6 ≠ [117, 115, 116, 97, 114, 0] := by
  match m, hm with
  | c0 :: c1 :: c2 :: c3 :: c4 :: c5 :: rest, _ =>
    rw [Ne, Ne, strncmp_eq_zero_iff]
    simp only [strlen, TMAGLEN, TMAGIC, cstr_cons, cstr_nil]
    by_cases h0 : c0 = 0 <;> by_cases h1 : c1 = 0 <;> by_cases h2 : c2 = 0 <;>
      by_cases h3 : c3 = 0 <;> by_cases h4 : c4 = 0 <;> by_cases h5 : c5 = 0 <;>
      simp [h0, h1, h2, h3, h4, h5]

theorem version_check_iff (v : List Byte) (hv : 2 ≤ v.length) :
    strncmp (v.take 2) TVERSION 2 ≠ 0 ↔ v.take 2 ≠ [48, 48] := by
  match v, hv with
  | c0 :: c1 :: rest, _ =>
    rw [Ne, Ne, strncmp_eq_zero_iff]
    simp only [TVERSION, cstr_cons, cstr_nil, List.take_succ_cons, List.take_zero]
    by_cases h0 : c0 = 0 <;> by_cases h1 : c1 = 0 <;> simp [h0, h1]

theorem validate_header_codes (header : List Byte) :
    validate_header header = -1 ∨ validate_header header = -2 ∨
      validate_header header = -3 ∨ validate_header header = 0 := by
  unfold validate_header
  simp only []
  split_ifs <;> simp

/-- C2. For every 512-byte header, `validate_header` returns -1 iff the magic field is
not "ustar" followed by NUL; otherwise -2 iff the version field is not "00"; otherwise -3
iff the checksum field, decoded by `TAR_INT`, differs from `checksum`; otherwise 0: the
three tests are made in this order and the first that fails decides. -/
theorem validate_header_spec (header : List Byte) (hlen : header.length = 512) :
    validate_header header =
      if magic_field header ≠ [117, 115, 116, 97, 114, 0] then -1
      else if version_field header ≠ [48, 48] then -2
      else if TAR_INT (header.drop OFF_CHKSUM) ≠ checksum header then -3
      else 0 := by
  have hm : 6 ≤ (header.drop OFF_MAGIC).length := by simp [OFF_MAGIC, hlen]
  have hv : 2 ≤ (header.drop OFF_VERSION).length := by simp [OFF_VERSION, hlen]
  unfold validate_header magic_field version_field
  simp only [magic_check_iff _ hm, version_check_iff _ hv]

theorem validate_header_spec_witness :
    (mk_header [97] [48] 48 []).length = 512 ∧
      validate_header (mk_header [97] [48] 48 []) =
        if magic_field (mk_header [97] [48] 48 []) ≠ [117, 115, 116, 97, 114, 0] then -1
        else if version_field (mk_header [97] [48] 48 []) ≠ [48, 48] then -2
        else if TAR_INT ((mk_header [97] [48] 48 []).drop OFF_CHKSUM)
            ≠ checksum (mk_header [97] [48] 48 []) then -3
        else 0 :=
  ⟨by decide!, validate_header_spec _ (by decide!)⟩

/-- C3. On the header `accent_header`, whose name holds two bytes above 127, `checksum`
adds the bytes as signed `char` values and returns 859, whereas the sum of the 504 bytes
outside the checksum field taken as unsigned values, plus 256, is 1371, the value stored
in the checksum field; `validate_header` rejects the header with -3. -/
theorem checksum_signed_bytes :
    accent_header.length = 512 ∧ checksum accent_header = 859 ∧
      unsigned_checksum accent_header = 1371 ∧
      TAR_INT (accent_header.drop OFF_CHKSUM) = 1371 ∧
      validate_header accent_header = -3 := by
  decide!

/-! ## `check_archive` -/

theorem in_archive_cast (a : List Byte) (i : Nat) : in_archive a (i : Int) ↔ i < nblocks a := by
  unfold in_archive
  omega

theorem walk_result_nil (a : List Byte) (c : Int) : walk_result a c [] = c := by
  simp [walk_result]

theorem walk_result_cons_null (a : List Byte) (c : Int) (i : Nat) (l : List Nat)
    (h : strlen (block a i) = 0) : walk_result a c (i :: l) = walk_result a c l := by
  simp [walk_result, h]

theorem walk_result_cons_bad (a : List Byte) (c : Int) (i : Nat) (l : List Nat)
    (h : ¬ strlen (block a i) = 0) (hv : ¬ validate_header (block a i) = 0) :
    walk_result a c (i :: l) = validate_header (block a i) := by
  simp [walk_result, h, hv]

theorem walk_result_cons_valid (a : List Byte) (c : Int) (i : Nat) (l : List Nat)
    (h : ¬ strlen (block a i) = 0) (hv : validate_header (block a i) = 0) :
    walk_result a c (i :: l) = walk_result a (c + 1) l := by
  unfold walk_result
  rw [List.find?_cons_of_neg _ (by simp [h, hv]), List.filter_cons_of_pos (by simp [h])]
  generalize List.find? _ l = o
  cases o with
  | some j => rfl
  | none => simp only [List.length_cons]; push_cast; ring

theorem readable_of_covered (a : List Byte) (mapped : Nat) (hmap : 512 * nblocks a ≤ mapped)
    (i : Int) (hin : in_archive a i) : ¬ mapped < 512 * (i.toNat + 1) := by
  unfold in_archive at hin
  omega

theorem check_archive_loop_step (a : List Byte) (mapped : Nat)
    (hmap : 512 * nblocks a ≤ mapped) (fuel : Nat) (i c : Int) :
    check_archive_loop a mapped (fuel + 1) i c =
      if in_archive a i then
        if strlen (block a i.toNat) = 0 then check_archive_loop a mapped fuel (i + 1) c
        else if validate_header (block a i.toNat) ≠ 0 then
          some (Outcome.ret (validate_header (block a i.toNat)))
        else check_archive_loop a mapped fuel (i + advance (block a i.toNat)) (c + 1)
      else some (Outcome.ret c) := by
  rw [check_archive_loop]
  by_cases hin : in_archive a i
  · rw [if_pos hin, if_pos hin, if_neg (readable_of_covered a mapped hmap i hin)]
  · rw [if_neg hin, if_neg hin]

theorem check_archive_loop_refines (a : List Byte) (mapped : Nat)
    (hmap : 512 * nblocks a ≤ mapped) : ∀ (fuel i : Nat) (c : Int),
    nblocks a ≤ i + fuel →
    (∀ j ∈ strict_walk a fuel i, strlen (block a j) ≠ 0 → validate_header (block a j) = 0 →
      size_exact (block a j)) →
    check_archive_loop a mapped (fuel + 1) (i : Int) c
      = some (Outcome.ret (walk_result a c (strict_walk a fuel i))) := by
  intro fuel
  induction fuel with
  | zero =>
    intro i c hi _
    have : ¬ in_archive a (i : Int) := by rw [in_archive_cast]; omega
    rw [check_archive_loop_step a mapped hmap, if_neg this]
    simp [strict_walk, walk_result_nil]
  | succ fuel ih =>
    intro i c hi hsz
    rw [check_archive_loop_step a mapped hmap]
    by_cases hin : i < nblocks a
    · have hin' : in_archive a (i : Int) := (in_archive_cast a i).2 hin
      simp only [hin', if_true, Int.toNat_ofNat]
      by_cases hnull : strlen (block a i) = 0
      · have hw : strict_walk a (fuel + 1) i = i :: strict_walk a fuel (i + 1) := by
          rw [strict_walk]; simp [hin, hnull]
        have := ih (i + 1) c (by omega) (fun j hj => hsz j (by rw [hw]; simp [hj]))
        simp only [hnull, if_true]
        rw [hw, walk_result_cons_null a c i _ hnull]
        simpa using this
      · by_cases hval : validate_header (block a i) = 0
        · have hw : strict_walk a (fuel + 1) i = i :: strict_walk a fuel
              (i + 1 + data_blocks (TAR_INT ((block a i).drop OFF_SIZE)).toNat) := by
            rw [strict_walk]; simp [hin, hnull, hval]
          have hex := hsz i (by rw [hw]; simp) hnull hval
          have := ih (i + 1 + data_blocks (TAR_INT ((block a i).drop OFF_SIZE)).toNat) (c + 1)
            (by omega) (fun j hj => hsz j (by rw [hw]; simp [hj]))
          simp only [hnull, hval, if_false, ne_eq, not_true_eq_false]
          rw [hw, hex.2, walk_result_cons_valid a c i _ hnull hval]
          have hc : (i : Int) + (1 + (data_blocks (TAR_INT ((block a i).drop OFF_SIZE)).toNat : Int))
              = ((i + 1 + data_blocks (TAR_INT ((block a i).drop OFF_SIZE)).toNat : Nat) : Int) := by
            push_cast; ring
          rw [hc, this]
        · have hw : strict_walk a (fuel + 1) i = [i] := by
            rw [strict_walk]; simp [hin, hnull, hval]
          simp only [hnull, hval, if_false, ne_eq, not_false_eq_true, if_true]
          rw [hw, walk_result_cons_bad a c i _ hnull hval]
    · have hin' : ¬ in_archive a (i : Int) := by rw [in_archive_cast]; exact hin
      have hw : strict_walk a (fuel + 1) i = [] := by
        rw [strict_walk]; simp [hin]
      simp [hin', hw, walk_result_nil]

theorem round24_small (m : Nat) (h : m ≤ 2 ^ 24) : round24 m = m := by
  unfold round24
  by_cases hlt : m < 2 ^ 24
  · rw [if_pos hlt]
  · have : m = 2 ^ 24 := by omega
    subst this
    decide

/-- For a size field that decodes to a value between 0 and 2^24, the advance computed in
single precision is the exact one. -/
theorem size_exact_of_small (header : List Byte)
    (h0 : 0 ≤ TAR_INT (header.drop OFF_SIZE)) (h1 : TAR_INT (header.drop OFF_SIZE) ≤ 2 ^ 24) :
    size_exact header := by
  refine ⟨h0, ?_⟩
  unfold advance float_of_long ceil_div512 data_blocks
  generalize TAR_INT (header.drop OFF_SIZE) = s at h0 h1
  have hn : ¬ s < 0 := by omega
  rw [if_neg hn, round24_small _ (by omega)]
  omega

theorem check_archive_loop_mono (a : List Byte) (mapped : Nat) : ∀ (fuel : Nat) (i c : Int)
    (r : Outcome Int), check_archive_loop a mapped fuel i c = some r →
    ∀ k, check_archive_loop a mapped (fuel + k) i c = some r := by
  intro fuel
  induction fuel with
  | zero => intro i c r h; simp [check_archive_loop] at h
  | succ fuel ih =>
    intro i c r h k
    rw [show fuel + 1 + k = (fuel + k) + 1 by omega, check_archive_loop]
    rw [check_archive_loop] at h
    by_cases hin : in_archive a i
    · simp only [hin, if_true] at h ⊢
      by_cases hread : mapped < 512 * (i.toNat + 1)
      · simpa only [hread, if_true] using h
      · simp only [hread, if_false] at h ⊢
        by_cases hnull : strlen (block a i.toNat) = 0
        · simp only [hnull, if_true] at h ⊢
          exact ih _ _ _ h k
        · simp only [hnull, if_false] at h ⊢
          by_cases hval : validate_header (block a i.toNat) = 0
          · simp only [hval, ne_eq, not_true_eq_false, if_false] at h ⊢
            exact ih _ _ _ h k
          · simpa only [hval, ne_eq, not_false_eq_true, if_true] using h
    · simpa only [hin, if_false] using h

theorem walk_result_codes (a : List Byte) (c : Int) (l : List Nat) (hc : 0 ≤ c) :
    walk_result a c l = -1 ∨ walk_result a c l = -2 ∨ walk_result a c l = -3 ∨
      0 ≤ walk_result a c l := by
  unfold walk_result
  cases hf : l.find? (fun i => strlen (block a i) ≠ 0 ∧ validate_header (block a i) ≠ 0) with
  | some j =>
    have hp := List.find?_some hf
    simp only [ne_eq, decide_eq_true_eq] at hp
    rcases validate_header_codes (block a j) with h | h | h | h
    · exact Or.inl h
    · exact Or.inr (Or.inl h)
    · exact Or.inr (Or.inr (Or.inl h))
    · exact absurd h hp.2
  | none =>
    right; right; right
    simp only
    omega

/-- C1 (amended). For every archive in which each valid header met by the specified walker
(start at block 0, one block forward over a block whose name is empty, `1 + ceil(size/512)`
blocks forward after a valid header) has a size field that decodes to a non-negative
number for which the advance computed in single precision is exact, and whose whole
blocks all lie in the pages that `mmap` called with the length `st_atime` makes readable,
`check_archive` returns, with any fuel above the number of blocks: the code (-1, -2 or -3)
of the first visited non-null block that fails `validate_header` if there is one,
otherwise the number of non-null blocks visited, which is 0 for the empty archive. -/
theorem check_archive_refines (a : List Byte) (st_atime : Int) (fuel : Nat)
    (hfuel : nblocks a < fuel) (hmap : 512 * nblocks a ≤ mmap_len st_atime)
    (hsize : ∀ i ∈ visited a, strlen (block a i) ≠ 0 → validate_header (block a i) = 0 →
      size_exact (block a i)) :
    check_archive fuel a st_atime = some (Outcome.ret (check_archive_spec a)) ∧
      (check_archive_spec a = -1 ∨ check_archive_spec a = -2 ∨ check_archive_spec a = -3 ∨
        0 ≤ check_archive_spec a) ∧
      (a = [] → check_archive_spec a = 0) := by
  refine ⟨?_, walk_result_codes a 0 _ (le_refl 0), ?_⟩
  · unfold check_archive
    by_cases hl : a.length ≤ 0
    · have ha : a = [] := List.length_eq_zero.1 (by omega)
      subst ha
      simp [check_archive_spec, visited, nblocks, strict_walk, walk_result_nil]
    · simp only [hl, if_false]
      have h := check_archive_loop_refines a _ hmap (nblocks a) 0 0 (by omega) hsize
      have h2 := check_archive_loop_mono a _ _ _ _ _ h (fuel - (nblocks a + 1))
      rw [show nblocks a + 1 + (fuel - (nblocks a + 1)) = fuel by omega] at h2
      exact h2
  · intro ha
    subst ha
    simp [check_archive_spec, visited, nblocks, strict_walk, walk_result_nil]

theorem check_archive_refines_witness :
    nblocks small_archive < 7 ∧ 512 * nblocks small_archive ≤ mmap_len access_time ∧
      (∀ i ∈ visited small_archive, strlen (block small_archive i) ≠ 0 →
        validate_header (block small_archive i) = 0 → size_exact (block small_archive i)) ∧
      (check_archive 7 small_archive access_time
          = some (Outcome.ret (check_archive_spec small_archive)) ∧
        (check_archive_spec small_archive = -1 ∨ check_archive_spec small_archive = -2 ∨
          check_archive_spec small_archive = -3 ∨ 0 ≤ check_archive_spec small_archive) ∧
        (small_archive = [] → check_archive_spec small_archive = 0)) :=
  ⟨by decide!, by decide!, by decide!,
    check_archive_refines small_archive access_time 7 (by decide!) (by decide!) (by decide!)⟩

theorem check_archive_loop_stuck (mapped : Nat) (hmap : 512 ≤ mapped) : ∀ (fuel : Nat) (c : Int),
    check_archive_loop loop_archive mapped fuel 0 c = none := by
  have h1 : in_archive loop_archive 0 := by decide!
  have h2 : ¬ strlen (block loop_archive 0) = 0 := by decide!
  have h3 : validate_header (block loop_archive 0) = 0 := by decide!
  have h4 : (0 : Int) + advance (block loop_archive 0) = 0 := by decide!
  have h5 : ¬ mapped < 512 * (0 + 1) := by omega
  intro fuel
  induction fuel with
  | zero => intro c; rfl
  | succ fuel ih =>
    intro c
    rw [check_archive_loop]
    simp only [h1, if_true, h5, if_false, Int.toNat_zero, h2, h3, ne_eq, not_true_eq_false, h4]
    exact ih (c + 1)

/-- C1 (counterexample). On the one-block archive `loop_archive`, a valid header whose size
field reads `-1000`, the advance is 0: the loop of `check_archive` reads block 0 again and
again, and the call has no outcome whatever the fuel (the block is readable with the
access time `access_time`). -/
theorem check_archive_never_returns :
    validate_header (block loop_archive 0) = 0 ∧ advance (block loop_archive 0) = 0 ∧
      512 * nblocks loop_archive ≤ mmap_len access_time ∧
      ¬ ∃ fuel r, check_archive fuel loop_archive access_time = some r := by
  refine ⟨by decide!, by decide!, by decide!, ?_⟩
  rintro ⟨fuel, r, h⟩
  have hl : ¬ loop_archive.length ≤ 0 := by decide!
  have hm : 512 ≤ mmap_len access_time := by decide!
  simp only [check_archive, hl, if_false, check_archive_loop_stuck _ hm] at h
  exact absurd h (by simp)

/-! ## Blocks of a modified archive, and the checksum as a sum -/

theorem block_getElem? (a : List Byte) (i n : Nat) :
    (block a i)[n]? = if n < 512 then a[512 * i + n]? else none := by
  unfold block
  rw [List.getElem?_take, List.getElem?_drop]

theorem block_length (a : List Byte) (i : Nat) (hi : i < nblocks a) :
    (block a i).length = 512 := by
  unfold block nblocks at *
  rw [List.length_take, List.length_drop]
  have := Nat.div_mul_le_self a.length 512
  have : (i + 1) * 512 ≤ a.length / 512 * 512 := Nat.mul_le_mul_right 512 hi
  omega

theorem nblocks_set (a : List Byte) (p : Nat) (v : Byte) : nblocks (a.set p v) = nblocks a := by
  simp [nblocks]

theorem block_set_other (a : List Byte) (p i : Nat) (v : Byte) (h : p / 512 ≠ i) :
    block (a.set p v) i = block a i := by
  apply List.ext_getElem?
  intro n
  rw [block_getElem?, block_getElem?]
  by_cases hn : n < 512
  · simp only [hn, if_true]
    rw [List.getElem?_set_ne]
    intro hp
    apply h
    subst hp
    omega
  · simp [hn]

theorem block_set_same (a : List Byte) (j o : Nat) (v : Byte) (ho : o < 512)
    (hj : j < nblocks a) :
    block (a.set (512 * j + o) v) j = (block a j).set o v := by
  have hlen := block_length a j hj
  have hp : 512 * j + o < a.length := by
    unfold nblocks at hj
    have := Nat.div_mul_le_self a.length 512
    have : (j + 1) * 512 ≤ a.length / 512 * 512 := Nat.mul_le_mul_right 512 hj
    omega
  apply List.ext_getElem?
  intro n
  rw [block_getElem?, List.getElem?_set, List.getElem?_set, block_getElem?]
  by_cases hn : n < 512
  · simp only [hn, if_true, hlen, ho, hp]
    by_cases hon : o = n
    · subst hon; simp
    · have : ¬ 512 * j + o = 512 * j + n := by omega
      simp [hon, this]
  · have hon : ¬ o = n := by omega
    simp [hn, hon]

theorem checksum_loop_high : ∀ (l : List Byte) (i : Nat) (s : Int), 156 ≤ i →
    checksum_loop l i s = s + (l.map char_val).sum := by
  intro l
  induction l with
  | nil => intro i s _; simp [checksum_loop]
  | cons b rest ih =>
    intro i s hi
    rw [checksum_loop]
    have : ¬ (148 ≤ i ∧ i < 156) := by omega
    simp only [this, if_false]
    rw [ih (i + 1) _ (by omega)]
    simp only [List.map_cons, List.sum_cons]
    ring

theorem checksum_loop_mid : ∀ (l : List Byte) (i : Nat) (s : Int), 148 ≤ i → i ≤ 156 →
    checksum_loop l i s = s + ((l.drop (156 - i)).map char_val).sum := by
  intro l
  induction l with
  | nil => intro i s _ _; simp [checksum_loop]
  | cons b rest ih =>
    intro i s h1 h2
    by_cases h3 : i = 156
    · subst h3
      rw [checksum_loop_high _ _ _ (le_refl _)]
      simp
    · rw [checksum_loop]
      have : 148 ≤ i ∧ i < 156 := by omega
      simp only [this, and_self, if_true]
      rw [ih (i + 1) _ (by omega) (by omega)]
      rw [show 156 - i = (156 - (i + 1)) + 1 by omega, List.drop_succ_cons]

theorem checksum_loop_low : ∀ (l : List Byte) (i : Nat) (s : Int), i ≤ 148 →
    checksum_loop l i s =
      s + ((l.take (148 - i)).map char_val).sum + ((l.drop (156 - i)).map char_val).sum := by
  intro l
  induction l with
  | nil => intro i s _; simp [checksum_loop]
  | cons b rest ih =>
    intro i s h1
    by_cases h3 : i = 148
    · subst h3
      rw [checksum_loop_mid _ _ _ (le_refl _) (by omega)]
      simp
    · rw [checksum_loop]
      have : ¬ (148 ≤ i ∧ i < 156) := by omega
      simp only [this, if_false]
      rw [ih (i + 1) _ (by omega)]
      rw [show 148 - i = (148 - (i + 1)) + 1 by omega,
        show 156 - i = (156 - (i + 1)) + 1 by omega, List.drop_succ_cons, List.take_succ_cons]
      simp only [List.map_cons, List.sum_cons]
      ring

/-- The value of `checksum`: the bytes at offsets 0..147 and 156..511, read as `char`,
added up, plus 256. -/
theorem checksum_eq_sum (header : List Byte) :
    checksum header = ((header.take 148).map char_val).sum
      + (((header.drop 156).take 356).map char_val).sum + 256 := by
  unfold checksum
  rw [checksum_loop_low _ _ _ (Nat.zero_le _)]
  simp only [Nat.sub_zero, List.take_take, List.drop_take, zero_add]
  norm_num

theorem checksum_set (header : List Byte) (o : Nat) (v : Byte) (h1 : 148 ≤ o) (h2 : o < 156) :
    checksum (header.set o v) = checksum header := by
  rw [checksum_eq_sum, checksum_eq_sum, List.set_take,
    List.set_eq_of_length_le (by rw [List.length_take]; omega), List.drop_set_of_lt _ _ h2]

theorem strlen_eq_zero_iff (s : List Byte) : strlen s = 0 ↔ s.headD 0 = 0 := by
  cases s with
  | nil => simp [strlen, cstr_nil]
  | cons c t =>
    by_cases hc : c = 0 <;> simp [strlen, cstr_cons, hc]

theorem strlen_set (header : List Byte) (o : Nat) (v : Byte) (h1 : 1 ≤ o) :
    strlen (header.set o v) = 0 ↔ strlen header = 0 := by
  rw [strlen_eq_zero_iff, strlen_eq_zero_iff]
  cases header with
  | nil => simp
  | cons c t =>
    obtain ⟨o', rfl⟩ : ∃ o', o = o' + 1 := ⟨o - 1, by omega⟩
    simp

theorem validate_header_set (header : List Byte) (o : Nat) (v : Byte) (h1 : 148 ≤ o)
    (h2 : o < 156) (hv : validate_header header = 0)
    (hne : TAR_INT ((header.set o v).drop OFF_CHKSUM) ≠ TAR_INT (header.drop OFF_CHKSUM)) :
    validate_header (header.set o v) = -3 := by
  unfold validate_header at hv ⊢
  simp only [OFF_MAGIC, OFF_VERSION] at hv ⊢
  simp only [List.drop_set_of_lt v header (show o < 257 by omega),
    List.drop_set_of_lt v header (show o < 263 by omega), checksum_set _ _ _ h1 h2]
  split_ifs at hv with ha hb hc
  simp only [ha, hb, if_false]
  have hc' : TAR_INT (List.drop OFF_CHKSUM header) = checksum header := by
    by_contra hcc; exact hc hcc
  rw [← hc']
  simp [hne]

theorem in_archive_set (a : List Byte) (p : Nat) (v : Byte) (i : Int) :
    in_archive (a.set p v) i ↔ in_archive a i := by
  unfold in_archive
  rw [nblocks_set]

theorem validate_header_neg (header : List Byte) (h : ¬ validate_header header = 0) :
    validate_header header < 0 := by
  rcases validate_header_codes header with h1 | h1 | h1 | h1
  · rw [h1]; decide
  · rw [h1]; decide
  · rw [h1]; decide
  · exact absurd h1 h

theorem check_archive_loop_set (a : List Byte) (mapped : Nat) (j o : Nat) (v : Byte)
    (h1 : 148 ≤ o) (h2 : o < 156) (hnn : strlen (block a j) ≠ 0)
    (hne : TAR_INT (((block a j).set o v).drop OFF_CHKSUM)
      ≠ TAR_INT ((block a j).drop OFF_CHKSUM)) :
    ∀ (fuel : Nat) (i c0 c : Int),
      check_archive_loop a mapped fuel i c0 = some (Outcome.ret c) → 0 ≤ c →
      j ∈ check_archive_visits a fuel i →
      check_archive_loop (a.set (512 * j + o) v) mapped fuel i c0 = some (Outcome.ret (-3)) := by
  intro fuel
  induction fuel with
  | zero => intro i c0 c _ _ hj; simp [check_archive_visits] at hj
  | succ fuel ih =>
    intro i c0 c hret hc hj
    rw [check_archive_loop] at hret ⊢
    rw [check_archive_visits] at hj
    by_cases hin : in_archive a i
    · have hin' : in_archive (a.set (512 * j + o) v) i := (in_archive_set a _ v i).2 hin
      simp only [hin, if_true] at hret hj
      simp only [hin', if_true]
      by_cases hread : mapped < 512 * (i.toNat + 1)
      · simp [hread] at hret
      · simp only [hread, if_false] at hret ⊢
        by_cases hij : i.toNat = j
        · have hjn : j < nblocks a := by
            unfold in_archive at hin; omega
          rw [hij] at hret ⊢
          rw [block_set_same a j o v (by omega) hjn]
          have hnn' : ¬ strlen ((block a j).set o v) = 0 := by
            rw [strlen_set _ _ _ (by omega)]; exact hnn
          have hval : validate_header (block a j) = 0 := by
            by_contra hv
            simp only [hnn, if_false, hv, ne_eq, not_false_eq_true, if_true,
              Option.some.injEq, Outcome.ret.injEq] at hret
            have := validate_header_neg _ hv
            omega
          simp [hnn', validate_header_set _ o v h1 h2 hval hne]
        · have hb : block (a.set (512 * j + o) v) i.toNat = block a i.toNat := by
            apply block_set_other
            intro h
            apply hij
            rw [← h]
            omega
          rw [hb]
          by_cases hnull : strlen (block a i.toNat) = 0
          · simp only [hnull, if_true] at hret hj ⊢
            rcases List.mem_cons.1 hj with h | h
            · exact absurd h.symm hij
            · exact ih _ _ _ hret hc h
          · by_cases hval : validate_header (block a i.toNat) = 0
            · simp only [hnull, if_false, hval, ne_eq, not_true_eq_false] at hret hj ⊢
              rcases List.mem_cons.1 hj with h | h
              · exact absurd h.symm hij
              · exact ih _ _ _ hret hc h
            · simp only [hnull, if_false, hval, ne_eq, not_false_eq_true, if_true,
                Option.some.injEq, Outcome.ret.injEq] at hret
              have := validate_header_neg _ hval
              omega
    · simp [hin] at hj

/-- C4 (amended). For every archive on which `check_archive` returns a count of at least 1,
every non-null block `j` read by its loop and every flip of one bit in one of the 8 bytes
of the checksum field of that block: if the flip changes the value `TAR_INT` decodes from
the field, `check_archive` returns -3 on the modified archive (whose access time is that
of the archive). -/
theorem check_archive_chksum_flip (a : List Byte) (st_atime : Int) (fuel : Nat) (c : Int)
    (j k bit : Nat)
    (hret : check_archive fuel a st_atime = some (Outcome.ret c)) (hc : 1 ≤ c)
    (hj : j ∈ check_archive_visits a fuel 0) (hnn : strlen (block a j) ≠ 0)
    (hk : k < 8) (_hbit : bit < 8)
    (hchg : TAR_INT ((block (flip_bit_at a (512 * j + (OFF_CHKSUM + k)) bit) j).drop OFF_CHKSUM)
      ≠ TAR_INT ((block a j).drop OFF_CHKSUM)) :
    check_archive fuel (flip_bit_at a (512 * j + (OFF_CHKSUM + k)) bit) st_atime
      = some (Outcome.ret (-3)) := by
  have hjn : j < nblocks a := by
    cases fuel with
    | zero => simp [check_archive_visits] at hj
    | succ fuel =>
      clear hchg hret
      have hmem : ∀ (fuel : Nat) (i : Int), j ∈ check_archive_visits a fuel i → j < nblocks a := by
        intro fuel
        induction fuel with
        | zero => intro i h; simp [check_archive_visits] at h
        | succ fuel ih =>
          intro i h
          rw [check_archive_visits] at h
          by_cases hin : in_archive a i
          · have hi : i.toNat < nblocks a := by unfold in_archive at hin; omega
            simp only [hin, if_true] at h
            split_ifs at h
            · rcases List.mem_cons.1 h with h | h
              · omega
              · exact ih _ h
            · simp only [List.mem_singleton] at h; omega
            · rcases List.mem_cons.1 h with h | h
              · omega
              · exact ih _ h
          · simp [hin] at h
      exact hmem _ _ hj
  unfold flip_bit_at at hchg ⊢
  unfold OFF_CHKSUM at hchg ⊢
  rw [block_set_same a j (148 + k) _ (by omega) hjn] at hchg
  unfold check_archive at hret ⊢
  by_cases hl : a.length ≤ 0
  · simp only [hl, if_true, Option.some.injEq, Outcome.ret.injEq] at hret
    omega
  · simp only [hl, if_false] at hret
    simp only [List.length_set, hl, if_false]
    exact check_archive_loop_set a _ j (148 + k) _ (by omega) (by omega) hnn hchg fuel 0 0 c hret
      (by omega) hj

theorem check_archive_chksum_flip_witness :
    check_archive 7 small_archive access_time = some (Outcome.ret 2) ∧ (1 : Int) ≤ 2 ∧
      3 ∈ check_archive_visits small_archive 7 0 ∧ strlen (block small_archive 3) ≠ 0 ∧
      TAR_INT ((block (flip_bit_at small_archive (512 * 3 + (OFF_CHKSUM + 5)) 0) 3).drop OFF_CHKSUM)
        ≠ TAR_INT ((block small_archive 3).drop OFF_CHKSUM) ∧
      check_archive 7 (flip_bit_at small_archive (512 * 3 + (OFF_CHKSUM + 5)) 0) access_time
        = some (Outcome.ret (-3)) :=
  ⟨by decide!, by decide, by decide!, by decide!, by decide!,
    check_archive_chksum_flip small_archive access_time 7 2 3 5 0 (by decide!) (by decide)
      (by decide!) (by decide!) (by decide) (by decide) (by decide!)⟩

/-- C4 (counterexample). `check_archive` returns the count 2 on `small_archive`; flipping
the lowest bit of the last byte of the checksum field of its first header (byte 155, the
space that follows the terminating NUL) leaves the decoded checksum unchanged, and
`check_archive` still returns 2 on the modified archive, not -3. -/
theorem check_archive_chksum_flip_unseen :
    check_archive 7 small_archive access_time = some (Outcome.ret 2) ∧
      0 ∈ check_archive_visits small_archive 7 0 ∧
      strlen (block small_archive 0) ≠ 0 ∧
      flip_bit_at small_archive (512 * 0 + (OFF_CHKSUM + 7)) 0 ≠ small_archive ∧
      check_archive 7 (flip_bit_at small_archive (512 * 0 + (OFF_CHKSUM + 7)) 0) access_time
        = some (Outcome.ret 2) := by
  decide!

/-! ## `check_entry` on a large entry -/

theorem block_append_left (h rest : List Byte) (hl : h.length = 512) :
    block (h ++ rest) 0 = h := by
  unfold block
  simp [List.take_append_eq_append_take, hl]

theorem block_append_right (p rest : List Byte) (i : Nat) (hp : p.length = 512 * i) :
    block (p ++ rest) i = block rest 0 := by
  unfold block
  rw [← hp, List.drop_left]
  simp

theorem length_pos_of_nblocks (a : List Byte) (h : 0 < nblocks a) : ¬ a.length ≤ 0 := by
  intro h0
  have h1 : a.length = 0 := by omega
  simp [nblocks, h1] at h

theorem zero_blocks_length (n : Nat) : (zero_blocks n).length = 512 * n := by
  simp [zero_blocks]

theorem blocks_around_zero_run (hd fb tl : List Byte) (n : Nat) (h1 : hd.length = 512)
    (h2 : fb.length = 512) (h3 : tl.length = 512) :
    nblocks ((hd ++ (zero_blocks n ++ fb)) ++ tl) = n + 3 ∧
      block ((hd ++ (zero_blocks n ++ fb)) ++ tl) 0 = hd ∧
      block ((hd ++ (zero_blocks n ++ fb)) ++ tl) (n + 1) = fb := by
  refine ⟨?_, ?_, ?_⟩
  · simp only [nblocks, List.length_append, zero_blocks_length, h1, h2, h3]
    omega
  · rw [List.append_assoc]
    exact block_append_left _ _ h1
  · have hp : (hd ++ zero_blocks n).length = 512 * (n + 1) := by
      simp only [List.length_append, zero_blocks_length, h1]; omega
    rw [← List.append_assoc, List.append_assoc, block_append_right _ _ (n + 1) hp]
    exact block_append_left _ _ h2

theorem forged_archive_blocks :
    nblocks forged_archive = 65536 + 3 ∧ block forged_archive 0 = big_header ∧
      block forged_archive (65536 + 1) = forged_block :=
  blocks_around_zero_run big_header forged_block target_header 65536 (by decide!) (by decide!)
    (by decide!)

/-- C5. `forged_archive` is the concatenation of two entries, each a valid header with a
non-empty name followed by `ceil(size / 512)` data blocks: the file `a` of 33554433 bytes
(65537 data blocks, the last of which is itself a valid header) and the empty file `b`.
The advance computed for `a` in single precision is 1 + 65536, one block short, the
walker reads the last data block of `a` as a header and steps over the header of `b`:
`exists` returns 0 for the name `b`, with any fuel from 3 on. -/
theorem exists_misses_entry :
    validate_header big_header = 0 ∧ cstr big_header = [97] ∧
      TAR_INT (big_header.drop OFF_SIZE) = 33554433 ∧
      big_data.length = 512 * data_blocks 33554433 ∧
      validate_header target_header = 0 ∧ cstr target_header = [98] ∧
      TAR_INT (target_header.drop OFF_SIZE) = 0 ∧
      advance big_header = 1 + 65536 ∧
      ∀ fuel, tar_exists (fuel + 3) forged_archive [98] = some 0 := by
  have hf : forged_block.length = 512 := by decide!
  refine ⟨by decide!, by decide!, by decide!, ?_, by decide!, by decide!, by decide!,
    by decide!, ?_⟩
  · simp only [big_data, List.length_append, zero_blocks_length, hf, data_blocks]
  · intro fuel
    obtain ⟨hn, hb0, hb1⟩ := forged_archive_blocks
    have hl : ¬ forged_archive.length ≤ 0 := by
      apply length_pos_of_nblocks
      omega
    have i0 : in_archive forged_archive 0 := by unfold in_archive; omega
    have i1 : in_archive forged_archive (0 + advance big_header) := by
      rw [show advance big_header = 65537 by decide!]; unfold in_archive; omega
    have i2 : ¬ in_archive forged_archive (0 + advance big_header + advance forged_block) := by
      rw [show advance big_header = 65537 by decide!, show advance forged_block = 2 by decide!]
      unfold in_archive; omega
    have t1 : (0 + advance big_header).toNat = 65536 + 1 := by
      rw [show advance big_header = 65537 by decide!]; rfl
    have a1 : ¬ strlen big_header = 0 := by decide!
    have a2 : validate_header big_header = 0 := by decide!
    have a3 : entry_matches big_header [98] [] = false := by decide!
    have b1 : ¬ strlen forged_block = 0 := by decide!
    have b2 : validate_header forged_block = 0 := by decide!
    have b3 : entry_matches forged_block [98] [] = false := by decide!
    unfold tar_exists check_entry
    simp only [hl, if_false]
    rw [check_entry_loop]
    simp only [i0, if_true, Int.toNat_zero, hb0, a1, if_false, a2, ne_eq, not_true_eq_false, a3,
      Bool.false_eq_true]
    rw [check_entry_loop]
    simp only [i1, if_true, t1, hb1, b1, if_false, b2, ne_eq, not_true_eq_false, b3,
      Bool.false_eq_true]
    rw [check_entry_loop]
    simp only [i2, if_false]
    rfl

/-! ## The lookup of `check_entry` -/

theorem cstr_length_le_take (s : List Byte) (n : Nat) (h : (cstr s).length ≤ n) :
    (cstr s).take n = cstr s := List.take_of_length_le h

theorem name_matches_iff (header path : List Byte) :
    name_matches header path = true ↔ cstr header = cstr path := by
  unfold name_matches strlen
  rw [decide_eq_true_eq, strncmp_eq_zero_iff,
    List.take_of_length_le (le_max_left _ _), List.take_of_length_le (le_max_right _ _)]

theorem array_contains_iff (flags : List Byte) (item : Byte) :
    array_contains flags flags.length item ≠ 0 ↔ (flags = [] ∨ item ∈ flags) := by
  unfold array_contains
  cases flags with
  | nil => simp
  | cons f fs =>
    have hlen : ¬ (f :: fs).length = 0 := by simp
    rw [if_neg hlen, List.take_length]
    by_cases h : item ∈ f :: fs
    · have hany : (f :: fs).any (fun c => decide (c = item)) = true := by
        rw [List.any_eq_true]; exact ⟨item, h, by simp⟩
      rw [if_pos hany]
      simp [h]
    · have hany : ¬ (f :: fs).any (fun c => decide (c = item)) = true := by
        rw [List.any_eq_true]
        rintro ⟨x, hx, hxe⟩
        simp only [decide_eq_true_eq] at hxe
        subst hxe
        exact h hx
      rw [if_neg hany]
      simp only [ne_eq, not_true_eq_false, false_iff, not_or]
      exact ⟨by simp, h⟩

theorem entry_matches_cstr (header path flags : List Byte) :
    entry_matches header path flags = true ↔
      (cstr header = cstr path ∧
        (flags = [] ∨ header.getD OFF_TYPEFLAG 0 ∈ flags)) := by
  unfold entry_matches
  rw [Bool.and_eq_true, decide_eq_true_eq, decide_eq_true_eq, array_contains_iff,
    strncmp_eq_zero_iff]
  unfold strlen
  rw [List.take_of_length_le (le_max_left _ _), List.take_of_length_le (le_max_right _ _)]

/-- C7 (amended). In `check_entry` the names are compared over the larger of the two
lengths: a header matches the queried path exactly when its NUL-terminated name equals
the path and its type flag is accepted by the filter (an empty filter accepts every
flag); a name that differs from the path, a strict prefix or extension of it included,
is not a match. -/
theorem check_entry_exact_match (header path flags : List Byte) :
    (entry_matches header path flags = true ↔
      (cstr header = cstr path ∧
        (flags = [] ∨ header.getD OFF_TYPEFLAG 0 ∈ flags))) ∧
    (cstr header ≠ cstr path → entry_matches header path flags = false) := by
  refine ⟨entry_matches_cstr header path flags, fun hne => ?_⟩
  cases hm : entry_matches header path flags with
  | false => rfl
  | true => exact absurd ((entry_matches_cstr header path flags).1 hm).1 hne

/-- C7 (counterexample). On the archive whose only entry is `dir/file`, `exists` returns
0 for the path `dir/`, a strict prefix of the name of the entry, and 1 for `dir/file`. -/
theorem exists_rejects_prefix :
    entries_of file_archive 2 = [block file_archive 0] ∧
      cstr (block file_archive 0) = [100, 105, 114, 47, 102, 105, 108, 101] ∧
      tar_exists 2 file_archive [100, 105, 114, 47] = some 0 ∧
      tar_exists 2 file_archive [100, 105, 114, 47, 102, 105, 108, 101] = some 1 := by
  decide!

/-- C8. On `nested_archive` (the entries `a/`, `a/b/` and `a/b/c`), `list` called on the
directory `a/b/` with capacity 10 returns 1 and writes nothing, although the walker
visits the valid entry `a/b/c`, a direct child of `a/b/`: the test of `list` counts the
`/` of the whole name (at most 2, and a name with 2 must end with `/`), which fits the
children of a top-level directory only. -/
theorem list_nested_directory_empty :
    entries_of nested_archive 4 = [block nested_archive 0, block nested_archive 1,
        block nested_archive 2] ∧
      cstr (block nested_archive 1) = [97, 47, 98, 47] ∧
      (block nested_archive 1).getD OFF_TYPEFLAG 0 = DIRTYPE ∧
      cstr (block nested_archive 2) = [97, 47, 98, 47, 99] ∧
      direct_child [97, 47, 98, 47] [97, 47, 98, 47, 99] = true ∧
      list 5 nested_archive [97, 47, 98, 47] 10 = some (Outcome.ret ⟨1, [], 0⟩) := by
  decide!

/-! ## The tolerant walker and the loop of `check_entry` -/

theorem check_entry_loop_step (a path flags : List Byte) (fuel : Nat) (i : Int) :
    check_entry_loop a path flags (fuel + 1) i =
      if in_archive a i then
        if is_entry (block a i.toNat) = true ∧ entry_matches (block a i.toNat) path flags = true
        then some (1, block a i.toNat)
        else check_entry_loop a path flags fuel (tolerant_step a i)
      else some (0, []) := by
  rw [check_entry_loop]
  unfold tolerant_step is_entry
  by_cases hin : in_archive a i
  · simp only [hin, if_true]
    by_cases hnull : strlen (block a i.toNat) = 0
    · simp [hnull]
    · by_cases hval : validate_header (block a i.toNat) = 0
      · by_cases hm : entry_matches (block a i.toNat) path flags = true
        · simp [hnull, hval, hm]
        · simp [hnull, hval, hm]
      · simp [hnull, hval]
  · simp [hin]

theorem check_entry_loop_found (a path flags : List Byte) : ∀ (fuel : Nat) (i r : Int)
    (hd : List Byte), check_entry_loop a path flags fuel i = some (r, hd) → r ≠ 0 →
    ∃ j ∈ tolerant_visits a fuel i, is_entry (block a j) = true ∧
      entry_matches (block a j) path flags = true ∧ hd = block a j ∧ r = 1 := by
  intro fuel
  induction fuel with
  | zero => intro i r hd h; simp [check_entry_loop] at h
  | succ fuel ih =>
    intro i r hd h hr
    rw [check_entry_loop_step] at h
    rw [tolerant_visits]
    by_cases hin : in_archive a i
    · simp only [hin, if_true] at h ⊢
      by_cases hhit : is_entry (block a i.toNat) = true ∧
          entry_matches (block a i.toNat) path flags = true
      · simp only [hhit, and_self, if_true, Option.some.injEq, Prod.mk.injEq] at h
        exact ⟨i.toNat, by simp, hhit.1, hhit.2, h.2.symm, h.1.symm⟩
      · simp only [hhit, if_false] at h
        obtain ⟨j, hj, h1, h2, h3, h4⟩ := ih _ _ _ h hr
        exact ⟨j, List.mem_cons_of_mem _ hj, h1, h2, h3, h4⟩
    · simp only [hin, if_false, Option.some.injEq, Prod.mk.injEq] at h
      exact absurd h.1.symm hr

theorem check_entry_loop_finds (a path flags : List Byte) : ∀ (fuel : Nat) (i : Int) (j : Nat),
    j ∈ tolerant_visits a fuel i → is_entry (block a j) = true →
    entry_matches (block a j) path flags = true →
    ∃ hd, check_entry_loop a path flags fuel i = some (1, hd) := by
  intro fuel
  induction fuel with
  | zero => intro i j hj; simp [tolerant_visits] at hj
  | succ fuel ih =>
    intro i j hj h1 h2
    rw [check_entry_loop_step]
    rw [tolerant_visits] at hj
    by_cases hin : in_archive a i
    · simp only [hin, if_true] at hj ⊢
      by_cases hhit : is_entry (block a i.toNat) = true ∧
          entry_matches (block a i.toNat) path flags = true
      · exact ⟨block a i.toNat, by simp [hhit]⟩
      · simp only [hhit, if_false]
        rcases List.mem_cons.1 hj with h | h
        · subst h; exact absurd ⟨h1, h2⟩ hhit
        · exact ih _ _ h h1 h2
    · simp [hin] at hj

theorem check_entry_loop_misses (a path flags : List Byte) : ∀ (fuel : Nat) (i : Int),
    (tolerant_visits a fuel i).length < fuel →
    (∀ j ∈ tolerant_visits a fuel i, ¬ (is_entry (block a j) = true ∧
      entry_matches (block a j) path flags = true)) →
    check_entry_loop a path flags fuel i = some (0, []) := by
  intro fuel
  induction fuel with
  | zero => intro i h; simp at h
  | succ fuel ih =>
    intro i hlen hno
    rw [check_entry_loop_step]
    rw [tolerant_visits] at hlen hno
    by_cases hin : in_archive a i
    · simp only [hin, if_true, List.length_cons] at hlen hno ⊢
      have hhit := hno i.toNat (by simp)
      simp only [hhit, if_false]
      exact ih _ (by omega) (fun j hj => hno j (List.mem_cons_of_mem _ hj))
    · simp [hin]

theorem tolerant_visits_nil_of_empty (a : List Byte) (h : a.length ≤ 0) (fuel : Nat) (i : Int) :
    tolerant_visits a fuel i = [] := by
  cases fuel with
  | zero => rfl
  | succ fuel =>
    rw [tolerant_visits]
    have : ¬ in_archive a i := by
      unfold in_archive nblocks
      have : a.length = 0 := by omega
      simp [this]
    simp [this]

/-- The lookup of `check_entry`, for any filter: a non-zero value is returned exactly when
the tolerant walker reaches a valid header that `entry_matches` accepts; zero is
returned when the walk ends without reaching one. -/
theorem check_entry_spec (a path flags : List Byte) :
    (returns_nonzero (fun fuel => (check_entry fuel a path flags).map Prod.fst) ↔
      ∃ fuel j, j ∈ tolerant_visits a fuel 0 ∧ is_entry (block a j) = true ∧
        entry_matches (block a j) path flags = true) ∧
    (walk_ends a →
      (¬ ∃ fuel j, j ∈ tolerant_visits a fuel 0 ∧ is_entry (block a j) = true ∧
        entry_matches (block a j) path flags = true) →
      returns_zero (fun fuel => (check_entry fuel a path flags).map Prod.fst)) := by
  constructor
  · constructor
    · rintro ⟨fuel, r, h, hr⟩
      unfold check_entry at h
      by_cases hl : a.length ≤ 0
      · simp only [hl, if_true, Option.map_some', Option.some.injEq] at h
        exact absurd h.symm hr
      · simp only [hl, if_false] at h
        cases hc : check_entry_loop a path flags fuel 0 with
        | none => simp [hc] at h
        | some p =>
          obtain ⟨r', hd⟩ := p
          simp only [hc, Option.map_some', Option.some.injEq] at h
          subst h
          obtain ⟨j, hj, h1, h2, _, _⟩ := check_entry_loop_found a path flags fuel 0 _ hd hc hr
          exact ⟨fuel, j, hj, h1, h2⟩
    · rintro ⟨fuel, j, hj, h1, h2⟩
      have hl : ¬ a.length ≤ 0 := by
        intro hl
        rw [tolerant_visits_nil_of_empty a hl] at hj
        simp at hj
      obtain ⟨hd, h⟩ := check_entry_loop_finds a path flags fuel 0 j hj h1 h2
      exact ⟨fuel, 1, by simp [check_entry, hl, h], by decide⟩
  · rintro ⟨fuel, hlen⟩ hno
    refine ⟨fuel, ?_⟩
    unfold check_entry
    by_cases hl : a.length ≤ 0
    · simp [hl]
    · simp only [hl, if_false]
      rw [check_entry_loop_misses a path flags fuel 0 hlen
        (fun j hj hh => hno ⟨fuel, j, hj, hh.1, hh.2⟩)]
      rfl

theorem check_entry_reaches (a path flags : List Byte) (accept : Byte → Bool)
    (hacc : ∀ t, accept t = true ↔ (flags = [] ∨ t ∈ flags)) :
    (returns_nonzero (fun fuel => (check_entry fuel a path flags).map Prod.fst) ↔
      walk_reaches a path accept) ∧
    (walk_ends a → ¬ walk_reaches a path accept →
      returns_zero (fun fuel => (check_entry fuel a path flags).map Prod.fst)) := by
  have heq : walk_reaches a path accept ↔
      ∃ fuel j, j ∈ tolerant_visits a fuel 0 ∧ is_entry (block a j) = true ∧
        entry_matches (block a j) path flags = true := by
    unfold walk_reaches
    constructor
    · rintro ⟨fuel, j, hj, h1, h2, h3⟩
      refine ⟨fuel, j, hj, h1, ?_⟩
      rw [entry_matches_cstr]
      exact ⟨(name_matches_iff _ _).1 h2, (hacc _).1 h3⟩
    · rintro ⟨fuel, j, hj, h1, h2⟩
      rw [entry_matches_cstr] at h2
      exact ⟨fuel, j, hj, h1, (name_matches_iff _ _).2 h2.1, (hacc _).2 h2.2⟩
  rw [heq]
  exact check_entry_spec a path flags

/-- C6 (amended). For every archive and path, `is_dir` (respectively `is_file`,
`is_symlink`, `exists`) returns a non-zero value exactly when the tolerant walker reaches
a valid header whose name matches the path and whose type flag is `DIRTYPE` (respectively
`REGTYPE` or `AREGTYPE`; `SYMTYPE`; any flag); when the walk ends (the cursor leaves the
archive) without reaching such a header, it returns zero. -/
theorem type_queries_spec (a path : List Byte) :
    ((returns_nonzero (fun fuel => is_dir fuel a path) ↔
        walk_reaches a path (fun t => t = DIRTYPE)) ∧
      (walk_ends a → ¬ walk_reaches a path (fun t => t = DIRTYPE) →
        returns_zero (fun fuel => is_dir fuel a path))) ∧
    ((returns_nonzero (fun fuel => is_file fuel a path) ↔
        walk_reaches a path (fun t => t = REGTYPE || t = AREGTYPE)) ∧
      (walk_ends a → ¬ walk_reaches a path (fun t => t = REGTYPE || t = AREGTYPE) →
        returns_zero (fun fuel => is_file fuel a path))) ∧
    ((returns_nonzero (fun fuel => is_symlink fuel a path) ↔
        walk_reaches a path (fun t => t = SYMTYPE)) ∧
      (walk_ends a → ¬ walk_reaches a path (fun t => t = SYMTYPE) →
        returns_zero (fun fuel => is_symlink fuel a path))) ∧
    ((returns_nonzero (fun fuel => tar_exists fuel a path) ↔
        walk_reaches a path (fun _ => true)) ∧
      (walk_ends a → ¬ walk_reaches a path (fun _ => true) →
        returns_zero (fun fuel => tar_exists fuel a path))) := by
  refine ⟨?_, ?_, ?_, ?_⟩
  · exact check_entry_reaches a path [DIRTYPE] _ (by intro t; simp)
  · exact check_entry_reaches a path [REGTYPE, AREGTYPE] _ (by intro t; simp)
  · exact check_entry_reaches a path [SYMTYPE] _ (by intro t; simp)
  · exact check_entry_reaches a path [] _ (by intro t; simp)

theorem type_queries_spec_witness :
    walk_reaches tree_archive [100, 105, 114, 47, 99, 47] (fun t => t = DIRTYPE) ∧
      returns_nonzero (fun fuel => is_dir fuel tree_archive [100, 105, 114, 47, 99, 47]) :=
  ⟨⟨4, 3, by decide!, by decide!, by decide!, by decide!⟩,
    (type_queries_spec tree_archive [100, 105, 114, 47, 99, 47]).1.1.2
      ⟨4, 3, by decide!, by decide!, by decide!, by decide!⟩⟩

theorem loop_archive_visits : ∀ (fuel : Nat), ∀ j ∈ tolerant_visits loop_archive fuel 0, j = 0 := by
  have hs : tolerant_step loop_archive 0 = 0 := by decide!
  intro fuel
  induction fuel with
  | zero => intro j hj; simp [tolerant_visits] at hj
  | succ fuel ih =>
    intro j hj
    rw [tolerant_visits] at hj
    split_ifs at hj
    · rw [hs] at hj
      rcases List.mem_cons.1 hj with h | h
      · rw [h]; rfl
      · exact ih j h
    · simp at hj

/-- C6 (counterexample). On `loop_archive` (one valid header named `a` whose size field
reads `-1000`) the tolerant walker stays on block 0 for ever: it reaches no header named
`b`, and `is_dir` called with the path `b` returns no value, zero included, whatever the
fuel. -/
theorem is_dir_never_returns :
    ¬ walk_reaches loop_archive [98] (fun t => t = DIRTYPE) ∧
      ¬ ∃ fuel r, is_dir fuel loop_archive [98] = some r := by
  have hs : tolerant_step loop_archive 0 = 0 := by decide!
  have hm : name_matches (block loop_archive 0) [98] = false := by decide!
  have hin : in_archive loop_archive 0 := by decide!
  have he : entry_matches (block loop_archive 0) [98] [DIRTYPE] = false := by decide!
  have hl : ¬ loop_archive.length ≤ 0 := by decide!
  constructor
  · rintro ⟨fuel, j, hj, _, h2, _⟩
    rw [loop_archive_visits fuel j hj, hm] at h2
    exact absurd h2 (by decide)
  · rintro ⟨fuel, r, h⟩
    have hstuck : ∀ fuel, check_entry_loop loop_archive [98] [DIRTYPE] fuel 0 = none := by
      intro fuel
      induction fuel with
      | zero => rfl
      | succ fuel ih =>
        rw [check_entry_loop_step]
        simp only [hin, if_true, Int.toNat_zero, he, Bool.false_eq_true, and_false, if_false, hs]
        exact ih
    simp only [is_dir, check_entry, hl, if_false, hstuck] at h
    exact absurd h (by simp)

/-! ## The loop of `list` -/

theorem list_loop_step (a path : List Byte) (cap fuel : Nat) (i : Int)
    (acc : List (List Byte)) :
    list_loop a path cap (fuel + 1) i acc =
      if in_archive a i then
        if acc.length ≥ cap then some acc
        else list_loop a path cap fuel (tolerant_step a i)
          (if is_entry (block a i.toNat) = true ∧ list_selects (block a i.toNat) path = true
            then acc ++ [cstr (block a i.toNat)] else acc)
      else some acc := by
  rw [list_loop]
  unfold tolerant_step is_entry
  by_cases hin : in_archive a i
  · simp only [hin, if_true]
    by_cases hcap : acc.length ≥ cap
    · simp [hcap]
    · simp only [hcap, if_false]
      by_cases hnull : strlen (block a i.toNat) = 0
      · simp [hnull]
      · by_cases hval : validate_header (block a i.toNat) = 0
        · simp [hnull, hval]
        · simp [hnull, hval]
  · simp [hin]

theorem list_loop_prefix (a path : List Byte) (cap : Nat) : ∀ (fuel : Nat) (i : Int)
    (acc R : List (List Byte)), list_loop a path cap fuel i acc = some R →
    acc <+: R ∧ R.length ≤ max acc.length cap := by
  intro fuel
  induction fuel with
  | zero => intro i acc R h; simp [list_loop] at h
  | succ fuel ih =>
    intro i acc R h
    rw [list_loop_step] at h
    by_cases hin : in_archive a i
    · simp only [hin, if_true] at h
      by_cases hcap : acc.length ≥ cap
      · simp only [hcap, if_true, Option.some.injEq] at h
        subst h
        exact ⟨List.prefix_refl _, le_max_left _ _⟩
      · simp only [hcap, if_false] at h
        obtain ⟨h1, h2⟩ := ih _ _ _ h
        split_ifs at h1 h2
        · refine ⟨(List.prefix_append _ _).trans h1, ?_⟩
          simp only [List.length_append, List.length_singleton] at h2
          omega
        · exact ⟨h1, h2⟩
    · simp only [hin, if_false, Option.some.injEq] at h
      subst h
      exact ⟨List.prefix_refl _, le_max_left _ _⟩

theorem list_loop_truncate (a path : List Byte) (c cap : Nat) (hc : c ≤ cap) :
    ∀ (fuel : Nat) (i : Int) (acc R : List (List Byte)),
    list_loop a path cap fuel i acc = some R → acc.length ≤ c →
    list_loop a path c fuel i acc = some (R.take c) := by
  intro fuel
  induction fuel with
  | zero => intro i acc R h; simp [list_loop] at h
  | succ fuel ih =>
    intro i acc R h hacc
    have hpre := list_loop_prefix a path cap _ _ _ _ h
    rw [list_loop_step] at h ⊢
    by_cases hin : in_archive a i
    · simp only [hin, if_true] at h ⊢
      by_cases hcap : acc.length ≥ cap
      · simp only [hcap, if_true, Option.some.injEq] at h
        subst h
        have : acc.length ≥ c := by omega
        simp only [this, if_true]
        rw [List.take_of_length_le hacc]
      · simp only [hcap, if_false] at h
        by_cases hcc : acc.length ≥ c
        · simp only [hcc, if_true]
          have hlen : acc.length = c := by omega
          rw [← hlen, ← List.prefix_iff_eq_take.1 hpre.1]
        · simp only [hcc, if_false]
          apply ih _ _ _ h
          split_ifs
          · simp only [List.length_append, List.length_singleton]; omega
          · omega
    · simp only [hin, if_false, Option.some.injEq] at h ⊢
      subst h
      rw [List.take_of_length_le hacc]

theorem list_truncates_aux (a : List Byte) (c cap : Nat) (hc : c ≤ cap) :
    ∀ (fuel : Nat) (path : List Byte) (R : ListResult),
    list fuel a path cap = some (Outcome.ret R) → 0 < R.ret →
    list fuel a path c
        = some (Outcome.ret ⟨R.ret, R.entries.take c, min c R.entries.length⟩) ∧
      R.no_entries = R.entries.length ∧ R.entries.length ≤ cap := by
  intro fuel
  induction fuel with
  | zero => intro path R h; simp [list] at h
  | succ fuel ih =>
    intro path R h hR
    rw [list] at h ⊢
    cases hs : get_symlink fuel a path with
    | none => simp [hs] at h
    | some p =>
      obtain ⟨found, symheader⟩ := p
      simp only [hs] at h ⊢
      by_cases hf : found ≠ 0
      · rw [if_pos hf] at h ⊢
        by_cases hn : 100 < strlen (symheader.drop OFF_LINKNAME) + 2
        · simp [hn] at h
        · rw [if_neg hn] at h ⊢
          exact ih _ _ h hR
      · rw [if_neg hf] at h ⊢
        by_cases h2 : a.length ≤ 0
        · exfalso
          simp only [h2, if_true] at h
          split_ifs at h <;> simp only [Option.some.injEq, Outcome.ret.injEq, reduceCtorEq] at h
          all_goals (subst h; simp at hR)
        · simp only [h2, if_false] at h ⊢
          cases hd : is_dir fuel a path with
          | none => simp [hd] at h
          | some d =>
            simp only [hd] at h ⊢
            by_cases h0 : d = 0
            · simp only [h0, if_true, Option.some.injEq, Outcome.ret.injEq] at h
              subst h
              simp at hR
            · simp only [h0, if_false] at h ⊢
              by_cases h3 : strlen path = 0
              · simp [h3] at h
              · simp only [h3, if_false] at h ⊢
                by_cases h1 : (cstr path).getLast? ≠ some 47
                · rw [if_pos h1] at h
                  simp only [Option.some.injEq, Outcome.ret.injEq] at h
                  subst h
                  simp at hR
                · rw [if_neg h1] at h ⊢
                  cases hl : list_loop a path cap fuel 0 [] with
                  | none => simp [hl] at h
                  | some entries =>
                    simp only [hl, Option.some.injEq, Outcome.ret.injEq] at h
                    subst h
                    have hp := list_loop_prefix a path cap _ _ _ _ hl
                    rw [list_loop_truncate a path c cap hc fuel 0 [] entries hl (Nat.zero_le _)]
                    simp only [List.length_take, List.length_nil] at hp ⊢
                    exact ⟨trivial, trivial, by omega⟩

/-- C10. For every archive, path and capacities `c ≤ cap`: when `list` called with the
capacity `cap` succeeds (it returns a positive value) and writes the entries `R.entries`
(for `cap` above the number of entries of the archive these are all the entries `list`
selects), `list` called with the capacity `c` succeeds with the same return value, writes
exactly the first `c` of them in the same order (all of them when there are fewer), and
sets `*no_entries` to the number written, `min c m`; the number written never exceeds the
capacity. -/
theorem list_truncates (a path : List Byte) (fuel c cap : Nat) (R : ListResult)
    (hret : list fuel a path cap = some (Outcome.ret R)) (hok : 0 < R.ret) (hc : c ≤ cap) :
    list fuel a path c
        = some (Outcome.ret ⟨R.ret, R.entries.take c, min c R.entries.length⟩) ∧
      R.no_entries = R.entries.length ∧ R.entries.length ≤ cap :=
  list_truncates_aux a c cap hc fuel path R hret hok

theorem list_truncates_witness :
    list 8 tree_archive [100, 105, 114, 47] 20 = some (Outcome.ret ⟨1, [[100, 105, 114, 47, 97],
        [100, 105, 114, 47, 98], [100, 105, 114, 47, 99, 47], [100, 105, 114, 47, 101, 47]], 4⟩) ∧
      list 8 tree_archive [100, 105, 114, 47] 2 = some (Outcome.ret ⟨1, [[100, 105, 114, 47, 97],
        [100, 105, 114, 47, 98]], 2⟩) :=
  ⟨by decide!, (list_truncates tree_archive [100, 105, 114, 47] 8 2 20
    ⟨1, [[100, 105, 114, 47, 97], [100, 105, 114, 47, 98], [100, 105, 114, 47, 99, 47],
      [100, 105, 114, 47, 101, 47]], 4⟩ (by decide!) (by decide) (by decide)).1⟩

/-! ## `list` on a top-level directory -/

theorem cstr_idem (s : List Byte) : cstr (cstr s) = cstr s := by
  induction s with
  | nil => rfl
  | cons c t ih =>
    by_cases hc : c = 0
    · simp [cstr_cons, cstr_nil, hc]
    · simp [cstr_cons, hc, ih]

theorem getD_append_last (l t : List Byte) (hl : l ≠ []) :
    (l ++ t).getD (l.length - 1) 0 = l.getLast hl := by
  have hpos := List.length_pos.2 hl
  rw [List.getD_append _ _ _ _ (by omega), List.getLast_eq_getElem,
    List.getD_eq_getElem _ _ (by omega)]

theorem getD_last_eq (e : List Byte) (h : cstr e ≠ []) :
    e.getD (strlen e - 1) 0 = (cstr e).getLast h := by
  have hsplit : cstr e ++ e.dropWhile (fun c => c ≠ 0) = e := by
    unfold cstr; exact List.takeWhile_append_dropWhile _ _
  have := getD_append_last (cstr e) (e.dropWhile (fun c => c ≠ 0)) h
  rw [hsplit] at this
  exact this

theorem slash_rule (r : List Byte) (hr : r ≠ []) :
    (1 + r.count 47 ≤ 2 ∧ (1 + r.count 47 = 1 ∨ r.getLast hr = 47)) ↔ 47 ∉ r.dropLast := by
  obtain ⟨init, last, rfl⟩ : ∃ init last, r = init ++ [last] :=
    ⟨r.dropLast, r.getLast hr, (List.dropLast_append_getLast hr).symm⟩
  rw [← List.count_eq_zero]
  simp only [List.count_append, List.dropLast_concat, List.getLast_append_of_ne_nil,
    List.getLast_singleton, ne_eq, List.cons_ne_self, not_false_eq_true, List.count_singleton]
  by_cases hl : last = 47
  · subst hl; simp; omega
  · have : (last == 47) = false := by simpa using hl
    simp only [this, hl]
    simp
    omega

theorem list_selects_iff (e D : List Byte) (hD : cstr D = D) (hslash : D.count 47 = 1)
    (hb : D <+: cstr e) (hlen : D.length < (cstr e).length) :
    list_selects e D = direct_child D (cstr e) := by
  obtain ⟨r, hr⟩ := hb
  have hrne : r ≠ [] := by
    intro h0; rw [h0, List.append_nil] at hr; rw [hr] at hlen; omega
  have hne : cstr e ≠ [] := by
    intro h0; rw [h0] at hlen; simp at hlen
  have h1 : strncmp e D (strlen D) = 0 := by
    rw [strncmp_eq_zero_iff]; unfold strlen; rw [hD, ← hr]; simp
  have h2 : strlen e ≠ strlen D := by unfold strlen; rw [hD]; omega
  have h3 : count_backslash e = 1 + r.count 47 := by
    unfold count_backslash; rw [← hr, List.count_append, hslash]
  have h4 : e.getD (strlen e - 1) 0 = r.getLast hrne := by
    rw [getD_last_eq e hne]
    simp only [← hr]
    rw [List.getLast_append_of_ne_nil]
  have h5 : D.isPrefixOf (cstr e) = true := by
    rw [List.isPrefixOf_iff_prefix]; exact ⟨r, hr⟩
  have h6 : (cstr e).drop D.length = r := by rw [← hr, List.drop_left]
  have hrule := slash_rule r hrne
  unfold list_selects direct_child
  simp only [h1, h2, h3, h4, h5, h6, hlen, decide_True, Bool.true_and, ne_eq, not_false_eq_true]
  rw [Bool.eq_iff_iff]
  simp only [Bool.and_eq_true, Bool.or_eq_true, decide_eq_true_eq, Bool.not_eq_true',
    List.contains_eq_any_beq]
  rw [hrule, ← Bool.not_eq_true, List.any_beq]

/-- The names `list` writes for the blocks `l`, when the capacity is never reached. -/
theorem list_loop_full (a path : List Byte) (cap : Nat) : ∀ (fuel : Nat) (i : Int)
    (acc : List (List Byte)), (tolerant_visits a fuel i).length < fuel →
    acc.length + ((((tolerant_visits a fuel i).map (block a)).filter
      (fun h => is_entry h && list_selects h path)).map cstr).length ≤ cap →
    list_loop a path cap fuel i acc = some (acc ++
      (((tolerant_visits a fuel i).map (block a)).filter
        (fun h => is_entry h && list_selects h path)).map cstr) := by
  intro fuel
  induction fuel with
  | zero => intro i acc h; simp at h
  | succ fuel ih =>
    intro i acc hlen hcap
    rw [list_loop_step]
    rw [tolerant_visits] at hlen hcap ⊢
    by_cases hin : in_archive a i
    · simp only [hin, if_true, List.length_cons, List.map_cons] at hlen hcap ⊢
      by_cases hsel : is_entry (block a i.toNat) = true ∧ list_selects (block a i.toNat) path = true
      · have hb : List.filter (fun h => is_entry h && list_selects h path)
            (block a i.toNat :: (tolerant_visits a fuel (tolerant_step a i)).map (block a)) =
            block a i.toNat :: List.filter (fun h => is_entry h && list_selects h path)
              ((tolerant_visits a fuel (tolerant_step a i)).map (block a)) :=
          List.filter_cons_of_pos (by simp [hsel])
        rw [hb] at hcap ⊢
        simp only [List.map_cons, List.length_cons] at hcap
        have hc : ¬ acc.length ≥ cap := by omega
        simp only [hc, if_false, hsel, and_self, if_true]
        rw [ih _ _ (by omega) (by simp only [List.length_append, List.length_singleton]; omega)]
        simp
      · have hb : List.filter (fun h => is_entry h && list_selects h path)
            (block a i.toNat :: (tolerant_visits a fuel (tolerant_step a i)).map (block a)) =
            List.filter (fun h => is_entry h && list_selects h path)
              ((tolerant_visits a fuel (tolerant_step a i)).map (block a)) :=
          List.filter_cons_of_neg (by simpa using hsel)
        rw [hb] at hcap ⊢
        by_cases hc : acc.length ≥ cap
        · simp only [hc, if_true]
          have h0 : (((tolerant_visits a fuel (tolerant_step a i)).map (block a)).filter
              (fun h => is_entry h && list_selects h path)).map cstr = [] := by
            apply List.eq_nil_of_length_eq_zero; omega
          rw [h0, List.append_nil]
        · simp only [hc, if_false, hsel, if_false]
          exact ih _ _ (by omega) hcap
    · simp [hin]

theorem mem_entries_of (a : List Byte) (fuel : Nat) (h : List Byte) :
    h ∈ entries_of a fuel ↔ ∃ j ∈ tolerant_visits a fuel 0, block a j = h ∧ is_entry h = true := by
  unfold entries_of
  rw [List.mem_filter, List.mem_map]
  constructor
  · rintro ⟨⟨j, hj, rfl⟩, h2⟩; exact ⟨j, hj, rfl, h2⟩
  · rintro ⟨j, hj, rfl, h2⟩; exact ⟨⟨j, hj, rfl⟩, h2⟩

/-! ## The checksum field and the advance -/

/-- C19. Two headers that agree outside the 8 bytes of the checksum field (offsets 148 to
155), whatever these 8 bytes hold in each, have the same `checksum`. -/
theorem checksum_ignores_chksum_field (h1 h2 : List Byte)
    (hbefore : h1.take 148 = h2.take 148) (hafter : h1.drop 156 = h2.drop 156) :
    checksum h1 = checksum h2 := by
  rw [checksum_eq_sum, checksum_eq_sum, hbefore, hafter]

theorem checksum_ignores_chksum_field_witness :
    accent_header.take 148 = accent_header_zeroed.take 148 ∧
      accent_header.drop 156 = accent_header_zeroed.drop 156 ∧
      accent_header ≠ accent_header_zeroed ∧
      checksum accent_header = checksum accent_header_zeroed :=
  ⟨by decide!, by decide!, by decide!,
    checksum_ignores_chksum_field accent_header accent_header_zeroed (by decide!) (by decide!)⟩

/-- C20. The header `big_header` is valid and its size field decodes to 33554433
(2^25 + 1, below 8^11): the advance the code computes, `1 + ceil(s / (float)512)`, is
1 + 65536, whereas `1 + ceil(s / 512)` in exact arithmetic is 1 + 65537; the conversion
of the size to `float` yields 33554432. -/
theorem advance_single_precision_short :
    validate_header big_header = 0 ∧ TAR_INT (big_header.drop OFF_SIZE) = 33554433 ∧
      (33554433 : Int) < 8 ^ 11 ∧ float_of_long 33554433 = 33554432 ∧
      advance big_header = 1 + 65536 ∧ 1 + (33554433 + 511) / 512 = 1 + 65537 := by
  decide!

/-! ## `read_file` on single entries -/

theorem nblocks_header_zero_run (hd : List Byte) (n : Nat) (h : hd.length = 512) :
    nblocks (hd ++ zero_blocks n) = n + 1 := by
  simp only [nblocks, List.length_append, zero_blocks_length, h]
  omega

theorem zero_blocks_take_one (n : Nat) (hn : 0 < n) : (zero_blocks n).take 1 = [0] := by
  unfold zero_blocks
  rw [List.take_replicate, show min 1 (512 * n) = 1 by omega]
  rfl

theorem read_header_zero_run (hd : List Byte) (n fuel : Nat) (path : List Byte)
    (offset len : Nat) (hl : hd.length = 512)
    (hfile : is_entry hd = true ∧ entry_matches hd path [REGTYPE, AREGTYPE] = true)
    (hname : strncmp hd path (max (strlen hd) (strlen path)) = 0)
    (htype : ¬ hd.getD OFF_TYPEFLAG 0 = SYMTYPE) :
    read_file (fuel + 2) (hd ++ zero_blocks n) path offset len =
      some (read_entry (hd ++ zero_blocks n) 0 hd offset len) := by
  have hb : block (hd ++ zero_blocks n) 0 = hd := block_append_left _ _ hl
  have hin : in_archive (hd ++ zero_blocks n) 0 := by
    unfold in_archive
    rw [nblocks_header_zero_run hd n hl]
    omega
  have hlen : ¬ (hd ++ zero_blocks n).length ≤ 0 := by
    apply length_pos_of_nblocks
    rw [nblocks_header_zero_run hd n hl]
    omega
  have hf : is_file (fuel + 1) (hd ++ zero_blocks n) path = some 1 := by
    unfold is_file check_entry
    rw [if_neg hlen, check_entry_loop_step, if_pos hin]
    simp only [Int.toNat_zero, hb, hfile, and_self, if_true]
    rfl
  have hnn : ¬ strlen hd = 0 := by
    have := hfile.1
    unfold is_entry at this
    simp only [ne_eq, Bool.and_eq_true, decide_eq_true_eq] at this
    exact this.1
  have hv : validate_header hd = 0 := by
    have := hfile.1
    unfold is_entry at this
    simp only [ne_eq, Bool.and_eq_true, decide_eq_true_eq] at this
    exact this.2
  have hloop : read_file_loop (hd ++ zero_blocks n) path (fuel + 1) 0 = some (some (0, hd)) := by
    rw [read_file_loop, if_pos hin]
    simp only [Int.toNat_zero, hb, hnn, if_false, hv, ne_eq, not_true_eq_false, hname, if_true]
  rw [read_file, hf]
  simp only [one_ne_zero, if_false, false_and, hlen, hloop, htype]

/-- C13. `huge_archive` holds the regular file `a` of 2147483649 bytes (a valid header
followed by its data blocks).  `read_file` called on `a` at offset 0 with the capacity
1 copies the first byte and sets `*len` to 1, but returns -2147483648 instead of the
2147483648 bytes that remain: `remainder` is an `int`. -/
theorem read_file_remainder_wraps :
    validate_header huge_header = 0 ∧ cstr huge_header = [97] ∧
      huge_header.getD OFF_TYPEFLAG 0 = REGTYPE ∧
      TAR_INT (huge_header.drop OFF_SIZE) = 2147483649 ∧
      (zero_blocks 4194305).length = 512 * data_blocks 2147483649 ∧
      ∀ fuel, read_file (fuel + 2) huge_archive [97] 0 1 = some ⟨-2147483648, [0], 1⟩ := by
  refine ⟨by decide!, by decide!, by decide!, by decide!, ?_, ?_⟩
  · rw [zero_blocks_length]
    decide
  · intro fuel
    have hl : huge_header.length = 512 := by decide!
    unfold huge_archive
    rw [read_header_zero_run huge_header 4194305 fuel [97] 0 1 hl (by decide!) (by decide!)
      (by decide!)]
    unfold read_entry
    rw [show TAR_INT (huge_header.drop OFF_SIZE) = 2147483649 by decide!]
    have h1 : ¬ (0 > to_uint64 2147483649 ∨ 0 > 1) := by decide
    have h2 : 1 < to_uint64 2147483649 := by decide
    have h3 : to_int32 (2147483649 - ((1 : Nat) : Int) - ((0 : Nat) : Int)) = -2147483648 := by
      decide
    have h4 : min 1 (to_uint64 2147483649 - 0) = 1 := by decide
    simp only [h1, if_false, h2, if_true, h3, h4]
    rw [show (0 + 1) * 512 + 0 = huge_header.length by rw [hl], List.drop_left,
      zero_blocks_take_one _ (by decide)]

/-- C14. On `ten_archive` (the regular file `f` of 10 bytes) a first read of 6 bytes at
offset 0 returns 4; the second call, at offset 6 with the capacity 4 of the remaining
length, copies nothing, sets `*len` to 0 and returns -2, because the offset exceeds the
capacity. -/
theorem read_file_second_read_rejected :
    read_file 3 ten_archive [102] 0 6 = some ⟨4, [48, 49, 50, 51, 52, 53], 6⟩ ∧
      read_file 3 ten_archive [102] 6 4 = some ⟨-2, [], 0⟩ := by
  decide!

/-- C15. On `ten_archive` (the regular file `f` of 10 bytes) `read_file` returns -2 at
the offset 10, the end of the file, when the capacity is 5, and at the offset 3, inside
the file, when the capacity is 2; at the offset 10 with the capacity 10 it returns 0. -/
theorem read_file_offset_against_capacity :
    read_file 3 ten_archive [102] 10 5 = some ⟨-2, [], 0⟩ ∧
      read_file 3 ten_archive [102] 3 2 = some ⟨-2, [], 0⟩ ∧
      read_file 3 ten_archive [102] 10 10 = some ⟨0, [], 0⟩ := by
  decide!

/-- C16. On `ten_archive` (the regular file `f` of 10 bytes, header at block 0)
`read_file` at offset 2 with the capacity 9 copies the 8 bytes from position
`(0 + 1) * 512 + 2` of the archive and sets `*len` to 8, but returns -1 where
`max(0, 10 - 2 - 9)` is 0. -/
theorem read_file_negative_remainder :
    read_file 3 ten_archive [102] 2 9 =
        some ⟨-1, (ten_archive.drop ((0 + 1) * 512 + 2)).take 8, 8⟩ ∧
      (ten_archive.drop ((0 + 1) * 512 + 2)).take 8 = [50, 51, 52, 53, 54, 55, 56, 57] ∧
      max (0 : Int) (10 - 2 - 9) = 0 := by
  decide!

/-! ## Fuel: more fuel does not change a result -/

theorem check_entry_loop_mono (a path flags : List Byte) : ∀ (fuel : Nat) (i : Int)
    (r : Int × List Byte), check_entry_loop a path flags fuel i = some r →
    ∀ k, check_entry_loop a path flags (fuel + k) i = some r := by
  intro fuel
  induction fuel with
  | zero => intro i r h; simp [check_entry_loop] at h
  | succ fuel ih =>
    intro i r h k
    rw [show fuel + 1 + k = (fuel + k) + 1 by omega, check_entry_loop_step]
    rw [check_entry_loop_step] at h
    by_cases hin : in_archive a i
    · rw [if_pos hin] at h ⊢
      by_cases hhit : is_entry (block a i.toNat) = true ∧
          entry_matches (block a i.toNat) path flags = true
      · rw [if_pos hhit] at h ⊢; exact h
      · rw [if_neg hhit] at h ⊢; exact ih _ _ h k
    · rw [if_neg hin] at h ⊢; exact h

theorem check_entry_mono (a path flags : List Byte) (fuel k : Nat) (r : Int × List Byte)
    (h : check_entry fuel a path flags = some r) :
    check_entry (fuel + k) a path flags = some r := by
  unfold check_entry at h ⊢
  by_cases hl : a.length ≤ 0
  · rw [if_pos hl] at h ⊢; exact h
  · rw [if_neg hl] at h ⊢; exact check_entry_loop_mono a path flags fuel 0 r h k

theorem check_entry_le (a path flags : List Byte) (fuel fuel' : Nat) (r : Int × List Byte)
    (h : check_entry fuel a path flags = some r) (hle : fuel ≤ fuel') :
    check_entry fuel' a path flags = some r := by
  have := check_entry_mono a path flags fuel (fuel' - fuel) r h
  rwa [show fuel + (fuel' - fuel) = fuel' by omega] at this

theorem check_entry_unique (a path flags : List Byte) (f1 f2 : Nat) (r1 r2 : Int × List Byte)
    (h1 : check_entry f1 a path flags = some r1) (h2 : check_entry f2 a path flags = some r2) :
    r1 = r2 := by
  have e1 := check_entry_le a path flags f1 (max f1 f2) r1 h1 (le_max_left _ _)
  have e2 := check_entry_le a path flags f2 (max f1 f2) r2 h2 (le_max_right _ _)
  rw [e1] at e2
  exact Option.some.inj e2

theorem list_loop_mono (a path : List Byte) (cap : Nat) : ∀ (fuel : Nat) (i : Int)
    (acc r : List (List Byte)), list_loop a path cap fuel i acc = some r →
    ∀ k, list_loop a path cap (fuel + k) i acc = some r := by
  intro fuel
  induction fuel with
  | zero => intro i acc r h; simp [list_loop] at h
  | succ fuel ih =>
    intro i acc r h k
    rw [show fuel + 1 + k = (fuel + k) + 1 by omega, list_loop_step]
    rw [list_loop_step] at h
    by_cases hin : in_archive a i
    · rw [if_pos hin] at h ⊢
      by_cases hcap : acc.length ≥ cap
      · rw [if_pos hcap] at h ⊢; exact h
      · rw [if_neg hcap] at h ⊢; exact ih _ _ _ h k
    · rw [if_neg hin] at h ⊢; exact h

theorem list_mono (a : List Byte) (cap : Nat) : ∀ (fuel : Nat) (path : List Byte)
    (r : Outcome ListResult), list fuel a path cap = some r →
    ∀ k, list (fuel + k) a path cap = some r := by
  intro fuel
  induction fuel with
  | zero => intro path r h; simp [list] at h
  | succ fuel ih =>
    intro path r h k
    rw [show fuel + 1 + k = (fuel + k) + 1 by omega, list]
    rw [list] at h
    cases hs : get_symlink fuel a path with
    | none => simp [hs] at h
    | some p =>
      obtain ⟨found, symheader⟩ := p
      have hs' : get_symlink (fuel + k) a path = some (found, symheader) :=
        check_entry_mono a path [SYMTYPE] fuel k _ hs
      simp only [hs] at h
      simp only [hs']
      by_cases hf : found ≠ 0
      · rw [if_pos hf] at h ⊢
        by_cases hn : 100 < strlen (symheader.drop OFF_LINKNAME) + 2
        · rw [if_pos hn] at h ⊢; exact h
        · rw [if_neg hn] at h ⊢; exact ih _ _ h k
      · rw [if_neg hf] at h ⊢
        by_cases h2 : a.length ≤ 0
        · simp only [h2, if_true] at h ⊢
          exact h
        · simp only [h2, if_false] at h ⊢
          cases hd : is_dir fuel a path with
          | none => simp [hd] at h
          | some d =>
            have hd' : is_dir (fuel + k) a path = some d := by
              unfold is_dir at hd ⊢
              cases hc : check_entry fuel a path [DIRTYPE] with
              | none => simp [hc] at hd
              | some q =>
                rw [check_entry_mono a path [DIRTYPE] fuel k q hc]
                rw [hc] at hd
                exact hd
            simp only [hd] at h
            simp only [hd']
            by_cases h0 : d = 0
            · rw [if_pos h0] at h ⊢; exact h
            · rw [if_neg h0] at h ⊢
              by_cases h3 : strlen path = 0
              · rw [if_pos h3] at h ⊢; exact h
              · rw [if_neg h3] at h ⊢
                by_cases h1 : (cstr path).getLast? ≠ some 47
                · rw [if_pos h1] at h ⊢; exact h
                · rw [if_neg h1] at h ⊢
                  cases hl : list_loop a path cap fuel 0 [] with
                  | none => simp [hl] at h
                  | some entries =>
                    rw [list_loop_mono a path cap fuel 0 [] entries hl k]
                    simp only [hl] at h
                    exact h

theorem list_le (a path : List Byte) (cap fuel fuel' : Nat) (r : Outcome ListResult)
    (h : list fuel a path cap = some r) (hle : fuel ≤ fuel') :
    list fuel' a path cap = some r := by
  have := list_mono a cap fuel path r h (fuel' - fuel)
  rwa [show fuel + (fuel' - fuel) = fuel' by omega] at this

/-! ## The first matching header -/

theorem check_entry_loop_first (a path flags : List Byte) : ∀ (fuel : Nat) (i : Int) (j : Nat),
    (tolerant_visits a fuel i).find?
      (fun j => is_entry (block a j) && entry_matches (block a j) path flags) = some j →
    check_entry_loop a path flags fuel i = some (1, block a j) := by
  intro fuel
  induction fuel with
  | zero => intro i j h; simp [tolerant_visits] at h
  | succ fuel ih =>
    intro i j h
    rw [check_entry_loop_step]
    rw [tolerant_visits] at h
    by_cases hin : in_archive a i
    · rw [if_pos hin] at h ⊢
      by_cases hhit : is_entry (block a i.toNat) = true ∧
          entry_matches (block a i.toNat) path flags = true
      · rw [if_pos hhit]
        rw [List.find?_cons_of_pos _ (by simp [hhit])] at h
        rw [Option.some.inj h]
      · rw [if_neg hhit]
        rw [List.find?_cons_of_neg _ (by simpa using hhit)] at h
        exact ih _ _ h
    · rw [if_neg hin] at h; simp at h

theorem check_entry_first (a path flags : List Byte) (fuel k j : Nat)
    (h : first_hit a fuel path flags = some j) :
    check_entry (fuel + k) a path flags = some (1, block a j) := by
  apply check_entry_mono
  unfold check_entry
  have hl : ¬ a.length ≤ 0 := by
    intro hl
    unfold first_hit at h
    rw [tolerant_visits_nil_of_empty a hl] at h
    simp at h
  rw [if_neg hl]
  exact check_entry_loop_first a path flags fuel 0 j h

theorem check_entry_none (a path flags : List Byte) (fuel k : Nat)
    (hend : (tolerant_visits a fuel 0).length < fuel)
    (h : first_hit a fuel path flags = none) :
    check_entry (fuel + k) a path flags = some (0, []) := by
  apply check_entry_mono
  unfold check_entry
  by_cases hl : a.length ≤ 0
  · rw [if_pos hl]
  · rw [if_neg hl]
    apply check_entry_loop_misses a path flags fuel 0 hend
    intro j hj hh
    unfold first_hit at h
    rw [List.find?_eq_none] at h
    exact h j hj (by simp [hh.1, hh.2])

theorem tolerant_visits_stable (a : List Byte) : ∀ (fuel : Nat) (i : Int),
    (tolerant_visits a fuel i).length < fuel →
    ∀ k, tolerant_visits a (fuel + k) i = tolerant_visits a fuel i := by
  intro fuel
  induction fuel with
  | zero => intro i h; simp at h
  | succ fuel ih =>
    intro i h k
    rw [show fuel + 1 + k = (fuel + k) + 1 by omega, tolerant_visits, tolerant_visits]
    rw [tolerant_visits] at h
    by_cases hin : in_archive a i
    · rw [if_pos hin] at h ⊢
      rw [if_pos hin]
      simp only [List.length_cons] at h
      rw [ih _ (by omega) k]
    · rw [if_neg hin, if_neg hin]

/-! ## `list` through a symlink -/

/-- C12. In `link_archive` the symlinks `l` and `m` both designate the directory entry
`dir/`: the link name of `l` is `dir/`, that of `m` is `dir`.  `list` appends a `/` to
the link name: called on `l` it looks up `dir//`, which is the name of no entry, and
returns 0 without writing anything, whereas called on `dir/`, and on `m`, it returns 1
and writes `dir/a` (capacity 10, any fuel from 9 on). -/
theorem list_symlink_with_slash_fails :
    (first_hit link_archive 5 [108] [SYMTYPE] = some 2 ∧
      cstr ((block link_archive 2).drop OFF_LINKNAME) = [100, 105, 114, 47]) ∧
    (first_hit link_archive 5 [109] [SYMTYPE] = some 3 ∧
      cstr ((block link_archive 3).drop OFF_LINKNAME) = [100, 105, 114]) ∧
    first_hit link_archive 5 [100, 105, 114, 47] [DIRTYPE] = some 0 ∧
    ∀ fuel, list (9 + fuel) link_archive [108] 10 = some (Outcome.ret ⟨0, [], 10⟩) ∧
      list (9 + fuel) link_archive [100, 105, 114, 47] 10
        = some (Outcome.ret ⟨1, [[100, 105, 114, 47, 97]], 1⟩) ∧
      list (9 + fuel) link_archive [109] 10
        = some (Outcome.ret ⟨1, [[100, 105, 114, 47, 97]], 1⟩) := by
  refine ⟨⟨by decide!, by decide!⟩, ⟨by decide!, by decide!⟩, by decide!, fun fuel => ?_⟩
  exact ⟨list_mono link_archive 10 9 [108] _ (by decide!) fuel,
    list_mono link_archive 10 9 [100, 105, 114, 47] _ (by decide!) fuel,
    list_mono link_archive 10 9 [109] _ (by decide!) fuel⟩

/-! ## The loop of `read_file` -/

theorem entry_matches_any (header path : List Byte) :
    entry_matches header path [] = decide (strncmp header path
      (max (strlen header) (strlen path)) = 0) := by
  unfold entry_matches array_contains
  simp

theorem read_file_loop_step (a path : List Byte) (fuel : Nat) (i : Int) :
    read_file_loop a path (fuel + 1) i =
      if in_archive a i then
        if is_entry (block a i.toNat) = true ∧ entry_matches (block a i.toNat) path [] = true
        then some (some (i.toNat, block a i.toNat))
        else read_file_loop a path fuel (tolerant_step a i)
      else some none := by
  rw [read_file_loop]
  unfold tolerant_step is_entry
  rw [entry_matches_any]
  by_cases hin : in_archive a i
  · simp only [hin, if_true]
    by_cases hnull : strlen (block a i.toNat) = 0
    · simp [hnull]
    · by_cases hval : validate_header (block a i.toNat) = 0
      · by_cases hm : strncmp (block a i.toNat) path
            (max (strlen (block a i.toNat)) (strlen path)) = 0
        · simp [hnull, hval, hm]
        · simp [hnull, hval, hm]
      · simp [hnull, hval]
  · simp [hin]

theorem read_file_loop_mono (a path : List Byte) : ∀ (fuel : Nat) (i : Int)
    (r : Option (Nat × List Byte)), read_file_loop a path fuel i = some r →
    ∀ k, read_file_loop a path (fuel + k) i = some r := by
  intro fuel
  induction fuel with
  | zero => intro i r h; simp [read_file_loop] at h
  | succ fuel ih =>
    intro i r h k
    rw [show fuel + 1 + k = (fuel + k) + 1 by omega, read_file_loop_step]
    rw [read_file_loop_step] at h
    by_cases hin : in_archive a i
    · rw [if_pos hin] at h ⊢
      by_cases hhit : is_entry (block a i.toNat) = true ∧
          entry_matches (block a i.toNat) path [] = true
      · rw [if_pos hhit] at h ⊢; exact h
      · rw [if_neg hhit] at h ⊢; exact ih _ _ h k
    · rw [if_neg hin] at h ⊢; exact h

theorem read_file_loop_le (a path : List Byte) (fuel fuel' : Nat)
    (r : Option (Nat × List Byte)) (h : read_file_loop a path fuel 0 = some r)
    (hle : fuel ≤ fuel') : read_file_loop a path fuel' 0 = some r := by
  have := read_file_loop_mono a path fuel 0 r h (fuel' - fuel)
  rwa [show fuel + (fuel' - fuel) = fuel' by omega] at this

theorem read_file_loop_first (a path : List Byte) : ∀ (fuel : Nat) (i : Int) (j : Nat),
    (tolerant_visits a fuel i).find?
      (fun j => is_entry (block a j) && entry_matches (block a j) path []) = some j →
    read_file_loop a path fuel i = some (some (j, block a j)) := by
  intro fuel
  induction fuel with
  | zero => intro i j h; simp [tolerant_visits] at h
  | succ fuel ih =>
    intro i j h
    rw [read_file_loop_step]
    rw [tolerant_visits] at h
    by_cases hin : in_archive a i
    · rw [if_pos hin] at h ⊢
      by_cases hhit : is_entry (block a i.toNat) = true ∧
          entry_matches (block a i.toNat) path [] = true
      · rw [if_pos hhit]
        rw [List.find?_cons_of_pos _ (by simp [hhit])] at h
        rw [Option.some.inj h]
      · rw [if_neg hhit]
        rw [List.find?_cons_of_neg _ (by simpa using hhit)] at h
        exact ih _ _ h
    · rw [if_neg hin] at h; simp at h

theorem read_file_loop_none (a path : List Byte) : ∀ (fuel : Nat) (i : Int),
    (tolerant_visits a fuel i).length < fuel →
    (tolerant_visits a fuel i).find?
      (fun j => is_entry (block a j) && entry_matches (block a j) path []) = none →
    read_file_loop a path fuel i = some none := by
  intro fuel
  induction fuel with
  | zero => intro i h; simp at h
  | succ fuel ih =>
    intro i hlen h
    rw [read_file_loop_step]
    rw [tolerant_visits] at h hlen
    by_cases hin : in_archive a i
    · rw [if_pos hin] at h hlen ⊢
      simp only [List.length_cons] at hlen
      by_cases hhit : is_entry (block a i.toNat) = true ∧
          entry_matches (block a i.toNat) path [] = true
      · rw [List.find?_cons_of_pos _ (by simp [hhit])] at h
        simp at h
      · rw [if_neg hhit]
        rw [List.find?_cons_of_neg _ (by simpa using hhit)] at h
        exact ih _ (by omega) h
    · rw [if_neg hin]

theorem read_file_loop_unique (a path : List Byte) (fuel fuel0 j : Nat)
    (x : Option (Nat × List Byte)) (h : read_file_loop a path fuel 0 = some x)
    (hfirst : first_hit a fuel0 path [] = some j) : x = some (j, block a j) := by
  have h0 := read_file_loop_first a path fuel0 0 j hfirst
  have e1 := read_file_loop_le a path fuel (max fuel fuel0) x h (le_max_left _ _)
  have e2 := read_file_loop_le a path fuel0 (max fuel fuel0) _ h0 (le_max_right _ _)
  rw [e1] at e2
  exact Option.some.inj e2

theorem find_narrow {α : Type} (p q : α → Bool) : ∀ (l : List α) (j : α),
    l.find? p = some j → q j = true → (∀ x, q x = true → p x = true) →
    l.find? q = some j := by
  intro l
  induction l with
  | nil => intro j h; simp at h
  | cons x t ih =>
    intro j h hq hqp
    by_cases hp : p x = true
    · rw [List.find?_cons_of_pos _ hp] at h
      have hx : x = j := Option.some.inj h
      subst hx
      rw [List.find?_cons_of_pos _ hq]
    · rw [List.find?_cons_of_neg _ hp] at h
      have hqx : ¬ q x = true := fun hh => hp (hqp x hh)
      rw [List.find?_cons_of_neg _ hqx]
      exact ih j h hq hqp

theorem first_hit_flags (a path flags : List Byte) (fuel j : Nat)
    (h : first_hit a fuel path [] = some j)
    (hflag : (block a j).getD OFF_TYPEFLAG 0 ∈ flags) :
    first_hit a fuel path flags = some j := by
  unfold first_hit at h ⊢
  have hj := List.find?_some h
  simp only [Bool.and_eq_true] at hj
  apply find_narrow _ _ _ j h
  · simp only [Bool.and_eq_true]
    refine ⟨hj.1, ?_⟩
    rw [entry_matches_cstr]
    exact ⟨((entry_matches_cstr _ _ _).1 hj.2).1, Or.inr hflag⟩
  · intro x hx
    simp only [Bool.and_eq_true] at hx ⊢
    refine ⟨hx.1, ?_⟩
    rw [entry_matches_cstr]
    exact ⟨((entry_matches_cstr _ _ _).1 hx.2).1, Or.inl rfl⟩

/-! ## The path matters through its string only -/

theorem entry_matches_congr (header p q flags : List Byte) (h : cstr p = cstr q) :
    entry_matches header p flags = entry_matches header q flags := by
  rw [Bool.eq_iff_iff, entry_matches_cstr, entry_matches_cstr, h]

theorem check_entry_loop_congr (a p q flags : List Byte) (h : cstr p = cstr q) :
    ∀ (fuel : Nat) (i : Int),
    check_entry_loop a p flags fuel i = check_entry_loop a q flags fuel i := by
  intro fuel
  induction fuel with
  | zero => intro i; rfl
  | succ fuel ih =>
    intro i
    rw [check_entry_loop_step, check_entry_loop_step, entry_matches_congr _ p q flags h, ih]

theorem check_entry_congr (a p q flags : List Byte) (h : cstr p = cstr q) (fuel : Nat) :
    check_entry fuel a p flags = check_entry fuel a q flags := by
  unfold check_entry
  rw [check_entry_loop_congr a p q flags h]

theorem read_file_loop_congr (a p q : List Byte) (h : cstr p = cstr q) :
    ∀ (fuel : Nat) (i : Int), read_file_loop a p fuel i = read_file_loop a q fuel i := by
  intro fuel
  induction fuel with
  | zero => intro i; rfl
  | succ fuel ih =>
    intro i
    rw [read_file_loop_step, read_file_loop_step, entry_matches_congr _ p q [] h, ih]

theorem read_file_congr (a p q : List Byte) (h : cstr p = cstr q) (offset len : Nat) :
    ∀ (fuel : Nat), read_file fuel a p offset len = read_file fuel a q offset len := by
  intro fuel
  cases fuel with
  | zero => rfl
  | succ fuel =>
    rw [read_file, read_file]
    unfold is_file is_symlink
    rw [check_entry_congr a p q _ h, check_entry_congr a p q _ h, read_file_loop_congr a p q h]

/-! ## `read_file` through a symlink -/

theorem check_entry_fst_mono (a path flags : List Byte) (fuel k : Nat) (v : Int)
    (h : (check_entry fuel a path flags).map Prod.fst = some v) :
    (check_entry (fuel + k) a path flags).map Prod.fst = some v := by
  cases hc : check_entry fuel a path flags with
  | none => simp [hc] at h
  | some q =>
    rw [check_entry_mono a path flags fuel k q hc]
    rw [hc] at h
    exact h

theorem read_file_mono (a : List Byte) (offset len : Nat) : ∀ (fuel : Nat) (path : List Byte)
    (r : ReadResult), read_file fuel a path offset len = some r →
    ∀ k, read_file (fuel + k) a path offset len = some r := by
  intro fuel
  induction fuel with
  | zero => intro path r h; simp [read_file] at h
  | succ fuel ih =>
    intro path r h k
    rw [show fuel + 1 + k = (fuel + k) + 1 by omega, read_file]
    rw [read_file] at h
    cases hf : is_file fuel a path with
    | none => simp [hf] at h
    | some f =>
      have hf' : is_file (fuel + k) a path = some f :=
        check_entry_fst_mono a path _ fuel k f hf
      simp only [hf] at h
      simp only [hf']
      cases hs : (if f = 0 then is_symlink fuel a path else some 1) with
      | none => simp [hs] at h
      | some s =>
        have hs' : (if f = 0 then is_symlink (fuel + k) a path else some 1) = some s := by
          by_cases hf0 : f = 0
          · rw [if_pos hf0] at hs ⊢
            exact check_entry_fst_mono a path _ fuel k s hs
          · rw [if_neg hf0] at hs ⊢
            exact hs
        simp only [hs] at h
        simp only [hs']
        by_cases h1 : f = 0 ∧ s = 0
        · rw [if_pos h1] at h ⊢; exact h
        · rw [if_neg h1] at h ⊢
          by_cases h2 : a.length ≤ 0
          · rw [if_pos h2] at h ⊢; exact h
          · rw [if_neg h2] at h ⊢
            cases hl : read_file_loop a path fuel 0 with
            | none => simp [hl] at h
            | some x =>
              rw [read_file_loop_mono a path fuel 0 x hl k]
              simp only [hl] at h
              cases x with
              | none => exact h
              | some p =>
                obtain ⟨i, header⟩ := p
                simp only at h ⊢
                by_cases ht : header.getD OFF_TYPEFLAG 0 = SYMTYPE
                · rw [if_pos ht] at h ⊢
                  exact ih _ _ h k
                · rw [if_neg ht] at h ⊢
                  exact h

theorem read_file_le (a path : List Byte) (offset len fuel fuel' : Nat) (r : ReadResult)
    (h : read_file fuel a path offset len = some r) (hle : fuel ≤ fuel') :
    read_file fuel' a path offset len = some r := by
  have := read_file_mono a offset len fuel path r h (fuel' - fuel)
  rwa [show fuel + (fuel' - fuel) = fuel' by omega] at this

theorem check_entry_returns (a path flags : List Byte) (fuel k : Nat)
    (hend : (tolerant_visits a fuel 0).length < fuel) :
    ∃ p, check_entry (fuel + k) a path flags = some p := by
  cases h : first_hit a fuel path flags with
  | none => exact ⟨_, check_entry_none a path flags fuel k hend h⟩
  | some j => exact ⟨_, check_entry_first a path flags fuel k j h⟩

theorem length_pos_of_first_hit (a path flags : List Byte) (fuel j : Nat)
    (h : first_hit a fuel path flags = some j) : ¬ a.length ≤ 0 := by
  intro hl
  unfold first_hit at h
  rw [tolerant_visits_nil_of_empty a hl] at h
  simp at h

/-- The step of `read_file` on a path whose first matching header is a symlink: the
call goes on with the link name. -/
theorem read_file_symlink_step (a s : List Byte) (fuel0 j : Nat) (offset len : Nat)
    (hfirst : first_hit a fuel0 s [] = some j)
    (htype : (block a j).getD OFF_TYPEFLAG 0 = SYMTYPE) (fuel : Nat) (r : ReadResult)
    (h : read_file (fuel + 1) a s offset len = some r) :
    read_file fuel a ((block a j).drop OFF_LINKNAME) offset len = some r := by
  have hsym : first_hit a fuel0 s [SYMTYPE] = some j :=
    first_hit_flags a s [SYMTYPE] fuel0 j hfirst (by rw [htype]; simp)
  have hl := length_pos_of_first_hit a s [] fuel0 j hfirst
  rw [read_file] at h
  cases hf : is_file fuel a s with
  | none => simp [hf] at h
  | some f =>
    simp only [hf] at h
    cases hs : (if f = 0 then is_symlink fuel a s else some 1) with
    | none => simp [hs] at h
    | some sv =>
      simp only [hs] at h
      have h1 : ¬ (f = 0 ∧ sv = 0) := by
        rintro ⟨hf0, hs0⟩
        rw [if_pos hf0] at hs
        unfold is_symlink at hs
        cases hc : check_entry fuel a s [SYMTYPE] with
        | none => simp [hc] at hs
        | some q =>
          have := check_entry_unique a s [SYMTYPE] fuel (fuel0 + 0) q _ hc
            (check_entry_first a s [SYMTYPE] fuel0 0 j hsym)
          rw [hc, this] at hs
          simp at hs
          omega
      rw [if_neg h1, if_neg hl] at h
      cases hloop : read_file_loop a s fuel 0 with
      | none => simp [hloop] at h
      | some x =>
        have hx := read_file_loop_unique a s fuel fuel0 j x hloop hfirst
        subst hx
        simp only [hloop, htype, if_true] at h
        exact h

/-- C17 (amended). For every archive on which the walk ends: when the first valid header
named `s` is a symlink whose link name is the string `t`, `read_file` called on `s`
returns exactly what `read_file` called on `t` returns (the same value, the same bytes
and the same `*len`), for every offset and capacity; and when the walker meets no
regular-file entry and no symlink entry named `p`, `read_file` called on `p` returns
-1, copies nothing and leaves `*len` unchanged. -/
theorem read_file_symlink_spec (a : List Byte) (F : Nat)
    (hend : (tolerant_visits a F 0).length < F) :
    (∀ (s t : List Byte) (j : Nat), first_hit a F s [] = some j →
        (block a j).getD OFF_TYPEFLAG 0 = SYMTYPE →
        cstr ((block a j).drop OFF_LINKNAME) = cstr t →
        ∀ (offset len : Nat) (r : ReadResult),
          ((∃ fuel, read_file fuel a s offset len = some r) ↔
            (∃ fuel, read_file fuel a t offset len = some r))) ∧
    (∀ (p : List Byte) (offset len : Nat),
        first_hit a F p [REGTYPE, AREGTYPE] = none → first_hit a F p [SYMTYPE] = none →
        ∀ k, read_file (F + k + 1) a p offset len = some ⟨-1, [], len⟩) := by
  constructor
  · intro s t j hfirst htype hlink offset len r
    have hsym : first_hit a F s [SYMTYPE] = some j :=
      first_hit_flags a s [SYMTYPE] F j hfirst (by rw [htype]; simp)
    have hl := length_pos_of_first_hit a s [] F j hfirst
    constructor
    · rintro ⟨fuel, h⟩
      cases fuel with
      | zero => simp [read_file] at h
      | succ f =>
        have := read_file_symlink_step a s F j offset len hfirst htype f r h
        rw [read_file_congr a _ t hlink] at this
        exact ⟨f, this⟩
    · rintro ⟨f, h⟩
      refine ⟨max f F + 1, ?_⟩
      have hF : F + (max f F - F) = max f F := by omega
      obtain ⟨pf, hpf⟩ := check_entry_returns a s [REGTYPE, AREGTYPE] F (max f F - F) hend
      rw [hF] at hpf
      have hps := check_entry_first a s [SYMTYPE] F (max f F - F) j hsym
      rw [hF] at hps
      have hloop := read_file_loop_le a s F (max f F) _
        (read_file_loop_first a s F 0 j hfirst) (le_max_right _ _)
      have hrec : read_file (max f F) a ((block a j).drop OFF_LINKNAME) offset len = some r := by
        rw [read_file_congr a _ t hlink]
        exact read_file_le a t offset len f _ r h (le_max_left _ _)
      rw [read_file]
      unfold is_file is_symlink
      rw [hpf, hps]
      simp only [Option.map_some']
      have hs : (if pf.1 = 0 then some (1 : Int) else some 1) = some 1 := by
        split <;> rfl
      rw [hs]
      simp only [one_ne_zero, and_false, if_false, hl, hloop, htype, if_true]
      exact hrec
  · intro p offset len hfile hsym k
    have h1 := check_entry_none a p [REGTYPE, AREGTYPE] F k hend hfile
    have h2 := check_entry_none a p [SYMTYPE] F k hend hsym
    rw [read_file]
    unfold is_file is_symlink
    rw [h1, h2]
    simp

theorem read_file_symlink_spec_witness :
    (tolerant_visits symlink_archive 4 0).length < 4 ∧
      first_hit symlink_archive 4 [115] [] = some 2 ∧
      (block symlink_archive 2).getD OFF_TYPEFLAG 0 = SYMTYPE ∧
      cstr ((block symlink_archive 2).drop OFF_LINKNAME) = cstr [102] ∧
      read_file 5 symlink_archive [115] 0 20 =
        some ⟨0, [48, 49, 50, 51, 52, 53, 54, 55, 56, 57], 10⟩ ∧
      (∃ fuel, read_file fuel symlink_archive [102] 0 20 =
        some ⟨0, [48, 49, 50, 51, 52, 53, 54, 55, 56, 57], 10⟩) :=
  ⟨by decide!, by decide!, by decide!, by decide!, by decide!,
    ((read_file_symlink_spec symlink_archive 4 (by decide!)).1 [115] [102] 2 (by decide!)
      (by decide!) (by decide!) 0 20 ⟨0, [48, 49, 50, 51, 52, 53, 54, 55, 56, 57], 10⟩).1
      ⟨5, by decide!⟩⟩

theorem loop_archive_check_entry_stuck (path flags : List Byte)
    (hm : entry_matches (block loop_archive 0) path flags = false) :
    ∀ fuel, check_entry_loop loop_archive path flags fuel 0 = none := by
  have hs : tolerant_step loop_archive 0 = 0 := by decide!
  have hin : in_archive loop_archive 0 := by decide!
  intro fuel
  induction fuel with
  | zero => rfl
  | succ fuel ih =>
    rw [check_entry_loop_step]
    simp only [hin, if_true, Int.toNat_zero, hm, Bool.false_eq_true, and_false, if_false, hs]
    exact ih

theorem loop_archive_check_entry_none (path flags : List Byte)
    (hm : entry_matches (block loop_archive 0) path flags = false) (fuel : Nat) :
    check_entry fuel loop_archive path flags = none := by
  have hl : ¬ loop_archive.length ≤ 0 := by decide!
  unfold check_entry
  rw [if_neg hl]
  exact loop_archive_check_entry_stuck path flags hm fuel

/-- C17 (counterexample). On `loop_archive` (one valid header named `a` whose size field
reads `-1000`) the walker never meets a header named `b`, of any type, and `read_file`
called on `b` returns no value, -1 included, whatever the fuel. -/
theorem read_file_never_returns :
    (∀ fuel, first_hit loop_archive fuel [98] [] = none) ∧
      ¬ ∃ fuel r, read_file fuel loop_archive [98] 0 10 = some r := by
  have hm : entry_matches (block loop_archive 0) [98] [] = false := by decide!
  constructor
  · intro fuel
    unfold first_hit
    rw [List.find?_eq_none]
    intro x hx
    rw [loop_archive_visits fuel x hx, hm]
    simp
  · rintro ⟨fuel, r, h⟩
    cases fuel with
    | zero => simp [read_file] at h
    | succ fuel =>
      rw [read_file] at h
      unfold is_file at h
      rw [loop_archive_check_entry_none [98] [REGTYPE, AREGTYPE] (by decide!)] at h
      simp at h

/-! ## Symlink cycles -/

theorem read_file_cycle (a p q : List Byte) (F1 j1 F2 j2 : Nat)
    (hp : first_hit a F1 p [] = some j1) (tp : (block a j1).getD OFF_TYPEFLAG 0 = SYMTYPE)
    (lp : cstr ((block a j1).drop OFF_LINKNAME) = cstr q)
    (hq : first_hit a F2 q [] = some j2) (tq : (block a j2).getD OFF_TYPEFLAG 0 = SYMTYPE)
    (lq : cstr ((block a j2).drop OFF_LINKNAME) = cstr p) (offset len : Nat) :
    ∀ fuel, read_file fuel a p offset len = none ∧ read_file fuel a q offset len = none := by
  intro fuel
  induction fuel with
  | zero => exact ⟨rfl, rfl⟩
  | succ fuel ih =>
    constructor
    · cases h : read_file (fuel + 1) a p offset len with
      | none => rfl
      | some r =>
        have := read_file_symlink_step a p F1 j1 offset len hp tp fuel r h
        rw [read_file_congr a _ q lp, ih.2] at this
        simp at this
    · cases h : read_file (fuel + 1) a q offset len with
      | none => rfl
      | some r =>
        have := read_file_symlink_step a q F2 j2 offset len hq tq fuel r h
        rw [read_file_congr a _ p lq, ih.1] at this
        simp at this

/-- C18 (amended). For every archive in which the first valid header named `p` is a
symlink to `q` and the first valid header named `q` is a symlink to `p` (a cycle of two
links, or a link to itself when `p` and `q` are the same), `read_file` called on `p` or
on `q` follows the links without bound: whatever the fuel, the offset and the capacity,
it returns no value, so no failure is reported and no maximum depth exists. -/
theorem read_file_cycle_never_returns (a p q : List Byte) (F1 j1 F2 j2 : Nat)
    (hp : first_hit a F1 p [] = some j1) (tp : (block a j1).getD OFF_TYPEFLAG 0 = SYMTYPE)
    (lp : cstr ((block a j1).drop OFF_LINKNAME) = cstr q)
    (hq : first_hit a F2 q [] = some j2) (tq : (block a j2).getD OFF_TYPEFLAG 0 = SYMTYPE)
    (lq : cstr ((block a j2).drop OFF_LINKNAME) = cstr p) (fuel offset len : Nat) :
    read_file fuel a p offset len = none ∧ read_file fuel a q offset len = none :=
  read_file_cycle a p q F1 j1 F2 j2 hp tp lp hq tq lq offset len fuel

theorem read_file_cycle_never_returns_witness :
    first_hit cycle_archive 3 [97] [] = some 0 ∧
      (block cycle_archive 0).getD OFF_TYPEFLAG 0 = SYMTYPE ∧
      cstr ((block cycle_archive 0).drop OFF_LINKNAME) = cstr [98] ∧
      first_hit cycle_archive 3 [98] [] = some 1 ∧
      (block cycle_archive 1).getD OFF_TYPEFLAG 0 = SYMTYPE ∧
      cstr ((block cycle_archive 1).drop OFF_LINKNAME) = cstr [97] ∧
      (read_file 40 cycle_archive [97] 0 10 = none ∧
        read_file 40 cycle_archive [98] 0 10 = none) :=
  ⟨by decide!, by decide!, by decide!, by decide!, by decide!, by decide!,
    read_file_cycle_never_returns cycle_archive [97] [98] 3 0 3 1 (by decide!) (by decide!)
      (by decide!) (by decide!) (by decide!) (by decide!) 40 0 10⟩

/-- C18 (counterexample). In `cycle_archive` the symlink `a` points to `b` and the
symlink `b` points to `a`: `read_file` called on `a` returns no value whatever the fuel
(the recursion has no bound and reports no failure); `list` called on `a` looks up `b/`
after one indirection and returns 0. -/
theorem symlink_cycle_unbounded :
    first_hit cycle_archive 3 [97] [SYMTYPE] = some 0 ∧
      first_hit cycle_archive 3 [98] [SYMTYPE] = some 1 ∧
      list 9 cycle_archive [97] 10 = some (Outcome.ret ⟨0, [], 10⟩) ∧
      ¬ ∃ fuel r, read_file fuel cycle_archive [97] 0 10 = some r := by
  refine ⟨by decide!, by decide!, by decide!, ?_⟩
  rintro ⟨fuel, r, h⟩
  have := (read_file_cycle cycle_archive [97] [98] 3 0 3 1 (by decide!) (by decide!)
    (by decide!) (by decide!) (by decide!) (by decide!) 0 10 fuel).1
  rw [this] at h
  simp at h

/-! ## `list`: not found, and the empty directory -/

theorem list_selects_cstr (e q : List Byte) : list_selects e q = list_selects e (cstr q) := by
  unfold list_selects
  have h1 : strlen (cstr q) = strlen q := by unfold strlen; rw [cstr_idem]
  have h2 : (strncmp e q (strlen q) = 0) ↔ (strncmp e (cstr q) (strlen q) = 0) := by
    rw [strncmp_eq_zero_iff, strncmp_eq_zero_iff, cstr_idem]
  rw [h1, decide_eq_decide.2 h2]

theorem list_selects_direct_child (e q : List Byte) (hq : (cstr q).getLast? = some 47)
    (hsel : list_selects e q = true) : direct_child (cstr q) (cstr e) = true := by
  have hsel0 := hsel
  unfold list_selects at hsel
  simp only [Bool.and_eq_true, Bool.or_eq_true, decide_eq_true_eq] at hsel
  obtain ⟨⟨⟨h1, h2⟩, h3⟩, h4⟩ := hsel
  rw [strncmp_eq_zero_iff] at h1
  have htake : (cstr q).take (strlen q) = cstr q := List.take_of_length_le (le_refl _)
  rw [htake] at h1
  have hpre : cstr q <+: cstr e := by rw [← h1]; exact List.take_prefix _ _
  have hlen : (cstr q).length < (cstr e).length := by
    have := hpre.length_le
    unfold strlen at h2
    omega
  have hmem : (47 : Byte) ∈ cstr q := List.mem_of_getLast?_eq_some hq
  have hcount : 1 ≤ (cstr q).count 47 := List.one_le_count_iff.2 hmem
  by_cases hc : (cstr q).count 47 = 1
  · rw [← list_selects_iff e (cstr q) (cstr_idem q) hc hpre hlen, ← list_selects_cstr]
    exact hsel0
  · exfalso
    obtain ⟨r, hr⟩ := hpre
    have hrne : r ≠ [] := by
      intro h0; rw [h0, List.append_nil] at hr; rw [hr] at hlen; omega
    have hne : cstr e ≠ [] := by
      intro h0; rw [h0] at hlen; simp at hlen
    have hce : count_backslash e = (cstr q).count 47 + r.count 47 := by
      unfold count_backslash; rw [← hr, List.count_append]
    rw [hce] at h3 h4
    have hr0 : r.count 47 = 0 := by omega
    rcases h4 with h4 | h4
    · omega
    · rw [getD_last_eq e hne] at h4
      have hl : (cstr e).getLast hne = r.getLast hrne := by
        simp only [← hr]
        rw [List.getLast_append_of_ne_nil]
      rw [hl] at h4
      have : (47 : Byte) ∈ r := by rw [← h4]; exact List.getLast_mem hrne
      have := List.one_le_count_iff.2 this
      omega

theorem list_loop_nothing (a q : List Byte) (cap F n : Nat)
    (hend : (tolerant_visits a F 0).length < F) (hq : (cstr q).getLast? = some 47)
    (hnone : ∀ e ∈ entries_of a F, direct_child (cstr q) (cstr e) = false) :
    list_loop a q cap (F + n) 0 [] = some [] := by
  have hst := tolerant_visits_stable a F 0 hend n
  have hsel : ((tolerant_visits a (F + n) 0).map (block a)).filter
      (fun h => is_entry h && list_selects h q) = [] := by
    rw [hst, List.filter_eq_nil_iff]
    intro h hh hp
    simp only [Bool.and_eq_true] at hp
    rw [List.mem_map] at hh
    obtain ⟨j, hj, rfl⟩ := hh
    have hm : block a j ∈ entries_of a F := (mem_entries_of a F _).2 ⟨j, hj, rfl, hp.1⟩
    have := list_selects_direct_child (block a j) q hq hp.2
    rw [hnone _ hm] at this
    exact absurd this (by decide)
  have := list_loop_full a q cap (F + n) 0 [] (by rw [hst]; omega) (by rw [hsel]; simp)
  rw [hsel] at this
  simpa using this

theorem strlen_pos_of_check_entry (a path flags : List Byte) (fuel : Nat) (r : Int)
    (hd : List Byte) (h : check_entry fuel a path flags = some (r, hd)) (hr : r ≠ 0) :
    ¬ strlen path = 0 := by
  unfold check_entry at h
  by_cases hl : a.length ≤ 0
  · rw [if_pos hl] at h
    simp only [Option.some.injEq, Prod.mk.injEq] at h
    exact absurd h.1.symm hr
  · rw [if_neg hl] at h
    obtain ⟨j, _, h1, h2, _, _⟩ := check_entry_loop_found a path flags fuel 0 r hd h hr
    have hc := ((entry_matches_cstr _ _ _).1 h2).1
    unfold is_entry at h1
    simp only [ne_eq, Bool.and_eq_true, decide_eq_true_eq] at h1
    unfold strlen at h1 ⊢
    rw [← hc]
    exact h1.1

theorem list_not_symlink_not_dir (a q : List Byte) (F n cap : Nat) (hpos : ¬ a.length ≤ 0)
    (hend : (tolerant_visits a F 0).length < F)
    (hsym : first_hit a F q [SYMTYPE] = none)
    (hno : first_hit a F q [DIRTYPE] = none ∨ (cstr q).getLast? ≠ some 47) :
    list (F + n + 1) a q cap = some (Outcome.ret ⟨0, [], cap⟩) := by
  have hs : get_symlink (F + n) a q = some (0, []) := check_entry_none a q _ F n hend hsym
  obtain ⟨pd, hpd⟩ := check_entry_returns a q [DIRTYPE] F n hend
  obtain ⟨d, hdr⟩ := pd
  rw [list, hs]
  unfold is_dir
  rw [hpd]
  simp only [ne_eq, not_true_eq_false, if_false, Option.map_some', hpos]
  by_cases h0 : d = 0
  · rw [if_pos h0]
  · rw [if_neg h0, if_neg (strlen_pos_of_check_entry a q _ _ d hdr hpd h0)]
    rcases hno with h | h
    · have := check_entry_none a q [DIRTYPE] F n hend h
      rw [this] at hpd
      simp only [Option.some.injEq, Prod.mk.injEq] at hpd
      exact absurd hpd.1.symm h0
    · rw [if_pos h]

theorem list_empty_directory (a q : List Byte) (F n cap : Nat)
    (hend : (tolerant_visits a F 0).length < F)
    (hsym : first_hit a F q [SYMTYPE] = none)
    (hdir : first_hit a F q [DIRTYPE] ≠ none) (hq : (cstr q).getLast? = some 47)
    (hnone : ∀ e ∈ entries_of a F, direct_child (cstr q) (cstr e) = false) :
    list (F + n + 1) a q cap = some (Outcome.ret ⟨1, [], 0⟩) := by
  have hs : get_symlink (F + n) a q = some (0, []) := check_entry_none a q _ F n hend hsym
  cases hd : first_hit a F q [DIRTYPE] with
  | none => exact absurd hd hdir
  | some j =>
    have hpd := check_entry_first a q [DIRTYPE] F n j hd
    have hl := length_pos_of_first_hit a q _ F j hd
    have hne : ¬ strlen q = 0 := by
      unfold strlen
      intro h0
      rw [List.length_eq_zero.1 h0] at hq
      simp at hq
    rw [list, hs]
    unfold is_dir
    rw [hpd]
    simp only [ne_eq, not_true_eq_false, if_false, Option.map_some', one_ne_zero, hq, hne,
      hl, list_loop_nothing a q cap F n hend hq hnone]
    rfl

theorem list_empty_archive (path : List Byte) (fuel cap : Nat)
    (hq : (cstr path).getLast? = some 47) :
    list (fuel + 1) [] path cap = some (Outcome.ret ⟨-1, [], cap⟩) := by
  have hne : ¬ strlen path = 0 := by
    unfold strlen
    intro h0
    rw [List.length_eq_zero.1 h0] at hq
    simp at hq
  have hs : get_symlink fuel [] path = some (0, []) := by
    unfold get_symlink check_entry
    simp
  rw [list, hs]
  simp [hne, hq]

theorem chase_end (a : List Byte) (F : Nat) : ∀ (k : Nat) (p q : List Byte),
    chase a F k p = some q → first_hit a F q [SYMTYPE] = none := by
  intro k
  induction k with
  | zero => intro p q h; simp [chase] at h
  | succ k ih =>
    intro p q h
    rw [chase] at h
    cases hs : first_hit a F p [SYMTYPE] with
    | none =>
      simp only [hs, Option.some.injEq] at h
      rw [← h]
      exact hs
    | some j =>
      simp only [hs] at h
      by_cases hn : 100 < strlen ((block a j).drop OFF_LINKNAME) + 2
      · rw [if_pos hn] at h; simp at h
      · rw [if_neg hn] at h
        exact ih _ _ h

theorem list_chase (a : List Byte) (F cap : Nat) : ∀ (k : Nat) (p q : List Byte),
    chase a F k p = some q → ∃ m, m + 1 ≤ k ∧
      ∀ n, list (F + n + k) a p cap = list (F + n + m + 1) a q cap := by
  intro k
  induction k with
  | zero => intro p q h; simp [chase] at h
  | succ k ih =>
    intro p q h
    rw [chase] at h
    cases hs : first_hit a F p [SYMTYPE] with
    | none =>
      simp only [hs, Option.some.injEq] at h
      subst h
      exact ⟨k, le_refl _, fun n => by rw [show F + n + (k + 1) = F + n + k + 1 by omega]⟩
    | some j =>
      simp only [hs] at h
      by_cases hn : 100 < strlen ((block a j).drop OFF_LINKNAME) + 2
      · rw [if_pos hn] at h; simp at h
      · rw [if_neg hn] at h
        obtain ⟨m, hm, hlist⟩ := ih _ _ h
        refine ⟨m, by omega, fun n => ?_⟩
        have hg : get_symlink (F + (n + k)) a p = some (1, block a j) :=
          check_entry_first a p [SYMTYPE] F (n + k) j hs
        rw [show F + n + (k + 1) = F + (n + k) + 1 by omega, list, hg]
        simp only [ne_eq, one_ne_zero, not_false_eq_true, if_true, hn, if_false]
        rw [show F + (n + k) = F + n + k by omega]
        exact hlist n

/-- C11 (amended). For every non-empty archive on which the walk ends and every path from
which the symlink chase of `list` ends on a path `q` that is not the name of a symlink
(each link name followed fits `char name[100]` with the `/` appended): `list` returns 0,
writes nothing and leaves `*no_entries` unchanged when `q` is not the name of a directory
entry or does not end with `/`; it returns 1 with `*no_entries` set to 0 when `q` is the
name of a directory entry, ends with `/`, and no entry of the archive is a direct child
of `q`. -/
theorem list_not_found_or_empty (a p q : List Byte) (F k cap : Nat) (hpos : 0 < a.length)
    (hend : (tolerant_visits a F 0).length < F) (hch : chase a F k p = some q) :
    ((first_hit a F q [DIRTYPE] = none ∨ (cstr q).getLast? ≠ some 47) →
        ∀ n, list (F + n + k) a p cap = some (Outcome.ret ⟨0, [], cap⟩)) ∧
    (first_hit a F q [DIRTYPE] ≠ none → (cstr q).getLast? = some 47 →
        (∀ e ∈ entries_of a F, direct_child (cstr q) (cstr e) = false) →
        ∀ n, list (F + n + k) a p cap = some (Outcome.ret ⟨1, [], 0⟩)) := by
  have hsym := chase_end a F k p q hch
  obtain ⟨m, _, hlist⟩ := list_chase a F cap k p q hch
  constructor
  · intro hno n
    rw [hlist n, show F + n + m + 1 = F + (n + m) + 1 by omega]
    exact list_not_symlink_not_dir a q F (n + m) cap (by omega) hend hsym hno
  · intro hdir hq hnone n
    rw [hlist n, show F + n + m + 1 = F + (n + m) + 1 by omega]
    exact list_empty_directory a q F (n + m) cap hend hsym hdir hq hnone

theorem list_not_found_or_empty_witness :
    (0 < link_archive.length ∧ (tolerant_visits link_archive 5 0).length < 5 ∧
      chase link_archive 5 2 [108] = some [100, 105, 114, 47, 47] ∧
      first_hit link_archive 5 [100, 105, 114, 47, 47] [DIRTYPE] = none ∧
      list (5 + 0 + 2) link_archive [108] 10 = some (Outcome.ret ⟨0, [], 10⟩)) ∧
    (0 < empty_dir_archive.length ∧ (tolerant_visits empty_dir_archive 2 0).length < 2 ∧
      chase empty_dir_archive 2 1 [101, 47] = some [101, 47] ∧
      first_hit empty_dir_archive 2 [101, 47] [DIRTYPE] ≠ none ∧
      (cstr [101, 47]).getLast? = some 47 ∧
      (∀ e ∈ entries_of empty_dir_archive 2, direct_child (cstr [101, 47]) (cstr e) = false) ∧
      list (2 + 0 + 1) empty_dir_archive [101, 47] 10 = some (Outcome.ret ⟨1, [], 0⟩)) :=
  ⟨⟨by decide!, by decide!, by decide!, by decide!,
      (list_not_found_or_empty link_archive [108] [100, 105, 114, 47, 47] 5 2 10
        (by decide!) (by decide!) (by decide!)).1 (Or.inl (by decide!)) 0⟩,
    ⟨by decide!, by decide!, by decide!, by decide!, by decide!, by decide!,
      (list_not_found_or_empty empty_dir_archive [101, 47] [101, 47] 2 1 10
        (by decide!) (by decide!) (by decide!)).2 (by decide!) (by decide!) (by decide!) 0⟩⟩

/-- C11 (counterexample). On `loop_archive` (one valid header named `a` whose size field
reads `-1000`) the path `b` is the name of no entry, yet `list` called on `b` returns no
value, 0 included, whatever the fuel: the walk never ends. -/
theorem list_never_returns :
    (∀ fuel, first_hit loop_archive fuel [98] [] = none) ∧
      ¬ ∃ fuel r, list fuel loop_archive [98] 10 = some r := by
  have hm : entry_matches (block loop_archive 0) [98] [] = false := by decide!
  constructor
  · intro fuel
    unfold first_hit
    rw [List.find?_eq_none]
    intro x hx
    rw [loop_archive_visits fuel x hx, hm]
    simp
  · rintro ⟨fuel, r, h⟩
    cases fuel with
    | zero => simp [list] at h
    | succ fuel =>
      rw [list] at h
      unfold get_symlink at h
      rw [loop_archive_check_entry_none [98] [SYMTYPE] (by decide!)] at h
      simp at h

/-! ## Termination of the walker loops -/

theorem advance_pos_of_size (header : List Byte)
    (h : -512 < TAR_INT (header.drop OFF_SIZE)) : 0 < advance header := by
  unfold advance float_of_long ceil_div512
  generalize TAR_INT (header.drop OFF_SIZE) = s at h
  by_cases hn : s < 0
  · rw [if_pos hn, round24_small _ (by omega)]
    omega
  · rw [if_neg hn]
    have : 0 ≤ (round24 s.natAbs : Int) := Int.natCast_nonneg _
    omega

theorem tolerant_visits_succ (a : List Byte) (n : Nat) (i : Int) (hin : in_archive a i) :
    tolerant_visits a (n + 1) i = i.toNat :: tolerant_visits a n (tolerant_step a i) := by
  rw [tolerant_visits, if_pos hin]

theorem tolerant_visits_out (a : List Byte) (n : Nat) (i : Int) (hin : ¬ in_archive a i) :
    tolerant_visits a n i = [] := by
  cases n with
  | zero => rfl
  | succ n => rw [tolerant_visits, if_neg hin]

theorem tolerant_step_gt (a : List Byte) (i : Int)
    (h : is_entry (block a i.toNat) = true → 0 < advance (block a i.toNat)) :
    i < tolerant_step a i := by
  unfold tolerant_step
  by_cases hnull : strlen (block a i.toNat) = 0
  · rw [if_pos hnull]; omega
  · rw [if_neg hnull]
    by_cases hval : validate_header (block a i.toNat) ≠ 0
    · rw [if_pos hval]; omega
    · rw [if_neg hval]
      have := h (by simpa [is_entry, hnull] using hval)
      omega

theorem walk_safe_step (a : List Byte) (n : Nat) (i : Int) (hin : in_archive a i)
    (hn : (nblocks a : Int) - i ≤ n)
    (hadv : ∀ j ∈ tolerant_visits a n i, is_entry (block a j) = true →
      0 < advance (block a j)) :
    ∃ m, n = m + 1 ∧ i < tolerant_step a i ∧ (nblocks a : Int) - tolerant_step a i ≤ m ∧
      ∀ j ∈ tolerant_visits a m (tolerant_step a i), is_entry (block a j) = true →
        0 < advance (block a j) := by
  have hin' := hin
  obtain ⟨h0, h1⟩ := hin'
  cases n with
  | zero => omega
  | succ m =>
    rw [tolerant_visits_succ a m i hin] at hadv
    have hgt := tolerant_step_gt a i (hadv i.toNat (List.mem_cons_self _ _))
    exact ⟨m, rfl, hgt, by omega, fun j hj => hadv j (List.mem_cons_of_mem _ hj)⟩

theorem check_entry_loop_returns (a path flags : List Byte) : ∀ (n : Nat) (i : Int),
    (nblocks a : Int) - i ≤ n →
    (∀ j ∈ tolerant_visits a n i, is_entry (block a j) = true → 0 < advance (block a j)) →
    ∃ r, check_entry_loop a path flags (n + 1) i = some r := by
  intro n
  induction n with
  | zero =>
    intro i hn _
    rw [check_entry_loop_step, if_neg (by unfold in_archive; omega)]
    exact ⟨_, rfl⟩
  | succ n ih =>
    intro i hn hadv
    rw [check_entry_loop_step]
    by_cases hin : in_archive a i
    · rw [if_pos hin]
      by_cases hhit : is_entry (block a i.toNat) = true ∧
          entry_matches (block a i.toNat) path flags = true
      · rw [if_pos hhit]; exact ⟨_, rfl⟩
      · rw [if_neg hhit]
        obtain ⟨m, hm, _, h2, h3⟩ := walk_safe_step a (n + 1) i hin hn hadv
        have hmn : m = n := by omega
        subst hmn
        exact ih _ h2 h3
    · rw [if_neg hin]; exact ⟨_, rfl⟩

theorem list_loop_returns (a path : List Byte) (cap : Nat) : ∀ (n : Nat) (i : Int)
    (acc : List (List Byte)), (nblocks a : Int) - i ≤ n →
    (∀ j ∈ tolerant_visits a n i, is_entry (block a j) = true → 0 < advance (block a j)) →
    ∃ r, list_loop a path cap (n + 1) i acc = some r := by
  intro n
  induction n with
  | zero =>
    intro i acc hn _
    rw [list_loop_step, if_neg (by unfold in_archive; omega)]
    exact ⟨_, rfl⟩
  | succ n ih =>
    intro i acc hn hadv
    rw [list_loop_step]
    by_cases hin : in_archive a i
    · rw [if_pos hin]
      by_cases hcap : acc.length ≥ cap
      · rw [if_pos hcap]; exact ⟨_, rfl⟩
      · rw [if_neg hcap]
        obtain ⟨m, hm, _, h2, h3⟩ := walk_safe_step a (n + 1) i hin hn hadv
        have hmn : m = n := by omega
        subst hmn
        exact ih _ _ h2 h3
    · rw [if_neg hin]; exact ⟨_, rfl⟩

theorem read_file_loop_returns (a path : List Byte) : ∀ (n : Nat) (i : Int),
    (nblocks a : Int) - i ≤ n →
    (∀ j ∈ tolerant_visits a n i, is_entry (block a j) = true → 0 < advance (block a j)) →
    ∃ r, read_file_loop a path (n + 1) i = some r := by
  intro n
  induction n with
  | zero =>
    intro i hn _
    rw [read_file_loop_step, if_neg (by unfold in_archive; omega)]
    exact ⟨_, rfl⟩
  | succ n ih =>
    intro i hn hadv
    rw [read_file_loop_step]
    by_cases hin : in_archive a i
    · rw [if_pos hin]
      by_cases hhit : is_entry (block a i.toNat) = true ∧
          entry_matches (block a i.toNat) path [] = true
      · rw [if_pos hhit]; exact ⟨_, rfl⟩
      · rw [if_neg hhit]
        obtain ⟨m, hm, _, h2, h3⟩ := walk_safe_step a (n + 1) i hin hn hadv
        have hmn : m = n := by omega
        subst hmn
        exact ih _ h2 h3
    · rw [if_neg hin]; exact ⟨_, rfl⟩

theorem check_archive_loop_returns (a : List Byte) (mapped : Nat)
    (hmap : 512 * nblocks a ≤ mapped) : ∀ (n : Nat) (i c : Int),
    (nblocks a : Int) - i ≤ n →
    (∀ j ∈ tolerant_visits a n i, is_entry (block a j) = true → 0 < advance (block a j)) →
    ∃ r, check_archive_loop a mapped (n + 1) i c = some (Outcome.ret r) := by
  intro n
  induction n with
  | zero =>
    intro i c hn _
    rw [check_archive_loop, if_neg (by unfold in_archive; omega)]
    exact ⟨_, rfl⟩
  | succ n ih =>
    intro i c hn hadv
    rw [check_archive_loop_step a mapped hmap]
    by_cases hin : in_archive a i
    · rw [if_pos hin]
      obtain ⟨m, hm, _, h2, h3⟩ := walk_safe_step a (n + 1) i hin hn hadv
      have hmn : m = n := by omega
      subst hmn
      by_cases hnull : strlen (block a i.toNat) = 0
      · have hs : tolerant_step a i = i + 1 := by rw [tolerant_step, if_pos hnull]
        rw [hs] at h2 h3
        rw [if_pos hnull]
        exact ih _ _ h2 h3
      · by_cases hval : validate_header (block a i.toNat) = 0
        · have hs : tolerant_step a i = i + advance (block a i.toNat) := by
            rw [tolerant_step, if_neg hnull, if_neg (by simpa using hval)]
          rw [hs] at h2 h3
          rw [if_neg hnull, if_neg (by simpa using hval)]
          exact ih _ _ h2 h3
        · rw [if_neg hnull, if_pos hval]
          exact ⟨_, rfl⟩
    · rw [if_neg hin]; exact ⟨_, rfl⟩

theorem tolerant_visits_increase (a : List Byte) : ∀ (n : Nat) (i : Int),
    (nblocks a : Int) - i ≤ n →
    (∀ j ∈ tolerant_visits a n i, is_entry (block a j) = true → 0 < advance (block a j)) →
    ∀ fuel, (∀ j ∈ tolerant_visits a fuel i, (j : Int) < tolerant_step a j) ∧
      (tolerant_visits a fuel i).length ≤ n := by
  intro n
  induction n with
  | zero =>
    intro i hn _ fuel
    rw [tolerant_visits_out a fuel i (by unfold in_archive; omega)]
    simp
  | succ n ih =>
    intro i hn hadv fuel
    by_cases hin : in_archive a i
    · cases fuel with
      | zero => simp [tolerant_visits]
      | succ fuel =>
        obtain ⟨m, hm, h1, h2, h3⟩ := walk_safe_step a (n + 1) i hin hn hadv
        have hmn : m = n := by omega
        subst hmn
        obtain ⟨ha, hb⟩ := ih _ h2 h3 fuel
        rw [tolerant_visits_succ a fuel i hin]
        constructor
        · intro j hj
          rcases List.mem_cons.1 hj with h | h
          · subst h
            rw [Int.toNat_of_nonneg hin.1]
            exact h1
          · exact ha j h
        · simp only [List.length_cons]
          omega
    · rw [tolerant_visits_out a fuel i hin]
      simp

theorem check_archive_visits_initial (a : List Byte) : ∀ (fuel : Nat) (i : Int),
    check_archive_visits a fuel i <+: tolerant_visits a fuel i := by
  intro fuel
  induction fuel with
  | zero => intro i; exact List.prefix_refl _
  | succ fuel ih =>
    intro i
    rw [check_archive_visits, tolerant_visits]
    by_cases hin : in_archive a i
    · rw [if_pos hin, if_pos hin]
      by_cases hnull : strlen (block a i.toNat) = 0
      · have hs : tolerant_step a i = i + 1 := by rw [tolerant_step, if_pos hnull]
        simp only [hnull, if_true, hs]
        exact List.cons_prefix_cons.2 ⟨rfl, ih _⟩
      · by_cases hval : validate_header (block a i.toNat) = 0
        · have hs : tolerant_step a i = i + advance (block a i.toNat) := by
            rw [tolerant_step, if_neg hnull, if_neg (by simpa using hval)]
          simp only [hnull, if_false, hval, ne_eq, not_true_eq_false, hs]
          exact List.cons_prefix_cons.2 ⟨rfl, ih _⟩
        · simp only [hnull, if_false, hval, ne_eq, not_false_eq_true, if_true]
          exact List.cons_prefix_cons.2 ⟨rfl, List.nil_prefix⟩
    · rw [if_neg hin, if_neg hin]

/-- C21 (amended). For every archive in which each valid header read by the walker (from
block 0: one block forward over a block whose name is empty or that fails
`validate_header`, `advance` blocks forward after a valid header) has a positive advance
`1 + ceil((float)size / 512)`, which is the case of every size field that decodes to a
number above -512: the cursor strictly increases at every iteration, the walk makes at
most `N = nblocks a` iterations (and so does the walk of `check_archive`, which reads an
initial part of these blocks), and `check_entry` and the loops of `list` and `read_file`
finish with `N` iterations and the final loop test; so does `check_archive`, and it
returns a value, for every access time `st_atime` such that the whole blocks of the
archive all lie in the pages that `mmap` called with the length `st_atime` makes
readable. -/
theorem walker_loops_terminate (a : List Byte)
    (hadv : ∀ j ∈ tolerant_visits a (nblocks a) 0, is_entry (block a j) = true →
      0 < advance (block a j)) :
    (∀ header, -512 < TAR_INT (header.drop OFF_SIZE) → 0 < advance header) ∧
    (∀ fuel, ∀ j ∈ tolerant_visits a fuel 0, (j : Int) < tolerant_step a j) ∧
    (∀ fuel, (tolerant_visits a fuel 0).length ≤ nblocks a) ∧
    (∀ fuel, check_archive_visits a fuel 0 <+: tolerant_visits a fuel 0) ∧
    (∀ st_atime, 512 * nblocks a ≤ mmap_len st_atime →
      ∃ r, check_archive (nblocks a + 1) a st_atime = some (Outcome.ret r)) ∧
    (∀ path flags, ∃ r, check_entry (nblocks a + 1) a path flags = some r) ∧
    (∀ path cap, ∃ r, list_loop a path cap (nblocks a + 1) 0 [] = some r) ∧
    (∀ path, ∃ r, read_file_loop a path (nblocks a + 1) 0 = some r) := by
  have hn : (nblocks a : Int) - 0 ≤ (nblocks a : Nat) := by omega
  refine ⟨advance_pos_of_size, fun fuel => (tolerant_visits_increase a _ 0 hn hadv fuel).1,
    fun fuel => (tolerant_visits_increase a _ 0 hn hadv fuel).2,
    fun fuel => check_archive_visits_initial a fuel 0, ?_, ?_, ?_, ?_⟩
  · intro st_atime hmap
    unfold check_archive
    by_cases hl : a.length ≤ 0
    · rw [if_pos hl]; exact ⟨_, rfl⟩
    · rw [if_neg hl]; exact check_archive_loop_returns a _ hmap _ 0 0 hn hadv
  · intro path flags
    unfold check_entry
    by_cases hl : a.length ≤ 0
    · rw [if_pos hl]; exact ⟨_, rfl⟩
    · rw [if_neg hl]; exact check_entry_loop_returns a path flags _ 0 hn hadv
  · intro path cap
    exact list_loop_returns a path cap _ 0 [] hn hadv
  · intro path
    exact read_file_loop_returns a path _ 0 hn hadv

theorem walker_loops_terminate_witness :
    (∀ j ∈ tolerant_visits small_archive (nblocks small_archive) 0,
        is_entry (block small_archive j) = true → 0 < advance (block small_archive j)) ∧
      512 * nblocks small_archive ≤ mmap_len access_time ∧
      ((∀ header, -512 < TAR_INT (header.drop OFF_SIZE) → 0 < advance header) ∧
      (∀ fuel, ∀ j ∈ tolerant_visits small_archive fuel 0,
        (j : Int) < tolerant_step small_archive j) ∧
      (∀ fuel, (tolerant_visits small_archive fuel 0).length ≤ nblocks small_archive) ∧
      (∀ fuel, check_archive_visits small_archive fuel 0 <+: tolerant_visits small_archive fuel 0) ∧
      (∀ st_atime, 512 * nblocks small_archive ≤ mmap_len st_atime →
        ∃ r, check_archive (nblocks small_archive + 1) small_archive st_atime
          = some (Outcome.ret r)) ∧
      (∀ path flags, ∃ r, check_entry (nblocks small_archive + 1) small_archive path flags
        = some r) ∧
      (∀ path cap, ∃ r, list_loop small_archive path cap (nblocks small_archive + 1) 0 []
        = some r) ∧
      (∀ path, ∃ r, read_file_loop small_archive path (nblocks small_archive + 1) 0
        = some r)) :=
  ⟨by decide!, by decide!, walker_loops_terminate small_archive (by decide!)⟩

theorem loop_archive_list_loop_stuck :
    ∀ fuel, list_loop loop_archive [98] 1 fuel 0 [] = none := by
  have hs : tolerant_step loop_archive 0 = 0 := by decide!
  have hin : in_archive loop_archive 0 := by decide!
  have hsel : list_selects (block loop_archive 0) [98] = false := by decide!
  intro fuel
  induction fuel with
  | zero => rfl
  | succ fuel ih =>
    rw [list_loop_step]
    simp only [hin, if_true, Int.toNat_zero, hsel, Bool.false_eq_true, and_false, if_false, hs,
      List.length_nil, ge_iff_le, Nat.le_zero_eq, Nat.one_ne_zero, not_false_eq_true]
    exact ih

theorem loop_archive_read_file_loop_stuck :
    ∀ fuel, read_file_loop loop_archive [98] fuel 0 = none := by
  have hs : tolerant_step loop_archive 0 = 0 := by decide!
  have hin : in_archive loop_archive 0 := by decide!
  have hm : entry_matches (block loop_archive 0) [98] [] = false := by decide!
  intro fuel
  induction fuel with
  | zero => rfl
  | succ fuel ih =>
    rw [read_file_loop_step]
    simp only [hin, if_true, Int.toNat_zero, hm, Bool.false_eq_true, and_false, if_false, hs]
    exact ih

/-- C21 (counterexample). On `loop_archive`, one block holding a valid header whose size
field reads `-1000` (octal, -512), the advance is 0: an iteration of the walker leaves
the cursor on block 0, and the loops of `check_archive` (the block being readable),
`check_entry` (looking for `b`), `list` and `read_file` have not finished after any
number of iterations, although the archive has a single block. -/
theorem walker_cursor_stuck :
    nblocks loop_archive = 1 ∧ is_entry (block loop_archive 0) = true ∧
      TAR_INT ((block loop_archive 0).drop OFF_SIZE) = -512 ∧
      tolerant_step loop_archive 0 = 0 ∧
      512 * nblocks loop_archive ≤ mmap_len access_time ∧
      (∀ fuel, check_archive_loop loop_archive (mmap_len access_time) fuel 0 0 = none) ∧
      (∀ fuel, check_entry_loop loop_archive [98] [] fuel 0 = none) ∧
      (∀ fuel, list_loop loop_archive [98] 1 fuel 0 [] = none) ∧
      (∀ fuel, read_file_loop loop_archive [98] fuel 0 = none) :=
  ⟨by decide!, by decide!, by decide!, by decide!, by decide!,
    fun fuel => check_archive_loop_stuck _ (by decide!) fuel 0,
    loop_archive_check_entry_stuck [98] [] (by decide!),
    loop_archive_list_loop_stuck, loop_archive_read_file_loop_stuck⟩

/-! ## A corrupted header: the strict scan and the tolerant scan -/

theorem strict_walk_out (a : List Byte) (n i : Nat) (h : ¬ i < nblocks a) :
    strict_walk a n i = [] := by
  cases n with
  | zero => rfl
  | succ n => rw [strict_walk, if_neg h]

theorem strict_walk_null (a : List Byte) (n i : Nat) (h : i < nblocks a)
    (hnull : strlen (block a i) = 0) :
    strict_walk a (n + 1) i = i :: strict_walk a n (i + 1) := by
  rw [strict_walk, if_pos h, if_pos hnull]

theorem strict_walk_valid (a : List Byte) (n i : Nat) (h : i < nblocks a)
    (hnull : ¬ strlen (block a i) = 0) (hval : validate_header (block a i) = 0) :
    strict_walk a (n + 1) i = i :: strict_walk a n
      (i + 1 + data_blocks (TAR_INT ((block a i).drop OFF_SIZE)).toNat) := by
  rw [strict_walk, if_pos h, if_neg hnull, if_neg (by simpa using hval)]

theorem strict_walk_head (a : List Byte) (n i : Nat) (h : i < nblocks a) :
    i ∈ strict_walk a (n + 1) i := by
  rw [strict_walk, if_pos h]
  split_ifs <;> simp

theorem tolerant_step_skip (a : List Byte) (i : Int)
    (h : is_entry (block a i.toNat) = false) : tolerant_step a i = i + 1 := by
  unfold tolerant_step
  by_cases hnull : strlen (block a i.toNat) = 0
  · rw [if_pos hnull]
  · rw [if_neg hnull]
    by_cases hval : validate_header (block a i.toNat) ≠ 0
    · rw [if_pos hval]
    · exfalso
      have hv : validate_header (block a i.toNat) = 0 := by simpa using hval
      simp [is_entry, hnull, hv] at h

theorem tolerant_step_entry (a : List Byte) (i : Int)
    (h : is_entry (block a i.toNat) = true) :
    tolerant_step a i = i + advance (block a i.toNat) := by
  unfold is_entry at h
  simp only [ne_eq, Bool.and_eq_true, decide_eq_true_eq] at h
  unfold tolerant_step
  rw [if_neg h.1, if_neg (by simpa using h.2)]

theorem check_entry_loop_skip (a path flags : List Byte) : ∀ (d F i : Nat),
    i + d ≤ nblocks a → (∀ x, i ≤ x → x < i + d → is_entry (block a x) = false) →
    check_entry_loop a path flags (F + d) (i : Int) =
      check_entry_loop a path flags F ((i + d : Nat) : Int) := by
  intro d
  induction d with
  | zero => intro F i _ _; rfl
  | succ d ih =>
    intro F i hle hno
    have hin : in_archive a (i : Int) := (in_archive_cast a i).2 (by omega)
    have he : is_entry (block a (i : Int).toNat) = false := by
      rw [Int.toNat_ofNat]; exact hno i (le_refl _) (by omega)
    rw [show F + (d + 1) = (F + d) + 1 by omega, check_entry_loop_step, if_pos hin,
      if_neg (by rw [he]; simp), tolerant_step_skip a _ he]
    have := ih F (i + 1) (by omega) (fun x h1 h2 => hno x (by omega) (by omega))
    rw [show ((i : Int) + 1) = ((i + 1 : Nat) : Int) by push_cast; ring, this,
      show i + 1 + d = i + (d + 1) by omega]

theorem check_entry_loop_past_corrupt (a a' path flags : List Byte) (k : Nat)
    (hlen : a'.length = a.length)
    (hsame : ∀ i, i < nblocks a → i ≠ k → block a' i = block a i)
    (hentry : strlen (block a k) ≠ 0) (hbad : is_entry (block a' k) = false)
    (hdata : ∀ i, k < i → i ≤ k + data_blocks (TAR_INT ((block a k).drop OFF_SIZE)).toNat →
      is_entry (block a i) = false) :
    ∀ (n i j : Nat), j ∈ strict_walk a n i →
    (∀ x ∈ strict_walk a n i, strlen (block a x) ≠ 0 →
      validate_header (block a x) = 0 ∧ size_exact (block a x)) →
    j ≠ k → is_entry (block a j) = true → entry_matches (block a j) path flags = true →
    ∀ F, nblocks a < i + F →
      ∃ hd, check_entry_loop a' path flags F (i : Int) = some (1, hd) := by
  have hN : nblocks a' = nblocks a := by unfold nblocks; rw [hlen]
  intro n
  induction n with
  | zero => intro i j hj; simp [strict_walk] at hj
  | succ n ih =>
    intro i j hj hwf hjk hje hjm F hF
    by_cases hin : i < nblocks a
    · have hin' : in_archive a' (i : Int) := (in_archive_cast a' i).2 (by rw [hN]; exact hin)
      obtain ⟨F, rfl⟩ : ∃ F', F = F' + 1 := ⟨F - 1, by omega⟩
      rw [check_entry_loop_step, if_pos hin', Int.toNat_ofNat]
      by_cases hnull : strlen (block a i) = 0
      · have hik : i ≠ k := by rintro rfl; exact hentry hnull
        have he : is_entry (block a' i) = false := by
          rw [hsame i hin hik]; simp [is_entry, hnull]
        have he' : is_entry (block a' (i : Int).toNat) = false := by
          rw [Int.toNat_ofNat]; exact he
        rw [if_neg (by rw [he]; simp), tolerant_step_skip a' _ he']
        rw [strict_walk_null a n i hin hnull] at hj hwf
        rcases List.mem_cons.1 hj with h | h
        · subst h
          simp [is_entry, hnull] at hje
        · have := ih (i + 1) j h (fun x hx => hwf x (List.mem_cons_of_mem _ hx)) hjk hje hjm
            F (by omega)
          rw [show ((i : Int) + 1) = ((i + 1 : Nat) : Int) by push_cast; ring]
          exact this
      · obtain ⟨hval, hex⟩ := hwf i (strict_walk_head a n i hin) hnull
        rw [strict_walk_valid a n i hin hnull hval] at hj hwf
        by_cases hik : i = k
        · subst hik
          have he' : is_entry (block a' (i : Int).toNat) = false := by
            rw [Int.toNat_ofNat]; exact hbad
          rw [if_neg (by rw [hbad]; simp), tolerant_step_skip a' _ he']
          rcases List.mem_cons.1 hj with h | h
          · exact absurd h hjk
          · have hdin : i + 1 + data_blocks (TAR_INT ((block a i).drop OFF_SIZE)).toNat
                < nblocks a := by
              by_contra hcon
              rw [strict_walk_out a n _ hcon] at h
              simp at h
            generalize hd : data_blocks (TAR_INT ((block a i).drop OFF_SIZE)).toNat = d at *
            obtain ⟨F, rfl⟩ : ∃ F', F = F' + d := ⟨F - d, by omega⟩
            rw [show ((i : Int) + 1) = ((i + 1 : Nat) : Int) by push_cast; ring,
              check_entry_loop_skip a' path flags d F (i + 1) (by rw [hN]; omega)
                (fun x h1 h2 => by
                  rw [hsame x (by omega) (by omega)]
                  exact hdata x (by omega) (by omega))]
            exact ih (i + 1 + d) j h (fun x hx => hwf x (List.mem_cons_of_mem _ hx)) hjk hje hjm
              F (by omega)
        · have hb : block a' i = block a i := hsame i hin hik
          have he : is_entry (block a i) = true := by simp [is_entry, hnull, hval]
          by_cases hm : entry_matches (block a i) path flags = true
          · rw [if_pos (by rw [hb]; exact ⟨he, hm⟩)]
            exact ⟨_, rfl⟩
          · have he' : is_entry (block a' (i : Int).toNat) = true := by
              rw [Int.toNat_ofNat, hb]; exact he
            rw [if_neg (by rw [hb]; exact fun hh => hm hh.2), tolerant_step_entry a' _ he',
              Int.toNat_ofNat, hb, hex.2]
            rcases List.mem_cons.1 hj with h | h
            · subst h
              exact absurd hjm hm
            · have := ih _ j h (fun x hx => hwf x (List.mem_cons_of_mem _ hx)) hjk hje hjm
                F (by omega)
              rw [show (i : Int) + (1 + (data_blocks (TAR_INT ((block a i).drop OFF_SIZE)).toNat
                  : Int)) = ((i + 1 + data_blocks (TAR_INT ((block a i).drop OFF_SIZE)).toNat
                  : Nat) : Int) by push_cast; ring]
              exact this
    · rw [strict_walk_out a _ i hin] at hj
      simp at hj

theorem check_archive_loop_at_corrupt (a a' : List Byte) (k mapped : Nat)
    (hlen : a'.length = a.length) (hmap : 512 * nblocks a ≤ mapped)
    (hsame : ∀ i, i < nblocks a → i ≠ k → block a' i = block a i)
    (hentry : strlen (block a k) ≠ 0)
    (hname : strlen (block a' k) ≠ 0) (hbad : validate_header (block a' k) ≠ 0) :
    ∀ (n i : Nat) (c : Int), k ∈ strict_walk a n i →
    (∀ x ∈ strict_walk a n i, strlen (block a x) ≠ 0 →
      validate_header (block a x) = 0 ∧ size_exact (block a x)) →
    ∀ F, nblocks a < i + F →
      check_archive_loop a' mapped F (i : Int) c
        = some (Outcome.ret (validate_header (block a' k))) := by
  have hN : nblocks a' = nblocks a := by unfold nblocks; rw [hlen]
  have hmap' : 512 * nblocks a' ≤ mapped := by rw [hN]; exact hmap
  intro n
  induction n with
  | zero => intro i c hk; simp [strict_walk] at hk
  | succ n ih =>
    intro i c hk hwf F hF
    by_cases hin : i < nblocks a
    · have hin' : in_archive a' (i : Int) := (in_archive_cast a' i).2 (by rw [hN]; exact hin)
      obtain ⟨F, rfl⟩ : ∃ F', F = F' + 1 := ⟨F - 1, by omega⟩
      rw [check_archive_loop_step a' mapped hmap', if_pos hin', Int.toNat_ofNat]
      by_cases hik : i = k
      · subst hik
        rw [if_neg hname, if_pos hbad]
      · have hb : block a' i = block a i := hsame i hin hik
        rw [hb]
        by_cases hnull : strlen (block a i) = 0
        · rw [strict_walk_null a n i hin hnull] at hk hwf
          rw [if_pos hnull]
          rcases List.mem_cons.1 hk with h | h
          · exact absurd h.symm hik
          · have := ih (i + 1) c h (fun x hx => hwf x (List.mem_cons_of_mem _ hx)) F (by omega)
            rw [show ((i : Int) + 1) = ((i + 1 : Nat) : Int) by push_cast; ring]
            exact this
        · obtain ⟨hval, hex⟩ := hwf i (strict_walk_head a n i hin) hnull
          rw [strict_walk_valid a n i hin hnull hval] at hk hwf
          rw [if_neg hnull, if_neg (by simpa using hval), hex.2]
          rcases List.mem_cons.1 hk with h | h
          · exact absurd h.symm hik
          · have := ih _ (c + 1) h (fun x hx => hwf x (List.mem_cons_of_mem _ hx)) F (by omega)
            rw [show (i : Int) + (1 + (data_blocks (TAR_INT ((block a i).drop OFF_SIZE)).toNat
                : Int)) = ((i + 1 + data_blocks (TAR_INT ((block a i).drop OFF_SIZE)).toNat
                : Nat) : Int) by push_cast; ring]
            exact this
    · rw [strict_walk_out a _ i hin] at hk
      simp at hk

/-- C22 (amended). Let `a` be a well-formed archive: every non-null block met by the
specified walker (one block forward over a block whose name is empty, `1 + ceil(size/512)`
blocks forward after a header) is a valid header whose size is non-negative with an exact
advance.  Let `a'` differ from `a` in block `k` only, the header of an entry of `a`, which
in `a'` keeps a non-empty name and fails `validate_header`, no data block of that entry
being a valid header.  Then, with any fuel above the number of blocks: `check_archive`
on `a'` returns the negative code of block `k`, for every access time `st_atime` such
that the whole blocks of the archive all lie in the pages that `mmap` called with the
length `st_atime` makes readable; and `exists` on `a'` returns 1 for the name of every
other entry of `a`, before or after block `k`. -/
theorem strict_versus_tolerant (a a' : List Byte) (k : Nat)
    (hlen : a'.length = a.length)
    (hsame : ∀ i, i < nblocks a → i ≠ k → block a' i = block a i)
    (hwf : ∀ i ∈ visited a, strlen (block a i) ≠ 0 →
      validate_header (block a i) = 0 ∧ size_exact (block a i))
    (hk : k ∈ visited a) (hentry : strlen (block a k) ≠ 0)
    (hname : strlen (block a' k) ≠ 0) (hbad : validate_header (block a' k) ≠ 0)
    (hdata : ∀ i, k < i → i ≤ k + data_blocks (TAR_INT ((block a k).drop OFF_SIZE)).toNat →
      is_entry (block a i) = false)
    (fuel : Nat) (hfuel : nblocks a < fuel) :
    (∀ st_atime, 512 * nblocks a ≤ mmap_len st_atime →
        check_archive fuel a' st_atime
          = some (Outcome.ret (validate_header (block a' k)))) ∧
      validate_header (block a' k) < 0 ∧
      ∀ j ∈ visited a, j ≠ k → strlen (block a j) ≠ 0 →
        tar_exists fuel a' (cstr (block a j)) = some 1 := by
  have hpos : ¬ a'.length ≤ 0 := by
    intro hl
    have hz : nblocks a = 0 := by unfold nblocks; rw [← hlen]; omega
    unfold visited at hk
    rw [hz] at hk
    simp [strict_walk] at hk
  refine ⟨?_, ?_, ?_⟩
  · intro st_atime hmap
    unfold check_archive
    rw [if_neg hpos]
    exact check_archive_loop_at_corrupt a a' k _ hlen hmap hsame hentry hname hbad (nblocks a)
      0 0 hk hwf fuel (by omega)
  · rcases validate_header_codes (block a' k) with h | h | h | h
    · rw [h]; decide
    · rw [h]; decide
    · rw [h]; decide
    · exact absurd h hbad
  · intro j hj hjk hjn
    have hje : is_entry (block a j) = true := by
      simp [is_entry, hjn, (hwf j hj hjn).1]
    have hjm : entry_matches (block a j) (cstr (block a j)) [] = true := by
      rw [entry_matches_cstr, cstr_idem]
      exact ⟨rfl, Or.inl rfl⟩
    have hbe : is_entry (block a' k) = false := by
      simp [is_entry, hbad]
    obtain ⟨hd, h⟩ := check_entry_loop_past_corrupt a a' (cstr (block a j)) [] k hlen hsame
      hentry hbe hdata (nblocks a) 0 j hj hwf hjk hje hjm fuel (by omega)
    unfold tar_exists check_entry
    rw [if_neg hpos]
    have h' : check_entry_loop a' (cstr (block a j)) [] fuel 0 = some (1, hd) := h
    rw [h']
    rfl

theorem strict_versus_tolerant_witness :
    broken_archive.length = three_archive.length ∧
      (∀ i, i < nblocks three_archive → i ≠ 1 →
        block broken_archive i = block three_archive i) ∧
      (∀ i ∈ visited three_archive, strlen (block three_archive i) ≠ 0 →
        validate_header (block three_archive i) = 0 ∧ size_exact (block three_archive i)) ∧
      1 ∈ visited three_archive ∧ strlen (block three_archive 1) ≠ 0 ∧
      strlen (block broken_archive 1) ≠ 0 ∧ validate_header (block broken_archive 1) ≠ 0 ∧
      (∀ i, 1 < i →
        i ≤ 1 + data_blocks (TAR_INT ((block three_archive 1).drop OFF_SIZE)).toNat →
        is_entry (block three_archive i) = false) ∧
      nblocks three_archive < 8 ∧
      512 * nblocks three_archive ≤ mmap_len access_time ∧
      ((∀ st_atime, 512 * nblocks three_archive ≤ mmap_len st_atime →
          check_archive 8 broken_archive st_atime
            = some (Outcome.ret (validate_header (block broken_archive 1)))) ∧
        validate_header (block broken_archive 1) < 0 ∧
        ∀ j ∈ visited three_archive, j ≠ 1 → strlen (block three_archive j) ≠ 0 →
          tar_exists 8 broken_archive (cstr (block three_archive j)) = some 1) :=
  have h1 : broken_archive.length = three_archive.length := List.length_set _ _ _
  have h2 : ∀ i, i < nblocks three_archive → i ≠ 1 →
      block broken_archive i = block three_archive i :=
    fun i _ hi => block_set_other three_archive 769 i 120 (by omega)
  have h3 : ∀ i, 1 < i →
      i ≤ 1 + data_blocks (TAR_INT ((block three_archive 1).drop OFF_SIZE)).toNat →
      is_entry (block three_archive i) = false := by
    have hd : data_blocks (TAR_INT ((block three_archive 1).drop OFF_SIZE)).toNat = 2 := by
      decide!
    have e2 : is_entry (block three_archive 2) = false := by decide!
    have e3 : is_entry (block three_archive 3) = false := by decide!
    intro i hi hle
    rw [hd] at hle
    have : i = 2 ∨ i = 3 := by omega
    rcases this with h | h <;> subst h <;> assumption
  ⟨h1, h2, by decide!, by decide!, by decide!, by decide!, by decide!, h3, by decide!,
    by decide!,
    strict_versus_tolerant three_archive broken_archive 1 h1 h2 (by decide!) (by decide!)
      (by decide!) (by decide!) (by decide!) h3 8 (by decide!)⟩

/-- C22 (counterexample). In `unnamed_archive` the header of the entry `a` of the
well-formed archive `pair_archive` (two empty files) is corrupted in its first byte: it
fails `validate_header` with -3 and the entry has no data block, yet its name is now
empty, `check_archive` steps over it as a null block and returns the count 1, not -3
(both blocks are readable with the access time `access_time`). -/
theorem check_archive_skips_unnamed :
    (∀ i ∈ visited pair_archive, strlen (block pair_archive i) ≠ 0 →
        validate_header (block pair_archive i) = 0 ∧ size_exact (block pair_archive i)) ∧
      0 ∈ visited pair_archive ∧ strlen (block pair_archive 0) ≠ 0 ∧
      data_blocks (TAR_INT ((block pair_archive 0).drop OFF_SIZE)).toNat = 0 ∧
      unnamed_archive.length = pair_archive.length ∧
      (∀ i, i ≠ 0 → block unnamed_archive i = block pair_archive i) ∧
      validate_header (block unnamed_archive 0) = -3 ∧
      strlen (block unnamed_archive 0) = 0 ∧
      512 * nblocks pair_archive ≤ mmap_len access_time ∧
      ∀ fuel, 3 ≤ fuel → check_archive fuel unnamed_archive access_time
        = some (Outcome.ret 1) := by
  refine ⟨by decide!, by decide!, by decide!, by decide!, List.length_set _ _ _,
    fun i hi => block_set_other pair_archive 0 i 0 (by omega), by decide!, by decide!,
    by decide!, ?_⟩
  intro fuel hfuel
  have hl : ¬ unnamed_archive.length ≤ 0 := by decide!
  have h3 : check_archive_loop unnamed_archive (mmap_len access_time) 3 0 0
      = some (Outcome.ret 1) := by decide!
  have := check_archive_loop_mono unnamed_archive _ 3 0 0 _ h3 (fuel - 3)
  rw [show 3 + (fuel - 3) = fuel by omega] at this
  unfold check_archive
  rw [if_neg hl]
  exact this

/-! ## `list` below a large entry -/

theorem block_append_succ (p rest : List Byte) (i : Nat) (hp : p.length = 512) :
    block (p ++ rest) (i + 1) = block rest i := by
  unfold block
  rw [show 512 * (i + 1) = p.length + 512 * i by omega, List.drop_append]

theorem nblocks_append_block (p rest : List Byte) (hp : p.length = 512) :
    nblocks (p ++ rest) = nblocks rest + 1 := by
  simp only [nblocks, List.length_append, hp]
  omega

theorem dir_forged_archive_blocks :
    nblocks dir_forged_archive = 65536 + 4 ∧ block dir_forged_archive 0 = dir_header ∧
      block dir_forged_archive 1 = dir_big_header ∧
      block dir_forged_archive (65536 + 2) = phantom_block := by
  have hp : dir_header.length = 512 := by decide!
  obtain ⟨h1, h2, h3⟩ := blocks_around_zero_run dir_big_header phantom_block dir_b_header
    65536 (by decide!) (by decide!) (by decide!)
  unfold dir_forged_archive
  refine ⟨?_, block_append_left _ _ hp, ?_, ?_⟩
  · rw [nblocks_append_block _ _ hp, h1]
  · rw [show (1 : Nat) = 0 + 1 from rfl, block_append_succ _ _ 0 hp, h2]
  · rw [show 65536 + 2 = (65536 + 1) + 1 from rfl, block_append_succ _ _ _ hp, h3]

/-- C9. `dir_forged_archive` holds the top-level directory `dir/` followed by two files
below it: `dir/a` of 33554433 bytes (65537 data blocks, the last of which is itself a
valid header, named `dir/x`) and the empty file `dir/b`, both direct children of `dir/`.
The advance computed for `dir/a` in single precision is 1 + 65536, one block short: the
loop of `list` reads the last data block of `dir/a` as a header and steps over the header
of `dir/b`.  With the capacity 10 and any fuel from 5 on, `list` called on `dir/` returns
1 and writes `dir/a` and `dir/x`: it writes a name that is not an entry and misses the
direct child `dir/b`. -/
theorem list_misses_child :
    (validate_header dir_header = 0 ∧ cstr dir_header = [100, 105, 114, 47] ∧
      dir_header.getD OFF_TYPEFLAG 0 = DIRTYPE ∧ TAR_INT (dir_header.drop OFF_SIZE) = 0) ∧
    (validate_header dir_big_header = 0 ∧ cstr dir_big_header = [100, 105, 114, 47, 97] ∧
      TAR_INT (dir_big_header.drop OFF_SIZE) = 33554433 ∧
      (zero_blocks 65536 ++ phantom_block).length = 512 * data_blocks 33554433 ∧
      advance dir_big_header = 1 + 65536) ∧
    (validate_header dir_b_header = 0 ∧ cstr dir_b_header = [100, 105, 114, 47, 98] ∧
      TAR_INT (dir_b_header.drop OFF_SIZE) = 0) ∧
    (direct_child [100, 105, 114, 47] [100, 105, 114, 47, 97] = true ∧
      direct_child [100, 105, 114, 47] [100, 105, 114, 47, 98] = true) ∧
    ∀ fuel, list (fuel + 5) dir_forged_archive [100, 105, 114, 47] 10 =
      some (Outcome.ret ⟨1, [[100, 105, 114, 47, 97], [100, 105, 114, 47, 120]], 2⟩) := by
  have hf : phantom_block.length = 512 := by decide!
  refine ⟨⟨by decide!, by decide!, by decide!, by decide!⟩,
    ⟨by decide!, by decide!, by decide!, ?_, by decide!⟩,
    ⟨by decide!, by decide!, by decide!⟩, ⟨by decide!, by decide!⟩, ?_⟩
  · simp only [List.length_append, zero_blocks_length, hf, data_blocks]
  · intro fuel
    obtain ⟨hn, hb0, hb1, hb2⟩ := dir_forged_archive_blocks
    have hl : ¬ dir_forged_archive.length ≤ 0 := length_pos_of_nblocks _ (by omega)
    have i0 : in_archive dir_forged_archive 0 := by unfold in_archive; omega
    have i1 : in_archive dir_forged_archive 1 := by unfold in_archive; omega
    have i2 : in_archive dir_forged_archive 65538 := by unfold in_archive; omega
    have i3 : ¬ in_archive dir_forged_archive 65540 := by unfold in_archive; omega
    have n1 : (1 : Int).toNat = 1 := rfl
    have n2 : (65538 : Int).toNat = 65536 + 2 := rfl
    have e0 : is_entry dir_header = true := by decide!
    have e1 : is_entry dir_big_header = true := by decide!
    have e2 : is_entry phantom_block = true := by decide!
    have s0 : tolerant_step dir_forged_archive 0 = 1 := by
      rw [tolerant_step_entry _ _ (by rw [Int.toNat_zero, hb0]; exact e0), Int.toNat_zero, hb0]
      decide!
    have s1 : tolerant_step dir_forged_archive 1 = 65538 := by
      rw [tolerant_step_entry _ _ (by rw [n1, hb1]; exact e1), n1, hb1]
      decide!
    have s2 : tolerant_step dir_forged_archive 65538 = 65540 := by
      rw [tolerant_step_entry _ _ (by rw [n2, hb2]; exact e2), n2, hb2]
      decide!
    have m0 : entry_matches dir_header [100, 105, 114, 47] [SYMTYPE] = false := by decide!
    have m1 : entry_matches dir_big_header [100, 105, 114, 47] [SYMTYPE] = false := by decide!
    have m2 : entry_matches phantom_block [100, 105, 114, 47] [SYMTYPE] = false := by decide!
    have d0 : entry_matches dir_header [100, 105, 114, 47] [DIRTYPE] = true := by decide!
    have l0 : list_selects dir_header [100, 105, 114, 47] = false := by decide!
    have l1 : list_selects dir_big_header [100, 105, 114, 47] = true := by decide!
    have l2 : list_selects phantom_block [100, 105, 114, 47] = true := by decide!
    have c1 : cstr dir_big_header = [100, 105, 114, 47, 97] := by decide!
    have c2 : cstr phantom_block = [100, 105, 114, 47, 120] := by decide!
    have hsym : get_symlink (fuel + 4) dir_forged_archive [100, 105, 114, 47] = some (0, []) := by
      unfold get_symlink check_entry
      rw [if_neg hl, check_entry_loop_step, if_pos i0, Int.toNat_zero, hb0,
        if_neg (by rw [m0]; simp), s0,
        check_entry_loop_step, if_pos i1, n1, hb1, if_neg (by rw [m1]; simp), s1,
        check_entry_loop_step, if_pos i2, n2, hb2, if_neg (by rw [m2]; simp), s2,
        check_entry_loop_step, if_neg i3]
    have hdir : is_dir (fuel + 4) dir_forged_archive [100, 105, 114, 47] = some 1 := by
      unfold is_dir check_entry
      rw [if_neg hl, check_entry_loop_step, if_pos i0, Int.toNat_zero, hb0, if_pos ⟨e0, d0⟩]
      rfl
    have hloop : list_loop dir_forged_archive [100, 105, 114, 47] 10 (fuel + 4) 0 [] =
        some [[100, 105, 114, 47, 97], [100, 105, 114, 47, 120]] := by
      rw [list_loop_step, if_pos i0, if_neg (by simp), Int.toNat_zero, hb0,
        if_neg (by rw [l0]; simp), s0,
        list_loop_step, if_pos i1, if_neg (by simp), n1, hb1, if_pos ⟨e1, l1⟩, s1, c1,
        list_loop_step, if_pos i2, if_neg (by simp), n2, hb2, if_pos ⟨e2, l2⟩, s2, c2,
        list_loop_step, if_neg i3]
      rfl
    have hp : ¬ strlen [100, 105, 114, 47] = 0 := by decide
    have hq : ¬ (cstr [100, 105, 114, 47]).getLast? ≠ some 47 := by decide
    rw [show fuel + 5 = (fuel + 4) + 1 from rfl, list, hsym]
    simp only [ne_eq, not_true_eq_false, if_false, hl, hdir, one_ne_zero, hp, hq, hloop]
    rfl

end LibTar
